import Mathlib

/-!
Verification development for the syntactic many-to-one matcher of
`matchpy/matching/syntactic.py` (FlatTerm linearization, discrimination net,
product construction, match driver, sequence matcher).

The Python source is shallowly embedded: mutable `_State` dictionaries become
association lists indexed by numeric state ids held in an arena; worklist
algorithms carry explicit fuel; Python exceptions become `Option`/`Except`
results.  Paths that are unreachable in the source (dangling state ids and the
like) are totalized in the way noted next to each definition.
-/

namespace MatchpySyn

/-- The (meta)data of an operation class: `commutative`, `associative` and
`arity = (min_count, fixed_size)` as carried by `Operation` subclasses.
The `tag` distinguishes different operation classes with equal flags. -/
structure OpType where
  tag : Nat
  commutative : Bool
  associative : Bool
  arityMin : Nat
  arityFixed : Bool
deriving DecidableEq, Repr

/-- A term atom appearing on a `FlatTerm` tape: a `Symbol` instance (with its
name and the list of symbol classes it is an instance of), a symbol class
(`Type[Symbol]`, produced for `SymbolWildcard`s), an operation head
(`Type[Operation]`), the `OPERATION_END` marker `)` or a plain `Wildcard`
instance. -/
inductive Atom where
  | symbol (name : Nat) (classes : List Nat)
  | symClass (c : Nat)
  | opHead (op : OpType)
  | opEnd
  | wild (minCount : Nat) (fixedSize : Bool)
deriving DecidableEq, Repr

/-- A transition key of a `_State` dictionary: a term atom, the class
`Wildcard` itself (the generic wildcard transition) or `EPSILON`. -/
inductive Label where
  | term (a : Atom)
  | anyAtom
  | epsilon
deriving DecidableEq, Repr

/-- The expression tree algebra consumed by the matcher, with the attributes
the source accesses: `Symbol` (name, classes), `Wildcard` (min_count,
fixed_size), `SymbolWildcard` (symbol_type; its min_count is 1 and its
fixed_size is true), `Operation` (class data plus operands) and the
transparent `Variable` wrapper. -/
inductive Expr where
  | symbol (name : Nat) (classes : List Nat)
  | wild (minCount : Nat) (fixedSize : Bool)
  | symWild (symbolType : Nat)
  | operation (op : OpType) (operands : List Expr)
  | var (name : Nat) (inner : Expr)
deriving Repr

/-- `is_operation(term)` on a tape atom. -/
def Atom.isOp : Atom → Bool
  | .opHead _ => true
  | _ => false

/-- A plain (non symbol) wildcard atom, i.e. the atoms subject to fusion in
`FlatTerm._combined_wildcards_iter`. -/
def Atom.isPlainWild : Atom → Bool
  | .wild _ _ => true
  | _ => false

mutual

/-- `FlatTerm._flatterm_iter`: prefix walk with operation end markers;
`Variable` wrappers are transparent, `SymbolWildcard`s become their
`symbol_type`. -/
def flattermIter : Expr → List Atom
  | .symbol n cs => [.symbol n cs]
  | .wild m f => [.wild m f]
  | .symWild t => [.symClass t]
  | .var _ inner => flattermIter inner
  | .operation op args => .opHead op :: flattermIterList args ++ [.opEnd]

/-- `_flatterm_iter` over a list of operands. -/
def flattermIterList : List Expr → List Atom
  | [] => []
  | e :: es => flattermIter e ++ flattermIterList es

end

/-- The body of `FlatTerm._combined_wildcards_iter`: the accumulator is the
`last_wildcard` local (the min count and fixed-size flag of the pending merged
wildcard). -/
def combinedAux (acc : Option (Nat × Bool)) : List Atom → List Atom
  | [] =>
    match acc with
    | some (m, f) => [.wild m f]
    | none => []
  | t :: ts =>
    match t with
    | .wild m2 f2 =>
      match acc with
      | some (m, f) => combinedAux (some (m + m2, f && f2)) ts
      | none => combinedAux (some (m2, f2)) ts
    | _ =>
      match acc with
      | some (m, f) => .wild m f :: t :: combinedAux none ts
      | none => t :: combinedAux none ts

/-- `FlatTerm._combined_wildcards_iter` on a whole tape. -/
def combinedWildcards (l : List Atom) : List Atom :=
  combinedAux none l

/-- `FlatTerm.__init__` on an `Expression` argument. -/
def flatTermOfExpr (e : Expr) : List Atom :=
  combinedWildcards (flattermIter e)

/-- `FlatTerm.__init__` on a pre-validated raw sequence of atoms (the
sequence is stored as-is). -/
def flatTermOfRaw (l : List Atom) : List Atom :=
  l

/-- `FlatTerm.merged`: concatenate and re-run wildcard fusion. -/
def flatTermMerged (ts : List (List Atom)) : List Atom :=
  combinedWildcards ts.flatten

/-- `FlatTerm.is_syntactic`: no non-fixed wildcard and no commutative or
associative operation head on the tape. -/
def isSyntacticTape : List Atom → Bool
  | [] => true
  | .wild _ f :: ts => f && isSyntacticTape ts
  | .opHead op :: ts => !(op.commutative || op.associative) && isSyntacticTape ts
  | _ :: ts => isSyntacticTape ts

/-- Total min count of a run of wildcard atoms (0 on non-wildcard atoms). -/
def runMinCount : List Atom → Nat
  | [] => 0
  | .wild m _ :: ts => m + runMinCount ts
  | _ :: ts => runMinCount ts

/-- Conjunction of the fixed-size flags of a run of wildcard atoms. -/
def runFixed : List Atom → Bool
  | [] => true
  | .wild _ f :: ts => f && runFixed ts
  | _ :: ts => runFixed ts

theorem length_dropWhile_le_self (p : Atom → Bool) (l : List Atom) :
    (l.dropWhile p).length ≤ l.length := by
  induction l with
  | nil => simp [List.dropWhile]
  | cons x xs ih =>
    by_cases h : p x
    · simp only [List.dropWhile, h]
      exact Nat.le_succ_of_le ih
    · simp [List.dropWhile, h]

/-- Reference form of wildcard fusion, following the specification's words:
every maximal run of consecutive plain wildcards is replaced by a single
wildcard whose min count is the sum of the run's min counts and whose
fixed-size flag is the conjunction of the run's flags; all other atoms
(symbol classes included) are left in place. -/
def specCombine : List Atom → List Atom
  | [] => []
  | t :: ts =>
    if t.isPlainWild then
      let run := t :: ts.takeWhile Atom.isPlainWild
      Atom.wild (runMinCount run) (runFixed run) :: specCombine (ts.dropWhile Atom.isPlainWild)
    else
      t :: specCombine ts
termination_by l => l.length
decreasing_by
  · simpa using Nat.lt_succ_of_le (length_dropWhile_le_self Atom.isPlainWild ts)
  · simp

/-- `noAdjacentPlainWild l` holds when no two adjacent atoms of `l` are both
plain wildcards. -/
def noAdjacentPlainWild : List Atom → Bool
  | [] => true
  | [_] => true
  | x :: y :: ts => !(x.isPlainWild && y.isPlainWild) && noAdjacentPlainWild (y :: ts)

theorem isPlainWild_wild (m : Nat) (f : Bool) : (Atom.wild m f).isPlainWild = true := rfl

theorem dropWhile_head_not (p : Atom → Bool) (l : List Atom) :
    ∀ d ds, l.dropWhile p = d :: ds → p d = false := by
  induction l with
  | nil => intro d ds h; simp [List.dropWhile] at h
  | cons x xs ih =>
    intro d ds h
    by_cases hx : p x
    · rw [List.dropWhile_cons_of_pos hx] at h
      exact ih d ds h
    · rw [List.dropWhile_cons_of_neg hx] at h
      cases h
      simpa using hx

theorem specCombine_nil : specCombine [] = [] := by
  rw [specCombine]

theorem specCombine_cons_wild (m : Nat) (f : Bool) (ts : List Atom) :
    specCombine (Atom.wild m f :: ts) =
      Atom.wild (runMinCount (Atom.wild m f :: ts.takeWhile Atom.isPlainWild))
        (runFixed (Atom.wild m f :: ts.takeWhile Atom.isPlainWild)) ::
        specCombine (ts.dropWhile Atom.isPlainWild) := by
  rw [specCombine]
  simp [Atom.isPlainWild]

theorem specCombine_cons_other (t : Atom) (ts : List Atom) (h : t.isPlainWild = false) :
    specCombine (t :: ts) = t :: specCombine ts := by
  rw [specCombine]
  simp [h]

theorem combinedAux_spec (l : List Atom) :
    (∀ m f, combinedAux (some (m, f)) l =
      Atom.wild (m + runMinCount (l.takeWhile Atom.isPlainWild))
        (f && runFixed (l.takeWhile Atom.isPlainWild)) ::
        specCombine (l.dropWhile Atom.isPlainWild)) ∧
    combinedAux none l = specCombine l := by
  induction l with
  | nil =>
    constructor
    · intro m f
      simp [combinedAux, runMinCount, runFixed, specCombine_nil]
    · simp [combinedAux, specCombine_nil]
  | cons t ts ih =>
    rcases ih with ⟨ihSome, ihNone⟩
    constructor
    · intro m f
      cases t with
      | wild m2 f2 =>
        rw [show combinedAux (some (m, f)) (Atom.wild m2 f2 :: ts) =
            combinedAux (some (m + m2, f && f2)) ts from rfl]
        rw [ihSome (m + m2) (f && f2)]
        rw [List.takeWhile_cons_of_pos (by simp [Atom.isPlainWild]),
          List.dropWhile_cons_of_pos (by simp [Atom.isPlainWild])]
        simp [runMinCount, runFixed, Nat.add_assoc, Bool.and_assoc]
      | symbol n cs =>
        rw [show combinedAux (some (m, f)) (Atom.symbol n cs :: ts) =
            Atom.wild m f :: Atom.symbol n cs :: combinedAux none ts from rfl]
        rw [ihNone,
          List.takeWhile_cons_of_neg (by simp [Atom.isPlainWild]),
          List.dropWhile_cons_of_neg (by simp [Atom.isPlainWild]),
          specCombine_cons_other _ _ (by simp [Atom.isPlainWild])]
        simp [runMinCount, runFixed]
      | symClass c =>
        rw [show combinedAux (some (m, f)) (Atom.symClass c :: ts) =
            Atom.wild m f :: Atom.symClass c :: combinedAux none ts from rfl]
        rw [ihNone,
          List.takeWhile_cons_of_neg (by simp [Atom.isPlainWild]),
          List.dropWhile_cons_of_neg (by simp [Atom.isPlainWild]),
          specCombine_cons_other _ _ (by simp [Atom.isPlainWild])]
        simp [runMinCount, runFixed]
      | opHead op =>
        rw [show combinedAux (some (m, f)) (Atom.opHead op :: ts) =
            Atom.wild m f :: Atom.opHead op :: combinedAux none ts from rfl]
        rw [ihNone,
          List.takeWhile_cons_of_neg (by simp [Atom.isPlainWild]),
          List.dropWhile_cons_of_neg (by simp [Atom.isPlainWild]),
          specCombine_cons_other _ _ (by simp [Atom.isPlainWild])]
        simp [runMinCount, runFixed]
      | opEnd =>
        rw [show combinedAux (some (m, f)) (Atom.opEnd :: ts) =
            Atom.wild m f :: Atom.opEnd :: combinedAux none ts from rfl]
        rw [ihNone,
          List.takeWhile_cons_of_neg (by simp [Atom.isPlainWild]),
          List.dropWhile_cons_of_neg (by simp [Atom.isPlainWild]),
          specCombine_cons_other _ _ (by simp [Atom.isPlainWild])]
        simp [runMinCount, runFixed]
    · cases t with
      | wild m2 f2 =>
        rw [show combinedAux none (Atom.wild m2 f2 :: ts) =
            combinedAux (some (m2, f2)) ts from rfl]
        rw [ihSome m2 f2, specCombine_cons_wild]
        simp [runMinCount, runFixed]
      | symbol n cs =>
        rw [show combinedAux none (Atom.symbol n cs :: ts) =
            Atom.symbol n cs :: combinedAux none ts from rfl]
        rw [ihNone, specCombine_cons_other _ _ (by simp [Atom.isPlainWild])]
      | symClass c =>
        rw [show combinedAux none (Atom.symClass c :: ts) =
            Atom.symClass c :: combinedAux none ts from rfl]
        rw [ihNone, specCombine_cons_other _ _ (by simp [Atom.isPlainWild])]
      | opHead op =>
        rw [show combinedAux none (Atom.opHead op :: ts) =
            Atom.opHead op :: combinedAux none ts from rfl]
        rw [ihNone, specCombine_cons_other _ _ (by simp [Atom.isPlainWild])]
      | opEnd =>
        rw [show combinedAux none (Atom.opEnd :: ts) =
            Atom.opEnd :: combinedAux none ts from rfl]
        rw [ihNone, specCombine_cons_other _ _ (by simp [Atom.isPlainWild])]

theorem combinedWildcards_eq_spec (l : List Atom) :
    combinedWildcards l = specCombine l :=
  (combinedAux_spec l).2

theorem noAdj_specCombine_bounded :
    ∀ n (l : List Atom), l.length ≤ n → noAdjacentPlainWild (specCombine l) = true := by
  intro n
  induction n with
  | zero =>
    intro l hl
    rw [List.length_eq_zero.mp (Nat.le_zero.mp hl)]
    simp [specCombine_nil, noAdjacentPlainWild]
  | succ n ih =>
    intro l hl
    cases l with
    | nil => simp [specCombine_nil, noAdjacentPlainWild]
    | cons t ts =>
      have hts : ts.length ≤ n := by simpa using Nat.lt_succ_iff.mp (Nat.lt_of_lt_of_le (by simp) hl)
      by_cases ht : t.isPlainWild = true
      · obtain ⟨m, f, rfl⟩ : ∃ m f, t = Atom.wild m f := by
          cases t <;> simp [Atom.isPlainWild] at ht ⊢
        rw [specCombine_cons_wild]
        rcases hd : ts.dropWhile Atom.isPlainWild with _ | ⟨d, ds⟩
        · simp [specCombine_nil, noAdjacentPlainWild]
        · have hdw : d.isPlainWild = false := dropWhile_head_not _ _ _ _ hd
          rw [specCombine_cons_other _ _ hdw]
          have hlen : (d :: ds).length ≤ n := by
            have := length_dropWhile_le_self Atom.isPlainWild ts
            rw [hd] at this
            exact Nat.le_trans this hts
          have hrec := ih (d :: ds) hlen
          rw [specCombine_cons_other _ _ hdw] at hrec
          simpa [noAdjacentPlainWild, isPlainWild_wild, hdw] using hrec
      · have htf : t.isPlainWild = false := by simpa using ht
        rw [specCombine_cons_other _ _ htf]
        have hrec := ih ts hts
        rcases hs : specCombine ts with _ | ⟨x, xs⟩
        · simp [noAdjacentPlainWild]
        · rw [hs] at hrec
          simpa [noAdjacentPlainWild, htf] using hrec

theorem noAdj_specCombine (l : List Atom) :
    noAdjacentPlainWild (specCombine l) = true :=
  noAdj_specCombine_bounded l.length l le_rfl

/-- C3: constructing a `FlatTerm` from an expression tree replaces every
maximal run of consecutive plain wildcards by a single `Wildcard` whose
min count is the sum of the run's min counts and whose fixed-size flag is
the conjunction of the run's flags; symbol wildcards (which appear on the
tape as symbol classes, not as plain `Wildcard`s) are never merged into such
a run. -/
theorem claim3_flatterm_fuses_wildcard_runs (e : Expr) :
    flatTermOfExpr e = specCombine (flattermIter e) ∧
    (∀ t : Atom, t.isPlainWild = true ↔ ∃ m f, t = Atom.wild m f) := by
  refine ⟨combinedWildcards_eq_spec (flattermIter e), ?_⟩
  intro t
  cases t <;> simp [Atom.isPlainWild]

/-- C4: no `FlatTerm` tape produced by the three constructions (from an
expression tree; from a pre-validated raw atom sequence; via `merged`) has
two adjacent plain wildcard atoms. -/
theorem claim4_no_adjacent_plain_wildcards :
    (∀ e : Expr, noAdjacentPlainWild (flatTermOfExpr e) = true) ∧
    (∀ l : List Atom, noAdjacentPlainWild l = true →
      noAdjacentPlainWild (flatTermOfRaw l) = true) ∧
    (∀ ts : List (List Atom), noAdjacentPlainWild (flatTermMerged ts) = true) := by
  refine ⟨?_, ?_, ?_⟩
  · intro e
    rw [flatTermOfExpr, combinedWildcards_eq_spec]
    exact noAdj_specCombine _
  · intro l h
    exact h
  · intro ts
    rw [flatTermMerged, combinedWildcards_eq_spec]
    exact noAdj_specCombine _

/-- C4 witness: the theorem instantiated at concrete inputs. -/
theorem claim4_witness :
    noAdjacentPlainWild (flatTermOfExpr (.operation ⟨0, false, false, 0, false⟩
      [.wild 1 true, .wild 0 false, .symbol 0 []])) = true ∧
    noAdjacentPlainWild (flatTermOfRaw [.wild 1 true, .symbol 0 [], .wild 2 false]) = true ∧
    noAdjacentPlainWild (flatTermMerged [[.wild 1 true], [.wild 0 false, .symbol 0 []]]) = true :=
  ⟨claim4_no_adjacent_plain_wildcards.1 _,
   claim4_no_adjacent_plain_wildcards.2.1 _ (by decide),
   claim4_no_adjacent_plain_wildcards.2.2 _⟩

/-- C5: a `FlatTerm` is syntactic exactly when every wildcard atom on it is
fixed-size and no operation head on it is commutative or associative. -/
theorem claim5_is_syntactic_iff (t : List Atom) :
    isSyntacticTape t = true ↔
      ((∀ m f, Atom.wild m f ∈ t → f = true) ∧
       (∀ op, Atom.opHead op ∈ t → op.commutative = false ∧ op.associative = false)) := by
  induction t with
  | nil => simp [isSyntacticTape]
  | cons x ts ih =>
    cases x with
    | wild m f =>
      simp only [isSyntacticTape, Bool.and_eq_true, ih, List.mem_cons]
      constructor
      · rintro ⟨hf, h1, h2⟩
        refine ⟨?_, ?_⟩
        · rintro m2 f2 (heq | hmem)
          · injection heq with hm2 hf2
            rw [hf2]; exact hf
          · exact h1 m2 f2 hmem
        · rintro op (heq | hmem)
          · simp at heq
          · exact h2 op hmem
      · rintro ⟨h1, h2⟩
        exact ⟨h1 m f (Or.inl rfl), fun m2 f2 hm => h1 m2 f2 (Or.inr hm),
          fun op hm => h2 op (Or.inr hm)⟩
    | opHead op =>
      simp only [isSyntacticTape, Bool.and_eq_true, ih, List.mem_cons]
      constructor
      · rintro ⟨hf, h1, h2⟩
        refine ⟨?_, ?_⟩
        · rintro m2 f2 (heq | hmem)
          · simp at heq
          · exact h1 m2 f2 hmem
        · rintro op2 (heq | hmem)
          · injection heq with hop
            rw [hop]
            simp only [Bool.not_eq_true'] at hf
            exact Bool.or_eq_false_iff.mp hf
          · exact h2 op2 hmem
      · rintro ⟨h1, h2⟩
        have hop := h2 op (Or.inl rfl)
        refine ⟨by simp [hop.1, hop.2], fun m2 f2 hm => h1 m2 f2 (Or.inr hm),
          fun op2 hm => h2 op2 (Or.inr hm)⟩
    | symbol n cs =>
      simp only [isSyntacticTape, ih, List.mem_cons]
      constructor
      · rintro ⟨h1, h2⟩
        refine ⟨?_, ?_⟩
        · rintro m2 f2 (heq | hmem)
          · simp at heq
          · exact h1 m2 f2 hmem
        · rintro op2 (heq | hmem)
          · simp at heq
          · exact h2 op2 hmem
      · rintro ⟨h1, h2⟩
        exact ⟨fun m2 f2 hm => h1 m2 f2 (Or.inr hm), fun op2 hm => h2 op2 (Or.inr hm)⟩
    | symClass c =>
      simp only [isSyntacticTape, ih, List.mem_cons]
      constructor
      · rintro ⟨h1, h2⟩
        refine ⟨?_, ?_⟩
        · rintro m2 f2 (heq | hmem)
          · simp at heq
          · exact h1 m2 f2 hmem
        · rintro op2 (heq | hmem)
          · simp at heq
          · exact h2 op2 hmem
      · rintro ⟨h1, h2⟩
        exact ⟨fun m2 f2 hm => h1 m2 f2 (Or.inr hm), fun op2 hm => h2 op2 (Or.inr hm)⟩
    | opEnd =>
      simp only [isSyntacticTape, ih, List.mem_cons]
      constructor
      · rintro ⟨h1, h2⟩
        refine ⟨?_, ?_⟩
        · rintro m2 f2 (heq | hmem)
          · simp at heq
          · exact h1 m2 f2 hmem
        · rintro op2 (heq | hmem)
          · simp at heq
          · exact h2 op2 hmem
      · rintro ⟨h1, h2⟩
        exact ⟨fun m2 f2 hm => h1 m2 f2 (Or.inr hm), fun op2 hm => h2 op2 (Or.inr hm)⟩

/-! ### Automata

A `_State` is a dictionary from transition labels to states together with a
payload; states are held in an arena (`Auto`) and referenced by ids so that
the wildcard self-loops of the source can be represented. -/

/-- First value bound to a key in an association list (Python `dict` lookup). -/
def alookup [DecidableEq κ] : List (κ × α) → κ → Option α
  | [], _ => none
  | (k, v) :: ts, i => if k = i then some v else alookup ts i

/-- Python `dict` assignment: replace the value in place if the key exists,
append otherwise. -/
def setKey [DecidableEq κ] : List (κ × α) → κ → α → List (κ × α)
  | [], k, v => [(k, v)]
  | (k2, v2) :: ts, k, v => if k2 = k then (k, v) :: ts else (k2, v2) :: setKey ts k v

/-- The data of a `_State`: its transition dictionary (in insertion order) and
its payload of pattern indices. -/
structure NState (σ : Type) where
  trans : List (Label × σ)
  payload : List Nat
deriving Repr, DecidableEq

/-- An automaton: an arena of states indexed by `σ` plus its root. -/
structure Auto (σ : Type) where
  states : List (σ × NState σ)
  root : σ
deriving Repr, DecidableEq

/-- Resolve a state id in the arena. -/
def Auto.find [DecidableEq σ] (A : Auto σ) (i : σ) : Option (NState σ) :=
  alookup A.states i

/-- The payload of a state; a dangling id (impossible in the source, where
ids are object references) yields the empty payload. -/
def payloadAt [DecidableEq σ] (A : Auto σ) (i : σ) : List Nat :=
  match A.find i with
  | some d => d.payload
  | none => []

/-- The transition of a state on a label; a dangling source id behaves like a
state with no transitions. -/
def transAt [DecidableEq σ] (A : Auto σ) (i : σ) (l : Label) : Option σ :=
  match A.find i with
  | some d => alookup d.trans l
  | none => none

/-- The keys of a state's transition dictionary, in insertion order. -/
def keysAt [DecidableEq σ] (A : Auto σ) (i : σ) : List Label :=
  match A.find i with
  | some d => d.trans.map Prod.fst
  | none => []

/-- `_get_symbol_wildcard_label`: the first transition key that is a symbol
class of which the symbol (given by its class list) is an instance. -/
def symWildKey (classes : List Nat) : List (Label × σ) → Option Label
  | [] => none
  | (Label.term (Atom.symClass c), _) :: ts =>
    if c ∈ classes then some (Label.term (Atom.symClass c)) else symWildKey classes ts
  | _ :: ts => symWildKey classes ts

/-- `symWildKey` applied to a state of the arena. -/
def symWildKeyAt [DecidableEq σ] (A : Auto σ) (i : σ) (classes : List Nat) : Option Label :=
  match A.find i with
  | some d => symWildKey classes d.trans
  | none => none

/-- `is_operation(label)` on a transition label. -/
def Label.isOp : Label → Bool
  | .term (.opHead _) => true
  | _ => false

/-- `DiscriminationNet._get_next_state`: exact lookup first; on a miss and a
label other than `OPERATION_END`, a symbol-wildcard transition for symbols,
then the generic wildcard transition (reported in the second component); any
remaining `KeyError` yields `None`. -/
def getNextState [DecidableEq σ] (A : Auto σ) (s : Option σ) (l : Label) (fixed : Bool) :
    Option σ × Bool :=
  if fixed then (s, false)
  else
    match s with
    | none => (none, false)
    | some i =>
      match transAt A i l with
      | some t => (some t, false)
      | none =>
        if l = .term .opEnd then (none, false)
        else
          match l with
          | .term (.symbol _ cs) =>
            match symWildKeyAt A i cs with
            | some k =>
              match transAt A i k with
              | some t => (some t, false)
              | none => (none, false)
            | none =>
              match transAt A i .anyAtom with
              | some t => (some t, true)
              | none => (none, false)
          | _ =>
            match transAt A i .anyAtom with
            | some t => (some t, true)
            | none => (none, false)

/-- The result type of the match driver: the only exception the driver itself
raises is the `TypeError` for a non-terminal atom on the subject tape. -/
inductive MatchErr where
  | nonTerminalAtom
  | indexErr
  | labelErr
deriving DecidableEq, Repr

/-- The outcome of one depth-0 lookup of `_match`: advance to a state at a
depth (extending `result` with its payload), soft-fail (`return result if
collect else []`), hard-fail on `OPERATION_END` (`return []`), or raise the
`TypeError` for a non-terminal atom. -/
inductive StepOut (σ : Type) where
  | go (s : σ) (depth : Nat)
  | fail
  | failEmpty
  | err
deriving Repr, DecidableEq

/-- The depth-0 transition lookup of `_match`: exact transition, then for an
operation head the wildcard transition (entering skip mode at depth 1), for
`OPERATION_END` the hard failure, for a symbol the symbol-wildcard
transition and then the wildcard transition. -/
def matchStep [DecidableEq σ] (A : Auto σ) (s : σ) (t : Atom) : StepOut σ :=
  match transAt A s (.term t) with
  | some s2 => .go s2 0
  | none =>
    match t with
    | .opHead _ =>
      match transAt A s .anyAtom with
      | some s2 => .go s2 1
      | none => .fail
    | .opEnd => .failEmpty
    | .symbol _ cs =>
      match symWildKeyAt A s cs with
      | some k =>
        match transAt A s k with
        | some s2 => .go s2 0
        | none => .fail
      | none =>
        match transAt A s .anyAtom with
        | some s2 => .go s2 0
        | none => .fail
    | _ => .err

/-- The depth-counter adjustment while skipping a subtree. -/
def skipAdjust (t : Atom) (depth : Nat) : Nat :=
  match t with
  | .opHead _ => depth + 1
  | .opEnd => depth - 1
  | _ => depth

/-- The loop of `DiscriminationNet._match`, over the remaining tape, the
current state, the skip-subtree depth counter and the accumulated `result`
list. -/
def matchLoop [DecidableEq σ] (A : Auto σ) (collect first : Bool) :
    List Atom → σ → Nat → List Nat → Except MatchErr (List Nat)
  | [], s, _, result => .ok (if collect then result else payloadAt A s)
  | t :: ts, s, depth, result =>
    if 0 < depth then
      matchLoop A collect first ts s (skipAdjust t depth) result
    else if first && !(payloadAt A s).isEmpty then .ok (payloadAt A s)
    else
      match matchStep A s t with
      | .go s2 d2 => matchLoop A collect first ts s2 d2 (result ++ payloadAt A s2)
      | .fail => .ok (if collect then result else [])
      | .failEmpty => .ok []
      | .err => .error .nonTerminalAtom

/-- `DiscriminationNet._match` on a flatterm tape. -/
def matchRun [DecidableEq σ] (A : Auto σ) (tape : List Atom) (collect : Bool) (first : Bool) :
    Except MatchErr (List Nat) :=
  matchLoop A collect first tape A.root 0 (payloadAt A A.root)

/-- Add a fresh (empty) state with id `tgt` reached from `src` via `lbl`
(`DiscriminationNet._create_child_state`). -/
def createChild (sts : List (Nat × NState Nat)) (src : Nat) (lbl : Label) (tgt : Nat) :
    List (Nat × NState Nat) :=
  (sts.map fun (i, d) => if i = src then (i, { d with trans := setKey d.trans lbl tgt }) else (i, d))
    ++ [(tgt, ⟨[], []⟩)]

/-- Chain of `count` fresh states from `cur` along label `lbl`
(`DiscriminationNet._generate_state_chain`); returns the new current id, the
next free id and the extended arena. -/
def stateChain (cur free : Nat) (lbl : Label) (sts : List (Nat × NState Nat)) :
    Nat → Nat × Nat × List (Nat × NState Nat)
  | 0 => (cur, free, sts)
  | n + 1 => stateChain free (free + 1) lbl (createChild sts cur lbl free) n

/-- Update the payload of the state with id `i`. -/
def setPayload (sts : List (Nat × NState Nat)) (i : Nat) (p : List Nat) :
    List (Nat × NState Nat) :=
  sts.map fun (k, d) => if k = i then (k, { d with payload := p }) else (k, d)

/-- `DiscriminationNet._generate_syntactic_net`: a straight chain, with
wildcards of min count `k` becoming `k` generic wildcard edges; the final
state's payload is the pattern index. -/
def synStep (acc : Nat × Nat × List (Nat × NState Nat)) (t : Atom) :
    Nat × Nat × List (Nat × NState Nat) :=
  let (cur, free, sts) := acc
  match t with
  | .wild m _ => stateChain cur free .anyAtom sts m
  | _ => (free, free + 1, createChild sts cur (.term t) free)

def generateSyntacticNet (ft : List Atom) (finalLabel : Nat) : Auto Nat :=
  let init : Nat × Nat × List (Nat × NState Nat) := (1, 2, [(1, ⟨[], []⟩)])
  let (cur, _, sts) := ft.foldl synStep init
  ⟨setPayload sts cur [finalLabel], 1⟩

/-! ### Product construction -/

/-- A product state key `(id1, id2, depth)`; the id `0` stands for a failed
(`None`) side, as in the source where state ids start at 1. -/
abbrev PKey : Type := Nat × Nat × Int

/-- `_StateQueueItem`. -/
structure QItem where
  state1 : Option Nat
  state2 : Option Nat
  id1 : Nat
  id2 : Nat
  payload : List Nat
  depth : Int
  fixed : Nat
deriving Repr, DecidableEq

/-- `_StateQueueItem.__init__`: ids default to 0 for a failed side and the
payload is the concatenation of the two states' payloads. -/
def mkQItem (A B : Auto Nat) (s1 s2 : Option Nat) : QItem :=
  { state1 := s1
    state2 := s2
    id1 := s1.getD 0
    id2 := s2.getD 0
    payload := (match s1 with | some i => payloadAt A i | none => []) ++
               (match s2 with | some i => payloadAt B i | none => [])
    depth := 0
    fixed := 0 }

/-- Keep the first occurrence of each element not already seen. -/
def dedupSeen [DecidableEq α] (seen : List α) : List α → List α
  | [] => []
  | x :: xs => if x ∈ seen then dedupSeen seen xs else x :: dedupSeen (seen ++ [x]) xs

/-- Keep the first occurrence of each element (documents the iteration order
chosen for the source's label `set`). -/
def dedupKeepFirst [DecidableEq α] (l : List α) : List α :=
  dedupSeen [] l

/-- `_StateQueueItem.labels`: the union of both sides' transition keys, a
fixed side excluded and replaced by the generic wildcard transition, plus
`OPERATION_END` when the non-fixed side has already failed.  The source
iterates over a Python `set`; the embedding fixes the order
(side 1 keys, side 2 keys, `OPERATION_END`, wildcard, first occurrence
kept). -/
def qlabels (A B : Auto Nat) (q : QItem) : List Label :=
  let l1 := match q.state1 with
    | some i => if q.fixed ≠ 1 then keysAt A i else []
    | none => []
  let l2 := match q.state2 with
    | some i => if q.fixed ≠ 2 then keysAt B i else []
    | none => []
  let lEnd : List Label :=
    if q.fixed = 1 ∧ q.state2 = none then [.term .opEnd]
    else if q.fixed = 2 ∧ q.state1 = none then [.term .opEnd]
    else []
  let lAny : List Label := if q.fixed ≠ 0 then [.anyAtom] else []
  dedupKeepFirst (l1 ++ l2 ++ (if q.fixed ≠ 0 then lEnd ++ lAny else []))

/-- One label step of the product worklist body: next states on both sides,
then reconciliation of operation nesting.  Returns `none` exactly where the
source would raise (`AttributeError`/`KeyError`/`AssertionError` on states
that the construction never reaches). -/
def productChild (A B : Auto Nat) (q : QItem) (l : Label) : Option QItem :=
  let t1 := (getNextState A q.state1 l (q.fixed == 1)).1
  let w1 := (getNextState A q.state1 l (q.fixed == 1)).2
  let t2 := (getNextState B q.state2 l (q.fixed == 2)).1
  let w2 := (getNextState B q.state2 l (q.fixed == 2)).2
  let c0 : QItem :=
    { mkQItem A B t1 t2 with depth := q.depth, fixed := q.fixed }
  if l.isOp then
    if q.fixed ≠ 0 then
      some { c0 with depth := c0.depth + 1 }
    else if w1 then
      match t2, q.state1 with
      | some s2, some s1 =>
        some { c0 with fixed := 1, depth := 1, state1 := q.state1, id1 := q.id1,
                       payload := payloadAt B s2 ++ payloadAt A s1 }
      | _, _ => none
    else if w2 then
      match t1, q.state2 with
      | some s1, some s2 =>
        some { c0 with fixed := 2, depth := 1, state2 := q.state2, id2 := q.id2,
                       payload := payloadAt A s1 ++ payloadAt B s2 }
      | _, _ => none
    else
      some c0
  else if l = .term .opEnd ∧ q.fixed ≠ 0 then
    let c1 := { c0 with depth := c0.depth - 1 }
    if c1.depth = 0 then
      if c1.fixed = 1 then
        match c1.state1 with
        | some s1 =>
          match transAt A s1 .anyAtom with
          | some w =>
            some { c1 with fixed := 0, state1 := some w, id1 := w,
                           payload := c1.payload ++ payloadAt A w }
          | none => none
        | none => none
      else if c1.fixed = 2 then
        match c1.state2 with
        | some s2 =>
          match transAt B s2 .anyAtom with
          | some w =>
            some { c1 with fixed := 0, state2 := some w, id2 := w,
                           payload := c1.payload ++ payloadAt B w }
          | none => none
        | none => none
      else none
    else
      some c1
  else
    some c0

/-- The key of a queue item. -/
def QItem.key (q : QItem) : PKey :=
  (q.id1, q.id2, q.depth)

/-- Process the labels of one queue item: threads the arena of product
states, the list of newly enqueued items and the transition dictionary of
the state being processed. -/
def productLabels (A B : Auto Nat) (q : QItem) :
    List Label → List (PKey × NState PKey) → List QItem → List (Label × PKey) →
    Option (List (PKey × NState PKey) × List QItem × List (Label × PKey))
  | [], sts, items, tr => some (sts, items, tr)
  | l :: ls, sts, items, tr =>
    match productChild A B q l with
    | none => none
    | some c =>
      match alookup sts c.key with
      | some _ => productLabels A B q ls sts items (setKey tr l c.key)
      | none =>
        productLabels A B q ls (sts ++ [(c.key, ⟨[], c.payload⟩)]) (items ++ [c])
          (setKey tr l c.key)

/-- Replace the transition dictionary of the product state `k`. -/
def setTransP (sts : List (PKey × NState PKey)) (k : PKey) (tr : List (Label × PKey)) :
    List (PKey × NState PKey) :=
  sts.map fun (i, d) => if i = k then (i, { d with trans := tr }) else (i, d)

/-- The worklist of `DiscriminationNet._product_net`, with explicit fuel;
`none` means the fuel ran out or an unreachable branch was hit. -/
def productLoop (A B : Auto Nat) :
    Nat → List QItem → List (PKey × NState PKey) → Option (List (PKey × NState PKey))
  | 0, _, _ => none
  | _ + 1, [], sts => some sts
  | fuel + 1, q :: rest, sts =>
    match alookup sts q.key with
    | none => none
    | some cur =>
      match productLabels A B q (qlabels A B q) sts [] cur.trans with
      | none => none
      | some (sts2, items, tr) =>
        productLoop A B fuel (rest ++ items) (setTransP sts2 q.key tr)

/-- `DiscriminationNet._product_net`: the root product state is created with
an empty payload and the queue starts from the pair of roots. -/
def productNet (A B : Auto Nat) (fuel : Nat) : Option (Auto PKey) :=
  let q0 := mkQItem A B (some A.root) (some B.root)
  let rootKey : PKey := (A.root, B.root, 0)
  match productLoop A B fuel [q0] [(rootKey, ⟨[], []⟩)] with
  | none => none
  | some sts => some ⟨sts, rootKey⟩

/-! ### General (non-syntactic) per-pattern nets: NFA builder and subset
construction -/

/-- Python list indexing with negative indices; `none` is an `IndexError`. -/
def pyIdx (l : List Nat) (i : Int) : Option Nat :=
  if 0 ≤ i then l.get? i.toNat
  else
    let j : Int := Int.ofNat l.length + i
    if 0 ≤ j then l.get? j.toNat else none

/-- A `fail_states` stack entry: absent, a single backtrack state (variadic
heads) or a per-operand vector (fixed-arity heads). -/
abbrev FailEntry : Type := Option (Sum Nat (List Nat))

/-- The `last_fail_state` expression: the entry itself for a non-list entry,
the `operand_counts[-1]`-indexed element for a vector entry.  The outer
`Option` is an `IndexError`, the inner one is Python `None`. -/
def lastFailState (fs : FailEntry) (cnt : Int) : Option (Option Nat) :=
  match fs with
  | none => some none
  | some (.inl i) => some (some i)
  | some (.inr l) =>
    match pyIdx l cnt with
    | some i => some (some i)
    | none => none

/-- The mutable locals of `DiscriminationNet._generate_net`; the stacks keep
their top element at the head. -/
structure GenSt where
  lastW : List (Option Nat)
  failS : List FailEntry
  counts : List Int
  cur : Nat
  free : Nat
  sts : List (Nat × NState Nat)
deriving Repr

/-- Set a single transition on an existing state of the arena. -/
def setTransState (sts : List (Nat × NState Nat)) (src : Nat) (l : Label) (tgt : Nat) :
    List (Nat × NState Nat) :=
  sts.map fun (i, d) => if i = src then (i, { d with trans := setKey d.trans l tgt }) else (i, d)

/-- Append a fresh empty state. -/
def addFreshState (sts : List (Nat × NState Nat)) (i : Nat) : List (Nat × NState Nat) :=
  sts ++ [(i, ⟨[], []⟩)]

/-- The chain-building loop of the fixed-arity fail ladder. -/
def failLadderGo (target : Nat) (cur free : Nat) (acc : List Nat)
    (sts : List (Nat × NState Nat)) :
    Nat → List Nat × Nat × List (Nat × NState Nat)
  | 0 => (acc, free, setTransState sts cur (.term .opEnd) target)
  | n + 1 =>
    let sts2 := addFreshState sts free
    let sts3 := setTransState sts2 cur .anyAtom free
    failLadderGo target free (free + 1) (acc ++ [free]) sts3 n

/-- Build the fail ladder for a fixed-arity operation head: `arityMin + 1`
states chained by wildcard edges, the last one closing with an
`OPERATION_END` edge to `target`.  Returns the ladder ids in creation
order, the next free id and the arena. -/
def failLadder (free : Nat) (arityMin : Nat) (target : Nat) (sts : List (Nat × NState Nat)) :
    List Nat × Nat × List (Nat × NState Nat) :=
  failLadderGo target free (free + 1) [free] (addFreshState sts free) arityMin

/-- The epsilon-edge installation performed after every atom of
`_generate_net` (`state[EPSILON] = ...`). -/
def genEpsStep (st : GenSt) : Option GenSt :=
  match st.lastW.head? with
  | none => none
  | some lw =>
    if lw = some st.cur then
      some st
    else
      match lw with
      | some w => some { st with sts := setTransState st.sts st.cur .epsilon w }
      | none =>
        match st.failS.head? with
        | none => none
        | some fe =>
          match fe with
          | none => some st
          | _ =>
            match st.counts.head? with
            | none => none
            | some cnt =>
              match lastFailState fe cnt with
              | none => none
              | some lf =>
                match lf with
                | some tgt =>
                  some { st with sts := setTransState st.sts st.cur .epsilon tgt }
                | none => some st

/-- The inner update of one atom of the `_generate_net` walk (before the
epsilon-edge installation). -/
def genStepCore (st : GenSt) (t : Atom) : Option GenSt :=
  match t with
  | .wild m f =>
    let r := stateChain st.cur st.free .anyAtom st.sts m
    if f then
      some { st with cur := r.1, free := r.2.1, sts := r.2.2 }
    else
      some { st with cur := r.1, free := r.2.1,
                     sts := setTransState r.2.2 r.1 .anyAtom r.1,
                     lastW := some r.1 :: st.lastW.tail,
                     counts := (-1 : Int) :: st.counts.tail }
  | .opHead op =>
    let here := st.free
    let st1 := { st with cur := here, free := st.free + 1,
                         sts := createChild st.sts st.cur (.term (.opHead op)) here }
    match st1.lastW.head? with
    | none => none
    | some lw =>
      match st1.failS.head? with
      | none => none
      | some fe =>
        if lw.isSome || fe.isSome then
          match st1.counts.head? with
          | none => none
          | some cnt =>
            match lastFailState fe cnt with
            | none => none
            | some lf =>
              if op.arityFixed then
                match lw <|> lf with
                | none => none
                | some target =>
                  let r := failLadder st1.free op.arityMin target st1.sts
                  some { st1 with free := r.2.1, sts := r.2.2,
                                  failS := some (.inr r.1) :: st1.failS,
                                  lastW := none :: st1.lastW,
                                  counts := (0 : Int) :: st1.counts }
              else
                match lw <|> lf with
                | none => none
                | some target =>
                  let fid := st1.free
                  let sts2 := addFreshState st1.sts fid
                  let sts3 := setTransState sts2 fid (.term .opEnd) target
                  let sts4 := setTransState sts3 fid .anyAtom fid
                  some { st1 with free := fid + 1, sts := sts4,
                                  failS := some (.inl fid) :: st1.failS,
                                  lastW := none :: st1.lastW,
                                  counts := (0 : Int) :: st1.counts }
        else
          some { st1 with failS := (none : FailEntry) :: st1.failS,
                          lastW := none :: st1.lastW,
                          counts := (0 : Int) :: st1.counts }
  | .opEnd =>
    let here := st.free
    let st1 := { st with cur := here, free := st.free + 1,
                         sts := createChild st.sts st.cur (.term .opEnd) here }
    match st1.failS, st1.lastW, st1.counts with
    | _ :: fs, _ :: ws, _ :: cs => some { st1 with failS := fs, lastW := ws, counts := cs }
    | _, _, _ => none
  | _ =>
    some { st with cur := st.free, free := st.free + 1,
                   sts := createChild st.sts st.cur (.term t) st.free }

/-- One atom of the `_generate_net` walk. -/
def genStep (st0 : GenSt) (t : Atom) : Option GenSt :=
  match st0.counts.head? with
  | none => none
  | some cnt0 =>
    let st := { st0 with counts := (if 0 ≤ cnt0 then cnt0 + 1 else cnt0) :: st0.counts.tail }
    match genStepCore st t with
    | none => none
    | some st2 => genEpsStep st2

/-- Fold `genStep` over the tape. -/
def genWalk : GenSt → List Atom → Option GenSt
  | st, [] => some st
  | st, t :: ts =>
    match genStep st t with
    | none => none
    | some st2 => genWalk st2 ts

/-! Subset construction (`_convert_nfa_to_dfa`). -/

/-- Insert into a sorted list of naturals. -/
def insertSorted (x : Nat) : List Nat → List Nat
  | [] => [x]
  | y :: ys => if x ≤ y then x :: y :: ys else y :: insertSorted x ys

/-- Sort a list of naturals. -/
def sortNat (l : List Nat) : List Nat :=
  l.foldr insertSorted []

/-- Canonical form of an NFA state set (the source uses `frozenset`s). -/
def canonSet (l : List Nat) : List Nat :=
  sortNat (dedupKeepFirst l)

/-- One pass of `_epsilon_closure`: the epsilon successors of the members
that are not yet present. -/
def epsClosurePass (sts : List (Nat × NState Nat)) (acc : List Nat) : List Nat :=
  dedupKeepFirst ((acc.filterMap fun i =>
    match alookup sts i with
    | some d => alookup d.trans .epsilon
    | none => none).filter (fun j => decide (j ∉ acc)))

/-- Iterate `epsClosurePass` to a fixed point (the number of states bounds
the number of useful passes). -/
def epsClosureGo (sts : List (Nat × NState Nat)) : Nat → List Nat → List Nat
  | 0, acc => acc
  | n + 1, acc =>
    let add := epsClosurePass sts acc
    if add = [] then acc else epsClosureGo sts n (acc ++ add)

/-- `_epsilon_closure`, canonicalized. -/
def epsClosure (sts : List (Nat × NState Nat)) (s : List Nat) : List Nat :=
  canonSet (epsClosureGo sts (sts.length + 1) s)

/-- One member's contribution to `_target_set`. -/
def targetStep (sts : List (Nat × NState Nat)) (l : Label) (acc : List Nat) (s : Nat) :
    List Nat :=
  match alookup sts s with
  | none => acc
  | some d =>
    let a1 := match alookup d.trans l with
      | some t => [t]
      | none => []
    let a2 := match l with
      | .term (.symbol _ cs) =>
        match symWildKey cs d.trans with
        | some k => (match alookup d.trans k with | some t => [t] | none => [])
        | none => []
      | _ => []
    let a3 := if !l.isOp && l ≠ .term .opEnd then
        (match alookup d.trans .anyAtom with | some t => [t] | none => [])
      else []
    acc ++ a1 ++ a2 ++ a3

/-- `_target_set`: explicit successors, symbol-wildcard successors for symbol
labels, wildcard successors for labels other than operation heads and
`OPERATION_END`; closed under epsilon. -/
def targetSet (sts : List (Nat × NState Nat)) (S : List Nat) (l : Label) : List Nat :=
  epsClosure sts (canonSet (S.foldl (targetStep sts l) []))

/-- `_create_state`: the payload of a DFA state is the union of its members'
payloads (a Python `set`; canonicalized as a sorted deduplicated list). -/
def subsetPayload (sts : List (Nat × NState Nat)) (S : List Nat) : List Nat :=
  canonSet (S.foldl (fun acc s =>
    match alookup sts s with
    | some d => acc ++ d.payload
    | none => acc) [])

/-- One member's keys. -/
def labelStep (sts : List (Nat × NState Nat)) (acc : List Label) (s : Nat) : List Label :=
  match alookup sts s with
  | some d => acc ++ d.trans.map Prod.fst
  | none => acc

/-- The labels examined for a DFA state: the union of its members' keys (a
Python `set`; the embedding keeps first-occurrence order). -/
def subsetLabels (sts : List (Nat × NState Nat)) (S : List Nat) : List Label :=
  dedupKeepFirst (S.foldl (labelStep sts) [])

/-- Process the labels of one subset in the subset-construction worklist. -/
def dfaLabels (sts : List (Nat × NState Nat)) (S : List Nat) :
    List Label → List (List Nat × NState (List Nat)) → List (List Nat) →
    List (Label × List Nat) →
    List (List Nat × NState (List Nat)) × List (List Nat) × List (Label × List Nat)
  | [], dfa, queue, tr => (dfa, queue, tr)
  | l :: ls, dfa, queue, tr =>
    if l = .epsilon then dfaLabels sts S ls dfa queue tr
    else
      let tgt := targetSet sts S l
      match alookup dfa tgt with
      | some _ => dfaLabels sts S ls dfa queue (setKey tr l tgt)
      | none =>
        dfaLabels sts S ls (dfa ++ [(tgt, ⟨[], subsetPayload sts tgt⟩)]) (tgt :: queue)
          (setKey tr l tgt)

/-- Replace the transition dictionary of a DFA state. -/
def setTransD (dfa : List (List Nat × NState (List Nat))) (k : List Nat)
    (tr : List (Label × List Nat)) : List (List Nat × NState (List Nat)) :=
  dfa.map fun (i, d) => if i = k then (i, { d with trans := tr }) else (i, d)

/-- The worklist of `_convert_nfa_to_dfa` (a LIFO stack, like the source's
`queue.pop()`), with explicit fuel. -/
def dfaLoop (sts : List (Nat × NState Nat)) :
    Nat → List (List Nat) → List (List Nat × NState (List Nat)) →
    Option (List (List Nat × NState (List Nat)))
  | 0, _, _ => none
  | _ + 1, [], dfa => some dfa
  | fuel + 1, S :: rest, dfa =>
    match alookup dfa S with
    | none => none
    | some cur =>
      let r := dfaLabels sts S (subsetLabels sts S) dfa [] cur.trans
      dfaLoop sts fuel (r.2.1 ++ rest) (setTransD r.1 S r.2.2)

/-- Position of a key in a list (used to re-index arenas by dense ids). -/
def posOf [DecidableEq κ] : List κ → κ → Option Nat
  | [], _ => none
  | x :: xs, k => if x = k then some 0 else (posOf xs k).map (· + 1)

/-- Re-index an arena keyed by `κ` with dense ids `1, 2, …` in arena order
(`0`, never allocated, marks a dangling target, which does not occur). -/
def reindexAuto [DecidableEq κ] (sts : List (κ × NState κ)) (rt : κ) : Auto Nat :=
  let keys := sts.map Prod.fst
  let pos := fun k => match posOf keys k with
    | some i => i + 1
    | none => 0
  ⟨sts.map fun p =>
      (pos p.1, ⟨p.2.trans.map fun e => (e.1, pos e.2), p.2.payload⟩),
   pos rt⟩

/-- `_convert_nfa_to_dfa` followed by re-indexing. -/
def convertNfaToDfa (sts : List (Nat × NState Nat)) (root : Nat) (fuel : Nat) :
    Option (Auto Nat) :=
  let newRoot := epsClosure sts [root]
  match dfaLoop sts fuel [newRoot] [(newRoot, ⟨[], subsetPayload sts newRoot⟩)] with
  | none => none
  | some dfa => some (reindexAuto dfa newRoot)

/-- `DiscriminationNet._generate_net`: build the NFA (with epsilon edges and
fail ladders), set the final payload, determinize. -/
def generateNet (ft : List Atom) (finalLabel : Nat) (fuel : Nat) : Option (Auto Nat) :=
  let st0 : GenSt := ⟨[none], [none], [0], 1, 2, [(1, ⟨[], []⟩)]⟩
  match genWalk st0 ft with
  | none => none
  | some st =>
    convertNfaToDfa (setPayload st.sts st.cur [finalLabel]) 1 fuel

/-! ### The `DiscriminationNet` wrapper -/

mutual

/-- Modelled from the spec: `Expression.is_syntactic` of the external
expression algebra (the glossary's "syntactic pattern": no variadic
wildcard, no commutative or associative operation; variable wrappers are
transparent). -/
def Expr.isSyntactic : Expr → Bool
  | .symbol _ _ => true
  | .wild _ f => f
  | .symWild _ => true
  | .var _ inner => inner.isSyntactic
  | .operation op args => !op.commutative && !op.associative && exprListSyntactic args

/-- `Expression.is_syntactic` over operand lists. -/
def exprListSyntactic : List Expr → Bool
  | [] => true
  | e :: es => e.isSyntactic && exprListSyntactic es

end

/-- An argument to `DiscriminationNet.add` / `match`: an expression or a
ready-made flatterm. -/
inductive PatInput where
  | expr (e : Expr)
  | flat (t : List Atom)

/-- The flatterm of a pattern or subject argument. -/
def PatInput.flatterm : PatInput → List Atom
  | .expr e => flatTermOfExpr e
  | .flat t => t

/-- `pattern.is_syntactic` as evaluated in `DiscriminationNet.add` (the
expression property for expressions, the flatterm property for
flatterms). -/
def PatInput.isSyn : PatInput → Bool
  | .expr e => e.isSyntactic
  | .flat t => isSyntacticTape t

/-- The state of a `DiscriminationNet`: the root automaton and the pattern
registry `(pattern, final label)`. -/
structure DNet where
  root : Auto Nat
  patterns : List (PatInput × Option Nat)

/-- `DiscriminationNet.__init__` (no initial patterns). -/
def DNet.empty : DNet :=
  ⟨⟨[(1, ⟨[], []⟩)], 1⟩, []⟩

/-- Python truthiness of the root `_State` (a dict): it has a transition. -/
def rootTruthy (A : Auto Nat) : Bool :=
  match A.find A.root with
  | some d => !d.trans.isEmpty
  | none => false

/-- The per-pattern construction of `DiscriminationNet.add`: the syntactic
generator for syntactic or single-atom patterns, the NFA build plus subset
construction otherwise. -/
def perPatternNet (p : PatInput) (index : Nat) (fuel : Nat) : Option (Auto Nat) :=
  if p.isSyn || p.flatterm.length == 1 then some (generateSyntacticNet p.flatterm index)
  else generateNet p.flatterm index fuel

/-- `DiscriminationNet.add`.  The per-pattern net and the product carry
explicit fuel; if the fuel runs out the root is left unchanged (the source
always terminates here, see the termination theorem for the product), so
all behavioral theorems either run on concrete fuel or do not depend on the
root. -/
def DNet.add (net : DNet) (p : PatInput) (finalLabel : Option Nat) (fuel : Nat) :
    DNet × Nat :=
  let index := net.patterns.length
  let pats := net.patterns ++ [(p, finalLabel)]
  let pnet : Option (Auto Nat) := perPatternNet p index fuel
  let root2 :=
    match pnet with
    | none => net.root
    | some pn =>
      if rootTruthy net.root then
        match productNet net.root pn fuel with
        | some prod => reindexAuto prod.states prod.root
        | none => net.root
      else pn
  (⟨root2, pats⟩, index)

/-- `DiscriminationNet.add` with the `final_label` argument omitted: the
Python default is `None`. -/
def DNet.addDefault (net : DNet) (p : PatInput) (fuel : Nat) : DNet × Nat :=
  net.add p none fuel

/-- An opaque substitution token (the substitution module is external). -/
abbrev Subst : Type := Nat

/-- The external collaborators consumed by the match drivers: substitution
extraction, variable binding and constraint evaluation, all abstract. -/
structure Oracles where
  emptySubst : Subst
  extractD : PatInput → PatInput → Option Subst
  constraintEval : PatInput → Subst → Bool
  extractSeq : Subst → Expr → Expr → Option Subst
  tryAddVar : Subst → Nat → List Expr → Option Subst

/-- Resolve the indices yielded by `_match` against the pattern registry:
for each index, look the pattern up, extract a substitution and evaluate
constraints; extraction or constraint failure skips the candidate, an index
outside the registry is the source's `IndexError`. -/
def resolveMatches (pats : List (PatInput × Option Nat)) (o : Oracles) (subj : PatInput) :
    List Nat → Except MatchErr (List (Nat × Option Nat × Subst))
  | [] => .ok []
  | i :: is =>
    match pats.get? i with
    | none => .error .indexErr
    | some (p, lbl) =>
      match resolveMatches pats o subj is with
      | .error e => .error e
      | .ok rest =>
        match o.extractD subj p with
        | none => .ok rest
        | some st =>
          if o.constraintEval p st then .ok ((i, lbl, st) :: rest) else .ok rest

/-- `DiscriminationNet.match`, with the matched pattern index kept in the
output. -/
def DNet.matchFull (net : DNet) (o : Oracles) (subj : PatInput) :
    Except MatchErr (List (Nat × Option Nat × Subst)) :=
  match matchRun net.root subj.flatterm false false with
  | .error e => .error e
  | .ok idxs => resolveMatches net.patterns o subj idxs

/-! ### The `SequenceMatcher` -/

/-- The typed errors `SequenceMatcher.add` raises. -/
inductive SeqErr where
  | typeError
  | valueError
deriving DecidableEq, Repr

/-- The state of a `SequenceMatcher`: the inner net, the registry
`(pattern, first star name, last star name)`, and the outer operation
established by the first pattern. -/
structure SeqMatcher where
  net : DNet
  patterns : List (Expr × Option Nat × Option Nat)
  operation : Option OpType

/-- `SequenceMatcher.__init__` (no initial patterns). -/
def SeqMatcher.empty : SeqMatcher :=
  ⟨DNet.empty, [], none⟩

/-- `SequenceMatcher._check_wildcard_and_get_name`: unwrap one optional
variable binder, require an unbounded non-fixed min-0 wildcard, return the
binder name. -/
def checkWildcardAndGetName : Expr → Except SeqErr (Option Nat)
  | .var n inner =>
    match inner with
    | .wild 0 false => .ok (some n)
    | _ => .error .valueError
  | .wild 0 false => .ok none
  | _ => .error .valueError

/-- The operation checks at the top of `SequenceMatcher.add` (first pattern:
non-commutative operation required; later patterns: the established
operation required). -/
def seqOpCheck (sm : SeqMatcher) (pattern : Expr) : Except SeqErr OpType :=
  match sm.operation with
  | none =>
    match pattern with
    | .operation op _ => if op.commutative then .error .typeError else .ok op
    | _ => .error .typeError
  | some q =>
    match pattern with
    | .operation op _ => if op = q then .ok q else .error .typeError
    | _ => .error .typeError

/-- The operands of a pattern (the empty list for a non-operation, which the
callers never reach). -/
def operandsOf (pattern : Expr) : List Expr :=
  match pattern with
  | .operation _ args => args
  | _ => []

/-- The successful tail of `SequenceMatcher.add`: register the pattern,
flatten the middle operands into one merged flatterm and insert it into the
inner net with the new index as final label. -/
def seqAddFinish (sm1 : SeqMatcher) (pattern : Expr) (firstName lastName : Option Nat)
    (fuel : Nat) : SeqMatcher × Except SeqErr Nat :=
  let index := sm1.patterns.length
  let middles := ((operandsOf pattern).drop 1).dropLast
  let ft := flatTermMerged (middles.map flatTermOfExpr)
  let net2 := (sm1.net.add (.flat ft) (some index) fuel).1
  ({ sm1 with patterns := sm1.patterns ++ [(pattern, firstName, lastName)],
              net := net2 }, .ok index)

/-- The operand validation of `SequenceMatcher.add`, after the operation has
been established. -/
def seqAddBody (sm1 : SeqMatcher) (pattern : Expr) (fuel : Nat) :
    SeqMatcher × Except SeqErr Nat :=
  if (operandsOf pattern).length < 3 then (sm1, .error .valueError)
  else
    match (operandsOf pattern).head? with
    | none => (sm1, .error .valueError)
    | some firstOperand =>
      match checkWildcardAndGetName firstOperand with
      | .error e => (sm1, .error e)
      | .ok firstName =>
        match (operandsOf pattern).getLast? with
        | none => (sm1, .error .valueError)
        | some lastOperand =>
          match checkWildcardAndGetName lastOperand with
          | .error e => (sm1, .error e)
          | .ok lastName => seqAddFinish sm1 pattern firstName lastName fuel

/-- `SequenceMatcher.add`.  The updated matcher is returned together with the
result because the source mutates `self.operation` before the later checks
(so a failing `add` can still establish the operation). -/
def seqAdd (sm : SeqMatcher) (pattern : Expr) (fuel : Nat) :
    SeqMatcher × Except SeqErr Nat :=
  match seqOpCheck sm pattern with
  | .error e => (sm, .error e)
  | .ok op => seqAddBody { sm with operation := some op } pattern fuel

/-- The candidate processing inside `SequenceMatcher.match`: operand-wise
substitution extraction over the zipped middle operands, then binding of the
prefix and suffix to the star names; any failure (`None` here, a falsy
result or a caught `ValueError` in the source) drops the candidate. -/
def seqCandidate (o : Oracles) (subjOperands : List Expr) (i : Nat) (pattern : Expr)
    (firstName lastName : Option Nat) : Option (Expr × Subst) :=
  let patOperands := operandsOf pattern
  let operandCount := patOperands.length - 2
  let exprOperands := (subjOperands.drop i).take operandCount
  let pattMiddles := (patOperands.drop 1).dropLast
  match (exprOperands.zip pattMiddles).foldl
      (fun acc pr =>
        match acc with
        | none => none
        | some st => o.extractSeq st pr.1 pr.2) (some o.emptySubst) with
  | none => none
  | some st0 =>
    match (match firstName with
           | none => some st0
           | some n => o.tryAddVar st0 n (subjOperands.take i)) with
    | none => none
    | some st2 =>
      match (match lastName with
             | none => some st2
             | some n => o.tryAddVar st2 n (subjOperands.drop (i + operandCount))) with
      | none => none
      | some st4 => some (pattern, st4)

/-- The per-offset inner loop of `SequenceMatcher.match`: resolve each index
returned by the first-hit net run through the net's registry (whose final
label is the outer pattern index) and the matcher's registry, then process
the candidate. -/
def seqResolve (sm : SeqMatcher) (o : Oracles) (subjOperands : List Expr) (i : Nat) :
    List Nat → Except MatchErr (List (Expr × Subst))
  | [] => .ok []
  | idx :: rest =>
    match seqResolve sm o subjOperands i rest with
    | .error e => .error e
    | .ok restRes =>
      match sm.net.patterns.get? idx with
      | none => .error .indexErr
      | some (_, none) => .error .labelErr
      | some (_, some matchIdx) =>
        match sm.patterns.get? matchIdx with
        | none => .error .indexErr
        | some (pattern, firstName, lastName) =>
          .ok (match seqCandidate o subjOperands i pattern firstName lastName with
               | some r => r :: restRes
               | none => restRes)

/-- The offsets loop of `SequenceMatcher.match`. -/
def seqOffsets (sm : SeqMatcher) (o : Oracles) (subjOperands : List Expr) :
    Nat → Nat → Except MatchErr (List (Expr × Subst))
  | _, 0 => .ok []
  | i, n + 1 =>
    match matchRun sm.net.root (flatTermMerged ((subjOperands.drop i).map flatTermOfExpr))
        false true with
    | .error e => .error e
    | .ok idxs =>
      match seqResolve sm o subjOperands i idxs with
      | .error e => .error e
      | .ok here =>
        match seqOffsets sm o subjOperands (i + 1) n with
        | .error e => .error e
        | .ok rest => .ok (here ++ rest)

/-- `SequenceMatcher.match`.  With no pattern registered, `self.operation`
is `None` and the source's `isinstance(subject, None)` raises a
`TypeError` as soon as the generator is iterated; this is modelled as
`.error .labelErr`.  A subject that is not an instance of the established
operation yields the empty result. -/
def seqMatch (sm : SeqMatcher) (o : Oracles) (subject : Expr) :
    Except MatchErr (List (Expr × Subst)) :=
  match sm.operation with
  | none => .error .labelErr
  | some op =>
    match subject with
    | .operation sop args =>
      if sop = op then seqOffsets sm o args 0 args.length
      else .ok []
    | _ => .ok []

/-! ### Ground subjects and well-formed registries -/

/-- A terminal atom of a subject tape: a symbol, an operation head or the
end marker (anything else triggers the driver's `TypeError`). -/
def groundAtom : Atom → Bool
  | .symbol _ _ => true
  | .opHead _ => true
  | .opEnd => true
  | _ => false

/-- A tape of terminal atoms. -/
def groundTape (l : List Atom) : Bool :=
  l.all groundAtom

mutual

/-- A constant expression: no wildcards anywhere. -/
def groundExpr : Expr → Bool
  | .symbol _ _ => true
  | .wild _ _ => false
  | .symWild _ => false
  | .var _ inner => groundExpr inner
  | .operation _ args => groundExprList args

/-- `groundExpr` over operand lists. -/
def groundExprList : List Expr → Bool
  | [] => true
  | e :: es => groundExpr e && groundExprList es

end

/-- Every payload index of the net's automaton refers to a registered
pattern (true of every net built through `add`). -/
def netPayloadsOk (net : DNet) : Bool :=
  net.root.states.all fun (_, d) => d.payload.all (· < net.patterns.length)

/-- Well-formedness of a sequence matcher as established by `add`: the inner
net's payload indices are registered there, and every inner pattern carries
a final label that indexes the outer registry. -/
def seqWellFormed (sm : SeqMatcher) : Bool :=
  netPayloadsOk sm.net &&
    sm.net.patterns.all fun (_, lbl) =>
      match lbl with
      | some i => i < sm.patterns.length
      | none => false

/-! ### Concrete instances used by the failing-input and witness theorems -/

/-- The variadic non-commutative operation `g`. -/
def exOpG : OpType := ⟨1, false, false, 0, false⟩

/-- The symbol `a`. -/
def exA : Expr := .symbol 1 [10]

/-- The symbol `b`. -/
def exB : Expr := .symbol 2 [10]

/-- The pattern `_` (a fixed wildcard): its flatterm has length 1 and
`add` builds its DFA with the syntactic generator. -/
def exPatWild : Expr := .wild 1 true

/-- The pattern `g(a, b)`: syntactic, so `add` builds its DFA with the
syntactic generator. -/
def exPatGab : Expr := .operation exOpG [exA, exB]

/-- The per-pattern DFA of `_` at index 0. -/
def exNetWild : Auto Nat := generateSyntacticNet (flatTermOfExpr exPatWild) 0

/-- The per-pattern DFA of `g(a, b)` at index 1. -/
def exNetGab : Auto Nat := generateSyntacticNet (flatTermOfExpr exPatGab) 1

/-- The word `g a )`: the flatterm of the well-formed ground subject
`g(a)`. -/
def exWord : List Atom := flatTermOfExpr (.operation exOpG [exA])

/-- An arbitrary concrete oracle bundle. -/
def exOracles : Oracles :=
  ⟨0, fun _ _ => some 0, fun _ _ => true, fun st _ _ => some st, fun st _ _ => some st⟩

/-! ### Claim theorems about the product construction and drivers -/

/-- C1 (failing input): the product construction does not preserve the
union-of-payloads semantics.  For the per-pattern DFAs of `_` (index 0,
built by the syntactic generator since its flatterm has length 1) and
`g(a, b)` (index 1, syntactic), reading the well-formed word `g a )` (the
flatterm of the ground subject `g(a)`) leads the product automaton to
payload `[]`, while the first automaton alone reaches payload `[0]` and the
second fails: the union is `{0}`, not `∅`.  The product state entered after
`g` is in fixed mode for side 1 and lacks an `OPERATION_END` transition
because `_StateQueueItem.labels` only adds `OPERATION_END` when the
non-fixed side has already failed. -/
theorem claim1_product_payload_union_fails :
    (productNet exNetWild exNetGab 1000).map (fun A => matchRun A exWord false false) =
        some (.ok []) ∧
    matchRun exNetWild exWord false false = .ok [0] ∧
    matchRun exNetGab exWord false false = .ok [] ∧
    groundTape exWord = true := by
  exact ⟨by rfl, by rfl, by rfl, by decide⟩

theorem resolveMatches_label (pats : List (PatInput × Option Nat)) (o : Oracles)
    (subj : PatInput) :
    ∀ idxs res, resolveMatches pats o subj idxs = .ok res →
      ∀ i lbl st, (i, lbl, st) ∈ res → ∃ p, pats.get? i = some (p, lbl) := by
  intro idxs
  induction idxs with
  | nil =>
    intro res h i lbl st hm
    simp only [resolveMatches] at h
    cases h
    simp at hm
  | cons j js ih =>
    intro res h i lbl st hm
    simp only [resolveMatches] at h
    rcases hg : pats.get? j with _ | ⟨p0, l0⟩ <;> simp only [hg] at h
    · cases h
    · rcases hr : resolveMatches pats o subj js with e | rest <;> simp only [hr] at h
      · cases h
      · rcases he : o.extractD subj p0 with _ | st0 <;> simp only [he] at h
        · injection h with h2
          subst h2
          exact ih _ hr i lbl st hm
        · by_cases hc : o.constraintEval p0 st0 = true
          · rw [if_pos hc] at h
            injection h with h2
            subst h2
            cases hm with
            | head => exact ⟨p0, hg⟩
            | tail _ hm2 => exact ih _ hr i lbl st hm2
          · rw [if_neg hc] at h
            injection h with h2
            subst h2
            exact ih _ hr i lbl st hm

/-- C10: `add` with the `final_label` argument omitted stores `None` (not the
pattern itself) in the registry, and every result `match` later yields for
that pattern has `None` as its first component. -/
theorem claim10_default_label_none (net : DNet) (p : PatInput) (fuel : Nat) :
    (net.addDefault p fuel).1.patterns.get? (net.addDefault p fuel).2 = some (p, none) ∧
    (∀ (o : Oracles) (subj : PatInput) res,
      (net.addDefault p fuel).1.matchFull o subj = .ok res →
      ∀ lbl st, ((net.addDefault p fuel).2, lbl, st) ∈ res → lbl = none) := by
  have hpat : (net.addDefault p fuel).1.patterns = net.patterns ++ [(p, none)] := rfl
  have hidx : (net.addDefault p fuel).2 = net.patterns.length := rfl
  have hget : (net.addDefault p fuel).1.patterns.get? (net.addDefault p fuel).2 =
      some (p, none) := by
    rw [hpat, hidx]
    exact List.get?_concat_length _ _
  refine ⟨hget, ?_⟩
  intro o subj res h lbl st hm
  unfold DNet.matchFull at h
  rcases hmr : matchRun (net.addDefault p fuel).1.root subj.flatterm false false
    with e | idxs <;> rw [hmr] at h
  · cases h
  · simp only [Except.bind] at h
    obtain ⟨p2, hp2⟩ := resolveMatches_label _ o subj idxs res h _ lbl st hm
    rw [hget] at hp2
    cases hp2
    rfl

/-- C10 witness: a net with the single default-added pattern `g(a, b)`
matched against the subject `g(a, b)`. -/
theorem claim10_witness :
    (DNet.empty.addDefault (.expr exPatGab) 100).1.patterns.get?
        (DNet.empty.addDefault (.expr exPatGab) 100).2 = some (.expr exPatGab, none) ∧
    (∀ lbl st, ((DNet.empty.addDefault (.expr exPatGab) 100).2, lbl, st) ∈
        [((0 : Nat), (none : Option Nat), (0 : Subst))] → lbl = none) :=
  ⟨(claim10_default_label_none DNet.empty (.expr exPatGab) 100).1,
   fun lbl st hm =>
     (claim10_default_label_none DNet.empty (.expr exPatGab) 100).2 exOracles
       (.expr exPatGab) [((0 : Nat), (none : Option Nat), (0 : Subst))] (by rfl) lbl st hm⟩

/-- C6: one step of `_match`.  At depth 0 the lookup tries the exact
transition first, then (for a symbol) a matching symbol-wildcard transition,
then the generic wildcard transition; an `OPERATION_END` with no exact
transition ends the match immediately with no result; an operation head with
no exact transition but a wildcard transition moves along the wildcard edge
and enters skip-subtree mode with counter 1; while the counter is positive,
operation heads increment it and `OPERATION_END` decrements it without
changing the automaton state. -/
theorem claim6_match_transition_behavior (A : Auto Nat) (t : Atom) (ts : List Atom)
    (s : Nat) (res : List Nat) :
    (∀ s2, transAt A s (.term t) = some s2 →
      matchLoop A false false (t :: ts) s 0 res =
        matchLoop A false false ts s2 0 (res ++ payloadAt A s2)) ∧
    (∀ n cs k s2, t = .symbol n cs → transAt A s (.term t) = none →
      symWildKeyAt A s cs = some k → transAt A s k = some s2 →
      matchLoop A false false (t :: ts) s 0 res =
        matchLoop A false false ts s2 0 (res ++ payloadAt A s2)) ∧
    (∀ n cs s2, t = .symbol n cs → transAt A s (.term t) = none →
      symWildKeyAt A s cs = none → transAt A s .anyAtom = some s2 →
      matchLoop A false false (t :: ts) s 0 res =
        matchLoop A false false ts s2 0 (res ++ payloadAt A s2)) ∧
    (t = .opEnd → transAt A s (.term t) = none →
      matchLoop A false false (t :: ts) s 0 res = .ok []) ∧
    (∀ op s2, t = .opHead op → transAt A s (.term t) = none →
      transAt A s .anyAtom = some s2 →
      matchLoop A false false (t :: ts) s 0 res =
        matchLoop A false false ts s2 1 (res ++ payloadAt A s2)) ∧
    (∀ depth, 0 < depth →
      (∀ op, t = .opHead op →
        matchLoop A false false (t :: ts) s depth res =
          matchLoop A false false ts s (depth + 1) res) ∧
      (t = .opEnd →
        matchLoop A false false (t :: ts) s depth res =
          matchLoop A false false ts s (depth - 1) res) ∧
      (t.isOp = false → t ≠ .opEnd →
        matchLoop A false false (t :: ts) s depth res =
          matchLoop A false false ts s depth res)) := by
  refine ⟨?_, ?_, ?_, ?_, ?_, ?_⟩
  · intro s2 h
    simp [matchLoop, matchStep, h]
  · intro n cs k s2 ht h hk hs2
    subst ht
    simp [matchLoop, matchStep, h, hk, hs2]
  · intro n cs s2 ht h hk hs2
    subst ht
    simp [matchLoop, matchStep, h, hk, hs2]
  · intro ht h
    subst ht
    simp [matchLoop, matchStep, h]
  · intro op s2 ht h hs2
    subst ht
    simp [matchLoop, matchStep, h, hs2]
  · intro depth hd
    refine ⟨?_, ?_, ?_⟩
    · intro op ht
      subst ht
      simp [matchLoop, if_pos hd, skipAdjust]
    · intro ht
      subst ht
      simp [matchLoop, if_pos hd, skipAdjust]
    · intro hop hend
      cases t with
      | opHead op => simp [Atom.isOp] at hop
      | opEnd => exact absurd rfl hend
      | symbol n cs =>
        simp [matchLoop, if_pos hd, skipAdjust]
      | symClass c =>
        simp [matchLoop, if_pos hd, skipAdjust]
      | wild m f =>
        simp [matchLoop, if_pos hd, skipAdjust]

/-- A small automaton exercising each lookup case of the match driver. -/
def exMatchAuto : Auto Nat :=
  ⟨[(1, ⟨[(.term (.symbol 1 [10]), 2)], []⟩),
    (2, ⟨[(.term (.symClass 10), 4)], []⟩),
    (4, ⟨[], [3]⟩),
    (5, ⟨[(.anyAtom, 6)], []⟩),
    (6, ⟨[], []⟩)], 1⟩

/-- C6 witness: the transition-behavior theorem applied to `exMatchAuto`. -/
theorem claim6_witness :
    (matchLoop exMatchAuto false false [.symbol 1 [10]] 1 0 [] =
      matchLoop exMatchAuto false false [] 2 0 ([] ++ payloadAt exMatchAuto 2)) ∧
    (matchLoop exMatchAuto false false [.symbol 1 [10]] 2 0 [] =
      matchLoop exMatchAuto false false [] 4 0 ([] ++ payloadAt exMatchAuto 4)) ∧
    (matchLoop exMatchAuto false false [.symbol 9 [99]] 5 0 [] =
      matchLoop exMatchAuto false false [] 6 0 ([] ++ payloadAt exMatchAuto 6)) ∧
    (matchLoop exMatchAuto false false [.opEnd] 6 0 [] = .ok []) ∧
    (matchLoop exMatchAuto false false [.opHead exOpG] 5 0 [] =
      matchLoop exMatchAuto false false [] 6 1 ([] ++ payloadAt exMatchAuto 6)) ∧
    (matchLoop exMatchAuto false false [.opHead exOpG] 6 2 [] =
      matchLoop exMatchAuto false false [] 6 3 []) ∧
    (matchLoop exMatchAuto false false [.opEnd] 6 2 [] =
      matchLoop exMatchAuto false false [] 6 1 []) ∧
    (matchLoop exMatchAuto false false [.symbol 1 [10]] 6 2 [] =
      matchLoop exMatchAuto false false [] 6 2 []) :=
  ⟨(claim6_match_transition_behavior exMatchAuto (.symbol 1 [10]) [] 1 []).1 2 (by rfl),
   (claim6_match_transition_behavior exMatchAuto (.symbol 1 [10]) [] 2 []).2.1 1 [10]
     (.term (.symClass 10)) 4 rfl (by rfl) (by rfl) (by rfl),
   (claim6_match_transition_behavior exMatchAuto (.symbol 9 [99]) [] 5 []).2.2.1 9 [99] 6
     rfl (by rfl) (by rfl) (by rfl),
   (claim6_match_transition_behavior exMatchAuto .opEnd [] 6 []).2.2.2.1 rfl (by rfl),
   (claim6_match_transition_behavior exMatchAuto (.opHead exOpG) [] 5 []).2.2.2.2.1 exOpG 6
     rfl (by rfl) (by rfl),
   ((claim6_match_transition_behavior exMatchAuto (.opHead exOpG) [] 6 []).2.2.2.2.2 2
     (by decide)).1 exOpG rfl,
   ((claim6_match_transition_behavior exMatchAuto .opEnd [] 6 []).2.2.2.2.2 2
     (by decide)).2.1 rfl,
   ((claim6_match_transition_behavior exMatchAuto (.symbol 1 [10]) [] 6 []).2.2.2.2.2 2
     (by decide)).2.2 (by decide) (by decide)⟩

/-- An operand that passes `_check_wildcard_and_get_name`: an unbounded,
non-fixed, min-0 wildcard, optionally wrapped in a variable binder. -/
def starOk (e : Expr) : Bool :=
  match checkWildcardAndGetName e with
  | .ok _ => true
  | .error _ => false

/-- The operation-level part of the accepted shape: the first pattern must be
a non-commutative operation, later patterns must be the established
operation. -/
def seqOpOk (sm : SeqMatcher) (p : Expr) : Bool :=
  match p, sm.operation with
  | .operation op _, none => !op.commutative
  | .operation op _, some q => decide (op = q)
  | _, _ => false

theorem checkWildcard_error_valueError (e : Expr) (err : SeqErr) :
    checkWildcardAndGetName e = .error err → err = .valueError := by
  unfold checkWildcardAndGetName
  split
  · split
    · intro h
      exact absurd h (by simp)
    · intro h
      injection h with h2
      exact h2.symm
  · intro h
    exact absurd h (by simp)
  · intro h
    injection h with h2
    exact h2.symm

/-- The operand-level part of the accepted shape: at least 3 operands, the
first and last being star wildcards (optionally variable-wrapped). -/
def seqOperandsOk (p : Expr) : Bool :=
  match p with
  | .operation _ args =>
    decide (3 ≤ args.length) &&
    (match args.head? with | some a => starOk a | none => false) &&
    (match args.getLast? with | some a => starOk a | none => false)
  | _ => false

/-- C7: `SequenceMatcher.add` raises a `TypeError` exactly on the
operation-level violations (first pattern not a non-commutative operation;
later pattern's outer operation not the established one), a `ValueError`
exactly on the operand-level violations (fewer than 3 operands; first or
last operand not a star wildcard after unwrapping an optional variable
binder), and on an accepted pattern returns the number of previously
registered patterns as the new index. -/
theorem seqOpCheck_ok (sm : SeqMatcher) (op : OpType) (args : List Expr) :
    seqOpOk sm (.operation op args) = true → seqOpCheck sm (.operation op args) = .ok op := by
  intro h
  rcases hop : sm.operation with _ | q
  · simp only [seqOpOk, hop, Bool.not_eq_true'] at h
    simp [seqOpCheck, hop, h]
  · simp only [seqOpOk, hop, decide_eq_true_eq] at h
    subst h
    simp [seqOpCheck, hop]

theorem seqOpCheck_err (sm : SeqMatcher) (p : Expr) :
    seqOpOk sm p = false → seqOpCheck sm p = .error .typeError := by
  intro h
  cases p with
  | operation op args =>
    rcases hop : sm.operation with _ | q
    · simp only [seqOpOk, hop, Bool.not_eq_false'] at h
      simp [seqOpCheck, hop, h]
    · simp only [seqOpOk, hop, decide_eq_false_iff_not] at h
      simp [seqOpCheck, hop, h]
  | symbol n cs => rcases hop : sm.operation with _ | q <;> simp [seqOpCheck, hop]
  | wild m f => rcases hop : sm.operation with _ | q <;> simp [seqOpCheck, hop]
  | symWild c => rcases hop : sm.operation with _ | q <;> simp [seqOpCheck, hop]
  | var n inner => rcases hop : sm.operation with _ | q <;> simp [seqOpCheck, hop]

theorem seqOpOk_of_non_operation (sm : SeqMatcher) (p : Expr)
    (h : ∀ op args, p ≠ .operation op args) : seqOpOk sm p = false := by
  cases p with
  | operation op args => exact absurd rfl (h op args)
  | symbol n cs => rcases hop : sm.operation with _ | q <;> simp [seqOpOk, hop]
  | wild m f => rcases hop : sm.operation with _ | q <;> simp [seqOpOk, hop]
  | symWild c => rcases hop : sm.operation with _ | q <;> simp [seqOpOk, hop]
  | var n inner => rcases hop : sm.operation with _ | q <;> simp [seqOpOk, hop]

/-- C7: `SequenceMatcher.add` raises a `TypeError` exactly on the
operation-level violations (first pattern not a non-commutative operation;
later pattern's outer operation not the established one), a `ValueError`
exactly on the operand-level violations (fewer than 3 operands; first or
last operand not a star wildcard after unwrapping an optional variable
binder), and on an accepted pattern returns the number of previously
registered patterns as the new index. -/
theorem claim7_seq_add_shape_errors (sm : SeqMatcher) (p : Expr) (fuel : Nat) :
    (seqOpOk sm p = false → (seqAdd sm p fuel).2 = .error .typeError) ∧
    (seqOpOk sm p = true → seqOperandsOk p = false →
      (seqAdd sm p fuel).2 = .error .valueError) ∧
    (seqOpOk sm p = true → seqOperandsOk p = true →
      (seqAdd sm p fuel).2 = .ok sm.patterns.length ∧
      (seqAdd sm p fuel).1.patterns.length = sm.patterns.length + 1) := by
  refine ⟨?_, ?_, ?_⟩
  · intro h
    rw [seqAdd, seqOpCheck_err sm p h]
  · intro h1 h2
    cases p with
    | operation op args =>
      rw [seqAdd, seqOpCheck_ok sm op args h1]
      simp only [seqAddBody]
      by_cases hlen : (operandsOf (.operation op args)).length < 3
      · rw [if_pos hlen]
      · rw [if_neg hlen]
        simp only [operandsOf] at hlen ⊢
        obtain ⟨a0, as, rfl⟩ : ∃ a0 as, args = a0 :: as := by
          cases args with
          | nil => exact absurd (by simp) hlen
          | cons x xs => exact ⟨x, xs, rfl⟩
        simp only [List.head?_cons]
        rcases hchk : checkWildcardAndGetName a0 with e | nm
        · have he := checkWildcard_error_valueError _ _ hchk
          subst he
          rfl
        · rcases hlast : (a0 :: as).getLast? with _ | aL
          · simp [List.getLast?_eq_none_iff] at hlast
          · rcases hchkL : checkWildcardAndGetName aL with e2 | nm2
            · have he2 := checkWildcard_error_valueError _ _ hchkL
              subst he2
              simp only [hlast, hchkL]
            · exfalso
              have hshape : seqOperandsOk (.operation op (a0 :: as)) = true := by
                simp [seqOperandsOk, starOk, hchk, hlast, hchkL]
                have h3 : 3 ≤ (a0 :: as).length := Nat.not_lt.mp hlen
                simp at h3
                omega
              rw [hshape] at h2
              cases h2
    | symbol n cs =>
      rw [seqOpOk_of_non_operation sm _ (by intro op args h; cases h)] at h1
      cases h1
    | wild m f =>
      rw [seqOpOk_of_non_operation sm _ (by intro op args h; cases h)] at h1
      cases h1
    | symWild c =>
      rw [seqOpOk_of_non_operation sm _ (by intro op args h; cases h)] at h1
      cases h1
    | var n inner =>
      rw [seqOpOk_of_non_operation sm _ (by intro op args h; cases h)] at h1
      cases h1
  · intro h1 h2
    cases p with
    | operation op args =>
      rw [seqAdd, seqOpCheck_ok sm op args h1]
      simp only [seqAddBody]
      by_cases hlen : (operandsOf (.operation op args)).length < 3
      · exfalso
        simp only [operandsOf] at hlen
        have : ¬ 3 ≤ args.length := Nat.not_le.mpr hlen
        simp [seqOperandsOk, this] at h2
      · rw [if_neg hlen]
        simp only [operandsOf] at hlen ⊢
        obtain ⟨a0, as, rfl⟩ : ∃ a0 as, args = a0 :: as := by
          cases args with
          | nil => exact absurd (by simp) hlen
          | cons x xs => exact ⟨x, xs, rfl⟩
        simp only [List.head?_cons]
        rcases hchk : checkWildcardAndGetName a0 with e | nm
        · exfalso
          simp [seqOperandsOk, starOk, hchk] at h2
        · rcases hlast : (a0 :: as).getLast? with _ | aL
          · simp [List.getLast?_eq_none_iff] at hlast
          · rcases hchkL : checkWildcardAndGetName aL with e2 | nm2
            · exfalso
              simp [seqOperandsOk, starOk, hchk, hlast, hchkL] at h2
            · constructor
              · simp only [hlast, hchkL, seqAddFinish]
              · simp [hlast, hchkL, seqAddFinish]
    | symbol n cs =>
      rw [seqOpOk_of_non_operation sm _ (by intro op args h; cases h)] at h1
      cases h1
    | wild m f =>
      rw [seqOpOk_of_non_operation sm _ (by intro op args h; cases h)] at h1
      cases h1
    | symWild c =>
      rw [seqOpOk_of_non_operation sm _ (by intro op args h; cases h)] at h1
      cases h1
    | var n inner =>
      rw [seqOpOk_of_non_operation sm _ (by intro op args h; cases h)] at h1
      cases h1

/-- The variadic non-commutative operation `f`. -/
def exOpF : OpType := ⟨4, false, false, 0, false⟩

/-- C7 witness: a symbol pattern raises `TypeError`, a two-operand pattern
raises `ValueError`, and `f(x*, a, y*)` is accepted with index 0. -/
theorem claim7_witness :
    (seqAdd SeqMatcher.empty exA 10).2 = .error .typeError ∧
    (seqAdd SeqMatcher.empty (.operation exOpF [.wild 0 false, exA]) 10).2 =
      .error .valueError ∧
    (seqAdd SeqMatcher.empty (.operation exOpF [.wild 0 false, exA, .wild 0 false]) 10).2 =
      .ok 0 :=
  ⟨(claim7_seq_add_shape_errors SeqMatcher.empty exA 10).1 (by rfl),
   (claim7_seq_add_shape_errors SeqMatcher.empty
      (.operation exOpF [.wild 0 false, exA]) 10).2.1 (by rfl) (by rfl),
   ((claim7_seq_add_shape_errors SeqMatcher.empty
      (.operation exOpF [.wild 0 false, exA, .wild 0 false]) 10).2.2 (by rfl) (by rfl)).1⟩

theorem matchStep_ground_ne_err [DecidableEq σ] (A : Auto σ) (s : σ) (t : Atom)
    (h : groundAtom t = true) : matchStep A s t ≠ .err := by
  cases t with
  | symbol n cs =>
    intro hc
    unfold matchStep at hc
    split at hc
    · cases hc
    · simp only at hc
      split at hc
      · split at hc <;> cases hc
      · split at hc <;> cases hc
  | opHead op =>
    intro hc
    unfold matchStep at hc
    split at hc
    · cases hc
    · simp only at hc
      split at hc <;> cases hc
  | opEnd =>
    intro hc
    unfold matchStep at hc
    split at hc <;> cases hc
  | symClass c => simp [groundAtom] at h
  | wild m f => simp [groundAtom] at h

theorem matchLoop_ground_ok [DecidableEq σ] (A : Auto σ) (c f : Bool) :
    ∀ (tape : List Atom) (s : σ) (depth : Nat) (res : List Nat),
      groundTape tape = true → ∃ l, matchLoop A c f tape s depth res = .ok l := by
  intro tape
  induction tape with
  | nil =>
    intro s depth res _
    exact ⟨_, rfl⟩
  | cons t ts ih =>
    intro s depth res hg
    rw [groundTape, List.all_cons, Bool.and_eq_true] at hg
    obtain ⟨hgt, hgts⟩ := hg
    by_cases hd : 0 < depth
    · rw [matchLoop, if_pos hd]
      exact ih s (skipAdjust t depth) res hgts
    · rw [matchLoop, if_neg hd]
      by_cases hf : (f && !(payloadAt A s).isEmpty) = true
      · rw [if_pos hf]
        exact ⟨_, rfl⟩
      · rw [if_neg hf]
        rcases hstep : matchStep A s t with ⟨s2, d2⟩ | _ | _ | _
        · exact ih s2 d2 (res ++ payloadAt A s2) hgts
        · exact ⟨_, rfl⟩
        · exact ⟨_, rfl⟩
        · exact absurd hstep (matchStep_ground_ne_err A s t hgt)

theorem matchLoop_result_bounded [DecidableEq σ] (A : Auto σ) (c f : Bool) (N : Nat)
    (hA : ∀ (i : σ), ∀ x ∈ payloadAt A i, x < N) :
    ∀ (tape : List Atom) (s : σ) (depth : Nat) (res : List Nat) (l : List Nat),
      (∀ x ∈ res, x < N) → matchLoop A c f tape s depth res = .ok l →
      ∀ x ∈ l, x < N := by
  intro tape
  induction tape with
  | nil =>
    intro s depth res l hres h x hx
    rw [matchLoop] at h
    injection h with h2
    subst h2
    by_cases hc : c = true
    · rw [if_pos hc] at hx
      exact hres x hx
    · rw [if_neg hc] at hx
      exact hA s x hx
  | cons t ts ih =>
    intro s depth res l hres h x hx
    by_cases hd : 0 < depth
    · rw [matchLoop, if_pos hd] at h
      exact ih s (skipAdjust t depth) res l hres h x hx
    · rw [matchLoop, if_neg hd] at h
      by_cases hf : (f && !(payloadAt A s).isEmpty) = true
      · rw [if_pos hf] at h
        injection h with h2
        subst h2
        exact hA s x hx
      · rw [if_neg hf] at h
        rcases hstep : matchStep A s t with ⟨s2, d2⟩ | _ | _ | _ <;> rw [hstep] at h
        · refine ih s2 d2 (res ++ payloadAt A s2) l ?_ h x hx
          intro y hy
          rcases List.mem_append.mp hy with hy | hy
          · exact hres y hy
          · exact hA s2 y hy
        · injection h with h2
          subst h2
          by_cases hc : c = true
          · rw [if_pos hc] at hx
            exact hres x hx
          · rw [if_neg hc] at hx
            simp at hx
        · injection h with h2
          subst h2
          simp at hx
        · cases h

theorem alookup_mem [DecidableEq κ] :
    ∀ (l : List (κ × α)) (k : κ) (v : α), alookup l k = some v → (k, v) ∈ l := by
  intro l
  induction l with
  | nil =>
    intro k v h
    simp [alookup] at h
  | cons e es ihs =>
    intro k v h
    rcases e with ⟨k2, v2⟩
    simp only [alookup] at h
    by_cases hk : k2 = k
    · rw [if_pos hk] at h
      injection h with h2
      subst h2
      subst hk
      exact List.mem_cons_self _ _
    · rw [if_neg hk] at h
      exact List.mem_cons_of_mem _ (ihs k v h)

theorem payloadAt_def [DecidableEq σ] (A : Auto σ) (i : σ) :
    payloadAt A i = match A.find i with | some d => d.payload | none => [] := rfl

theorem payloadAt_bounded_of_netPayloadsOk (net : DNet) (h : netPayloadsOk net = true) :
    ∀ (i : Nat), ∀ x ∈ payloadAt net.root i, x < net.patterns.length := by
  intro i x hx
  rw [payloadAt_def] at hx
  rcases hfind : net.root.find i with _ | d <;> rw [hfind] at hx
  · simp at hx
  · have hmem : (i, d) ∈ net.root.states := alookup_mem _ _ _ hfind
    have h2 := (List.all_eq_true.mp h) (i, d) hmem
    simp only at h2
    exact of_decide_eq_true ((List.all_eq_true.mp h2) x hx)

theorem resolveMatches_ground_ok (pats : List (PatInput × Option Nat)) (o : Oracles)
    (subj : PatInput) :
    ∀ idxs, (∀ i ∈ idxs, i < pats.length) →
      ∃ l, resolveMatches pats o subj idxs = .ok l := by
  intro idxs
  induction idxs with
  | nil =>
    intro _
    exact ⟨[], rfl⟩
  | cons j js ih =>
    intro hb
    have hj : j < pats.length := hb j (List.mem_cons_self _ _)
    obtain ⟨⟨p0, l0⟩, hget⟩ : ∃ e, pats.get? j = some e :=
      ⟨pats.get ⟨j, hj⟩, List.get?_eq_get hj⟩
    obtain ⟨l, hl⟩ := ih (fun i hi => hb i (List.mem_cons_of_mem _ hi))
    rcases he : o.extractD subj p0 with _ | st
    · refine ⟨l, ?_⟩
      simp only [resolveMatches, hget, hl, he]
    · by_cases hc : o.constraintEval p0 st = true
      · refine ⟨(j, l0, st) :: l, ?_⟩
        simp only [resolveMatches, hget, hl, he, if_pos hc]
      · refine ⟨l, ?_⟩
        simp only [resolveMatches, hget, hl, he, if_neg hc]

theorem combinedAux_id_of_noWild :
    ∀ l : List Atom, (∀ a ∈ l, a.isPlainWild = false) → combinedAux none l = l := by
  intro l
  induction l with
  | nil => intro _; rfl
  | cons t ts ih =>
    intro h
    have ht : t.isPlainWild = false := h t (List.mem_cons_self _ _)
    have hts := ih (fun a ha => h a (List.mem_cons_of_mem _ ha))
    cases t with
    | wild m f => simp [Atom.isPlainWild] at ht
    | symbol n cs => rw [show combinedAux none (Atom.symbol n cs :: ts) =
        Atom.symbol n cs :: combinedAux none ts from rfl, hts]
    | symClass c => rw [show combinedAux none (Atom.symClass c :: ts) =
        Atom.symClass c :: combinedAux none ts from rfl, hts]
    | opHead op => rw [show combinedAux none (Atom.opHead op :: ts) =
        Atom.opHead op :: combinedAux none ts from rfl, hts]
    | opEnd => rw [show combinedAux none (Atom.opEnd :: ts) =
        Atom.opEnd :: combinedAux none ts from rfl, hts]

theorem groundAtom_not_plainWild (a : Atom) (h : groundAtom a = true) :
    a.isPlainWild = false := by
  cases a <;> simp [Atom.isPlainWild, groundAtom] at h ⊢

theorem groundTape_combinedAux (l : List Atom) (h : groundTape l = true) :
    combinedAux none l = l :=
  combinedAux_id_of_noWild l
    (fun a ha => groundAtom_not_plainWild a (List.all_eq_true.mp h a ha))

mutual

theorem groundTape_flattermIter :
    ∀ e : Expr, groundExpr e = true → groundTape (flattermIter e) = true
  | .symbol n cs, _ => by simp [flattermIter, groundTape, groundAtom]
  | .wild m f, h => by simp [groundExpr] at h
  | .symWild t, h => by simp [groundExpr] at h
  | .var _ inner, h => by
    rw [groundExpr] at h
    rw [flattermIter]
    exact groundTape_flattermIter inner h
  | .operation op args, h => by
    rw [groundExpr] at h
    have hargs := groundTape_flattermIterList args h
    rw [flattermIter]
    simp only [groundTape, List.all_cons, List.all_append] at hargs ⊢
    simp [groundAtom, hargs]

theorem groundTape_flattermIterList :
    ∀ es : List Expr, groundExprList es = true → groundTape (flattermIterList es) = true
  | [], _ => by simp [flattermIterList, groundTape]
  | e :: es, h => by
    rw [groundExprList, Bool.and_eq_true] at h
    rw [flattermIterList]
    have h1 := groundTape_flattermIter e h.1
    have h2 := groundTape_flattermIterList es h.2
    rw [groundTape] at h1 h2 ⊢
    simp [List.all_append, h1, h2]

end

theorem groundTape_flatTermOfExpr (e : Expr) (h : groundExpr e = true) :
    groundTape (flatTermOfExpr e) = true := by
  rw [flatTermOfExpr, combinedWildcards, groundTape_combinedAux _ (groundTape_flattermIter e h)]
  exact groundTape_flattermIter e h

theorem groundTape_flatten (ts : List (List Atom)) (h : ∀ t ∈ ts, groundTape t = true) :
    groundTape ts.flatten = true := by
  rw [groundTape, List.all_eq_true]
  intro a ha
  obtain ⟨t, ht, hat⟩ := List.mem_flatten.mp ha
  exact List.all_eq_true.mp (h t ht) a hat

theorem groundTape_flatTermMerged (ts : List (List Atom))
    (h : ∀ t ∈ ts, groundTape t = true) : groundTape (flatTermMerged ts) = true := by
  rw [flatTermMerged, combinedWildcards, groundTape_combinedAux _ (groundTape_flatten ts h)]
  exact groundTape_flatten ts h

theorem groundExprList_mem (es : List Expr) (h : groundExprList es = true) :
    ∀ e ∈ es, groundExpr e = true := by
  induction es with
  | nil => intro e he; simp at he
  | cons x xs ih =>
    rw [groundExprList, Bool.and_eq_true] at h
    intro e he
    rcases List.mem_cons.mp he with rfl | he2
    · exact h.1
    · exact ih h.2 e he2

/-- A subject argument whose flatterm contains only terminal atoms. -/
def PatInput.ground : PatInput → Bool
  | .expr e => groundExpr e
  | .flat t => groundTape t

theorem groundTape_patInput (s : PatInput) (h : s.ground = true) :
    groundTape s.flatterm = true := by
  cases s with
  | expr e => exact groundTape_flatTermOfExpr e h
  | flat t => exact h

theorem seqResolve_ground_ok (sm : SeqMatcher) (o : Oracles) (ops : List Expr) (i : Nat)
    (hwf : seqWellFormed sm = true) :
    ∀ idxs, (∀ idx ∈ idxs, idx < sm.net.patterns.length) →
      ∃ l, seqResolve sm o ops i idxs = .ok l := by
  rw [seqWellFormed, Bool.and_eq_true] at hwf
  intro idxs
  induction idxs with
  | nil =>
    intro _
    exact ⟨[], rfl⟩
  | cons idx rest ih =>
    intro hb
    obtain ⟨l, hl⟩ := ih (fun x hx => hb x (List.mem_cons_of_mem _ hx))
    have hidx : idx < sm.net.patterns.length := hb idx (List.mem_cons_self _ _)
    obtain ⟨⟨p0, lbl⟩, hget⟩ : ∃ e, sm.net.patterns.get? idx = some e :=
      ⟨sm.net.patterns.get ⟨idx, hidx⟩, List.get?_eq_get hidx⟩
    have hmem : (p0, lbl) ∈ sm.net.patterns := by
      have := List.get?_eq_get hidx
      rw [hget] at this
      injection this with h2
      rw [h2]
      exact List.get_mem _ _ _
    have hlbl := (List.all_eq_true.mp hwf.2) (p0, lbl) hmem
    rcases lbl with _ | mi
    · simp at hlbl
    · simp only at hlbl
      have hmi : mi < sm.patterns.length := of_decide_eq_true hlbl
      obtain ⟨⟨pattern, firstName, lastName⟩, hgetP⟩ :
          ∃ e, sm.patterns.get? mi = some e :=
        ⟨sm.patterns.get ⟨mi, hmi⟩, List.get?_eq_get hmi⟩
      refine ⟨(match seqCandidate o ops i pattern firstName lastName with
               | some r => r :: l
               | none => l), ?_⟩
      simp only [seqResolve, hl, hget, hgetP]

theorem seqOffsets_ground_ok (sm : SeqMatcher) (o : Oracles) (ops : List Expr)
    (hwf : seqWellFormed sm = true) (hg : ∀ e ∈ ops, groundExpr e = true) :
    ∀ (n i : Nat), ∃ l, seqOffsets sm o ops i n = .ok l := by
  have hwf2 := hwf
  rw [seqWellFormed, Bool.and_eq_true] at hwf2
  intro n
  induction n with
  | zero =>
    intro i
    exact ⟨[], rfl⟩
  | succ n ih =>
    intro i
    have hgtape : groundTape
        (flatTermMerged ((ops.drop i).map flatTermOfExpr)) = true := by
      refine groundTape_flatTermMerged _ ?_
      intro t ht
      obtain ⟨e, he, rfl⟩ := List.mem_map.mp ht
      exact groundTape_flatTermOfExpr e (hg e (List.mem_of_mem_drop he))
    obtain ⟨idxs, hrun⟩ :=
      matchLoop_ground_ok sm.net.root false true
        (flatTermMerged ((ops.drop i).map flatTermOfExpr)) sm.net.root.root 0
        (payloadAt sm.net.root sm.net.root.root) hgtape
    have hbound : ∀ x ∈ idxs, x < sm.net.patterns.length := by
      refine matchLoop_result_bounded sm.net.root false true sm.net.patterns.length
        (payloadAt_bounded_of_netPayloadsOk sm.net hwf2.1) _ _ _ _ idxs ?_ hrun
      exact fun x hx => payloadAt_bounded_of_netPayloadsOk sm.net hwf2.1 _ x hx
    obtain ⟨here, hhere⟩ := seqResolve_ground_ok sm o ops i hwf idxs hbound
    obtain ⟨rest, hrest⟩ := ih (i + 1)
    refine ⟨here ++ rest, ?_⟩
    simp only [seqOffsets,
      show matchRun sm.net.root (flatTermMerged ((ops.drop i).map flatTermOfExpr))
        false true = .ok idxs from hrun, hhere, hrest]

/-- C8 counterexample: a `SequenceMatcher` to which no pattern has been
added has `operation = None`, so `match` raises a `TypeError` from
`isinstance(subject, None)` as soon as it is iterated, instead of yielding
an empty iterator, even though no pattern can match. -/
theorem claim8_counterexample :
    seqMatch SeqMatcher.empty exOracles (.symbol 1 []) = .error .labelErr ∧
    SeqMatcher.empty.patterns = [] := ⟨rfl, rfl⟩

/-- C8 (amended): for the discrimination net, and for a sequence matcher
with at least one pattern added (so that an outer operation is
established), every no-match condition on a constant subject is reported by
returning a (possibly empty) result list and never by raising; constraint
failures and substitution conflicts merely skip candidates (the oracles are
universally quantified).  The sole exceptions are a subject tape with a
non-terminal atom, and the empty sequence matcher of the counterexample. -/
theorem claim8_no_match_is_empty_not_error :
    (∀ (o : Oracles) (net : DNet) (subj : PatInput),
        subj.ground = true → netPayloadsOk net = true →
        ∃ l, net.matchFull o subj = .ok l) ∧
    (∀ (o : Oracles) (sm : SeqMatcher) (subject : Expr),
        sm.operation.isSome = true → seqWellFormed sm = true → groundExpr subject = true →
        ∃ l, seqMatch sm o subject = .ok l) := by
  constructor
  · intro o net subj hg hok
    obtain ⟨idxs, hrun⟩ :=
      matchLoop_ground_ok net.root false false subj.flatterm net.root.root 0
        (payloadAt net.root net.root.root) (groundTape_patInput subj hg)
    have hbound : ∀ x ∈ idxs, x < net.patterns.length := by
      refine matchLoop_result_bounded net.root false false net.patterns.length
        (payloadAt_bounded_of_netPayloadsOk net hok) _ _ _ _ idxs ?_ hrun
      exact fun x hx => payloadAt_bounded_of_netPayloadsOk net hok _ x hx
    obtain ⟨l, hres⟩ := resolveMatches_ground_ok net.patterns o subj idxs hbound
    refine ⟨l, ?_⟩
    simp only [DNet.matchFull,
      show matchRun net.root subj.flatterm false false = .ok idxs from hrun, hres]
  · intro o sm subject hop hwf hg
    rcases hsome : sm.operation with _ | op
    · rw [hsome] at hop
      simp at hop
    · cases subject with
      | operation sop args =>
        by_cases hsop : sop = op
        · obtain ⟨l, hl⟩ := seqOffsets_ground_ok sm o args hwf
            (groundExprList_mem args (by rw [groundExpr] at hg; exact hg)) args.length 0
          refine ⟨l, ?_⟩
          simp only [seqMatch, hsome, if_pos hsop, hl]
        · refine ⟨[], ?_⟩
          simp only [seqMatch, hsome, if_neg hsop]
      | symbol n cs => exact ⟨[], by simp only [seqMatch, hsome]⟩
      | wild m f => exact ⟨[], by simp only [seqMatch, hsome]⟩
      | symWild c => exact ⟨[], by simp only [seqMatch, hsome]⟩
      | var n inner => exact ⟨[], by simp only [seqMatch, hsome]⟩

/-- C8 witness: the empty net on the constant subject `a`, and a sequence
matcher holding `f(x*, a, y*)` on the non-matching constant subject `f(b)`,
each return an `ok` result. -/
theorem claim8_witness :
    (∃ l, DNet.empty.matchFull exOracles (.expr exA) = .ok l) ∧
    (∃ l, seqMatch (seqAdd SeqMatcher.empty
        (.operation exOpF [.wild 0 false, exA, .wild 0 false]) 100).1 exOracles
        (.operation exOpF [exB]) = .ok l) :=
  ⟨claim8_no_match_is_empty_not_error.1 exOracles DNet.empty (.expr exA)
      (by decide) (by decide),
   claim8_no_match_is_empty_not_error.2 exOracles
      (seqAdd SeqMatcher.empty (.operation exOpF [.wild 0 false, exA, .wild 0 false]) 100).1
      (.operation exOpF [exB]) (by decide) (by decide) (by decide)⟩

/-! ### Termination of the product construction

The per-pattern DFAs admit a *grading*: every state carries an operation
nesting level, operation-head edges raise it by one, `OPERATION_END` edges
lower it by one, all other edges preserve it, and there are no epsilon
edges.  Grading bounds the `depth` component of the product keys, which
makes the key space finite and the worklist terminate. -/

/-- The state ids of an arena. -/
def keysOfAuto (A : Auto Nat) : List Nat :=
  A.states.map Prod.fst

theorem alookup_isSome_of_mem_keys [DecidableEq κ] :
    ∀ (l : List (κ × α)) (k : κ), k ∈ l.map Prod.fst → (alookup l k).isSome := by
  intro l
  induction l with
  | nil => intro k h; simp at h
  | cons e es ih =>
    intro k h
    rcases e with ⟨k2, v2⟩
    rw [alookup]
    by_cases hk : k2 = k
    · rw [if_pos hk]; rfl
    · rw [if_neg hk]
      refine ih k ?_
      rcases List.mem_cons.mp h with h | h
      · exact absurd h.symm hk
      · exact h

theorem mem_keys_of_alookup_isSome [DecidableEq κ] (l : List (κ × α)) (k : κ)
    (h : (alookup l k).isSome) : k ∈ l.map Prod.fst := by
  rcases hv : alookup l k with _ | v
  · rw [hv] at h; cases h
  · exact List.mem_map.mpr ⟨(k, v), alookup_mem l k v hv, rfl⟩

/-- A grading of an automaton. -/
structure IsGraded (A : Auto Nat) (lvl : Nat → Int) : Prop where
  root_mem : (A.find A.root).isSome
  closed : ∀ i d, A.find i = some d → ∀ l t, (l, t) ∈ d.trans → (A.find t).isSome
  no_eps : ∀ i d, A.find i = some d → ∀ t, (Label.epsilon, t) ∉ d.trans
  op_step : ∀ i d, A.find i = some d → ∀ op t,
    (Label.term (.opHead op), t) ∈ d.trans → lvl t = lvl i + 1
  end_step : ∀ i d, A.find i = some d → ∀ t,
    (Label.term .opEnd, t) ∈ d.trans → lvl t = lvl i - 1
  flat_step : ∀ i d, A.find i = some d → ∀ l t, (l, t) ∈ d.trans →
    l.isOp = false → l ≠ .term .opEnd → lvl t = lvl i

theorem transAt_mem_trans (A : Auto Nat) (i : Nat) (l : Label) (t : Nat)
    (h : transAt A i l = some t) : ∃ d, A.find i = some d ∧ (l, t) ∈ d.trans := by
  rw [transAt] at h
  rcases hd : A.find i with _ | d <;> rw [hd] at h
  · cases h
  · exact ⟨d, rfl, alookup_mem _ _ _ h⟩

/-- What a graded automaton guarantees about the result of one
`_get_next_state` step from state `i` to state `t` under label `l` with
wildcard flag `w`. -/
def gradedNextProp (A : Auto Nat) (lvl : Nat → Int) (i t : Nat) (l : Label) (w : Bool) : Prop :=
  (A.find t).isSome ∧
  (l.isOp = true → w = false → lvl t = lvl i + 1) ∧
  (l.isOp = true → w = true → lvl t = lvl i) ∧
  (l = .term .opEnd → lvl t = lvl i - 1) ∧
  (l.isOp = false → l ≠ .term .opEnd → lvl t = lvl i)

theorem gradedNextProp_flat {A : Auto Nat} {lvl : Nat → Int} {i t : Nat} (l : Label) (w : Bool)
    (hop : l.isOp = false) (hend : l ≠ .term .opEnd)
    (hfind : (A.find t).isSome) (hlvl : lvl t = lvl i) :
    gradedNextProp A lvl i t l w := by
  refine ⟨hfind, ?_, ?_, ?_, ?_⟩
  · intro hop2 _; rw [hop] at hop2; cases hop2
  · intro hop2 _; rw [hop] at hop2; cases hop2
  · intro hl; exact absurd hl hend
  · intro _ _; exact hlvl

theorem gradedNextProp_op_exact {A : Auto Nat} {lvl : Nat → Int} {i t : Nat} (op : OpType)
    (hfind : (A.find t).isSome) (hlvl : lvl t = lvl i + 1) :
    gradedNextProp A lvl i t (.term (.opHead op)) false := by
  refine ⟨hfind, ?_, ?_, ?_, ?_⟩
  · intro _ _; exact hlvl
  · intro _ hw; cases hw
  · intro hl; cases hl
  · intro hop; simp [Label.isOp] at hop

theorem gradedNextProp_op_wild {A : Auto Nat} {lvl : Nat → Int} {i t : Nat} (op : OpType)
    (hfind : (A.find t).isSome) (hlvl : lvl t = lvl i) :
    gradedNextProp A lvl i t (.term (.opHead op)) true := by
  refine ⟨hfind, ?_, ?_, ?_, ?_⟩
  · intro _ hw; cases hw
  · intro _ _; exact hlvl
  · intro hl; cases hl
  · intro hop; simp [Label.isOp] at hop

theorem gradedNextProp_end {A : Auto Nat} {lvl : Nat → Int} {i t : Nat}
    (hfind : (A.find t).isSome) (hlvl : lvl t = lvl i - 1) :
    gradedNextProp A lvl i t (.term .opEnd) false := by
  refine ⟨hfind, ?_, ?_, ?_, ?_⟩
  · intro hop _; simp [Label.isOp] at hop
  · intro hop _; simp [Label.isOp] at hop
  · intro _; exact hlvl
  · intro _ hend; exact absurd rfl hend

theorem symWildKey_shape (cs : List Nat) :
    ∀ (ts : List (Label × Nat)) (k : Label),
      symWildKey cs ts = some k → ∃ c, k = .term (.symClass c) := by
  intro ts
  induction ts with
  | nil => intro k h; simp [symWildKey] at h
  | cons e es ih =>
    intro k h
    rcases e with ⟨l2, t2⟩
    rcases l2 with a2 | _ | _
    · rcases a2 with _ | c2 | _ | _ | _
      · exact ih k (by simpa [symWildKey] using h)
      · rw [symWildKey] at h
        by_cases hc2 : c2 ∈ cs
        · rw [if_pos hc2] at h
          injection h with h2
          exact ⟨c2, h2.symm⟩
        · rw [if_neg hc2] at h
          exact ih k h
      · exact ih k (by simpa [symWildKey] using h)
      · exact ih k (by simpa [symWildKey] using h)
      · exact ih k (by simpa [symWildKey] using h)
    · exact ih k (by simpa [symWildKey] using h)
    · exact ih k (by simpa [symWildKey] using h)

theorem symWildKeyAt_shape (A : Auto Nat) (i : Nat) (cs : List Nat) (k : Label)
    (h : symWildKeyAt A i cs = some k) : ∃ c, k = .term (.symClass c) := by
  rw [symWildKeyAt] at h
  rcases hd : A.find i with _ | d <;> rw [hd] at h
  · cases h
  · exact symWildKey_shape cs d.trans k h

theorem graded_anyAtom_step {A : Auto Nat} {lvl : Nat → Int} (hg : IsGraded A lvl)
    {i t : Nat} (h : transAt A i .anyAtom = some t) :
    (A.find t).isSome ∧ lvl t = lvl i := by
  obtain ⟨d, hd, hmem⟩ := transAt_mem_trans A i .anyAtom t h
  exact ⟨hg.closed i d hd _ t hmem,
    hg.flat_step i d hd .anyAtom t hmem (by simp [Label.isOp]) (by simp)⟩

theorem getNextState_graded {A : Auto Nat} {lvl : Nat → Int} (hg : IsGraded A lvl)
    (i : Nat) (l : Label) (t : Nat) (w : Bool)
    (h : getNextState A (some i) l false = (some t, w)) :
    gradedNextProp A lvl i t l w := by
  rcases l with a | _ | _
  · rcases a with ⟨n, cs⟩ | c | op | _ | ⟨m, f⟩
    · simp only [getNextState] at h
      rcases hex : transAt A i (.term (.symbol n cs)) with _ | t2 <;> simp only [hex] at h
      · rcases hswk : symWildKeyAt A i cs with _ | k <;> simp only [hswk] at h
        · rcases hany : transAt A i .anyAtom with _ | t3 <;> simp only [hany] at h
          · cases h
          · obtain ⟨h1, h2⟩ := Prod.mk.injEq .. ▸ h
            injection h1 with h1
            rw [h1] at hany
            obtain ⟨hfind, hlvl⟩ := graded_anyAtom_step hg hany
            exact gradedNextProp_flat _ _ (by simp [Label.isOp]) (by simp) hfind hlvl
        · rcases hkt : transAt A i k with _ | t3 <;> simp only [hkt] at h
          · cases h
          · obtain ⟨h1, h2⟩ := Prod.mk.injEq .. ▸ h
            injection h1 with h1
            rw [h1] at hkt
            obtain ⟨c, rfl⟩ := symWildKeyAt_shape A i cs k hswk
            obtain ⟨d, hd, hmem⟩ := transAt_mem_trans A i _ t hkt
            refine gradedNextProp_flat _ _ (by simp [Label.isOp]) (by simp)
              (hg.closed i d hd _ t hmem) ?_
            exact hg.flat_step i d hd _ t hmem (by simp [Label.isOp]) (by simp)
      · obtain ⟨h1, h2⟩ := Prod.mk.injEq .. ▸ h
        injection h1 with h1
        rw [h1] at hex
        obtain ⟨d, hd, hmem⟩ := transAt_mem_trans A i _ t hex
        refine gradedNextProp_flat _ _ (by simp [Label.isOp]) (by simp)
          (hg.closed i d hd _ t hmem) ?_
        exact hg.flat_step i d hd _ t hmem (by simp [Label.isOp]) (by simp)
    · simp only [getNextState] at h
      rcases hex : transAt A i (.term (.symClass c)) with _ | t2 <;> simp only [hex] at h
      · rcases hany : transAt A i .anyAtom with _ | t3 <;> simp only [hany] at h
        · cases h
        · obtain ⟨h1, h2⟩ := Prod.mk.injEq .. ▸ h
          injection h1 with h1
          rw [h1] at hany
          obtain ⟨hfind, hlvl⟩ := graded_anyAtom_step hg hany
          exact gradedNextProp_flat _ _ (by simp [Label.isOp]) (by simp) hfind hlvl
      · obtain ⟨h1, h2⟩ := Prod.mk.injEq .. ▸ h
        injection h1 with h1
        rw [h1] at hex
        obtain ⟨d, hd, hmem⟩ := transAt_mem_trans A i _ t hex
        refine gradedNextProp_flat _ _ (by simp [Label.isOp]) (by simp)
          (hg.closed i d hd _ t hmem) ?_
        exact hg.flat_step i d hd _ t hmem (by simp [Label.isOp]) (by simp)
    · simp only [getNextState] at h
      rcases hex : transAt A i (.term (.opHead op)) with _ | t2 <;> simp only [hex] at h
      · rcases hany : transAt A i .anyAtom with _ | t3 <;> simp only [hany] at h
        · cases h
        · obtain ⟨h1, h2⟩ := Prod.mk.injEq .. ▸ h
          injection h1 with h1
          rw [h1] at hany
          obtain ⟨hfind, hlvl⟩ := graded_anyAtom_step hg hany
          rw [← h2]
          exact gradedNextProp_op_wild op hfind hlvl
      · obtain ⟨h1, h2⟩ := Prod.mk.injEq .. ▸ h
        injection h1 with h1
        rw [h1] at hex
        obtain ⟨d, hd, hmem⟩ := transAt_mem_trans A i _ t hex
        rw [← h2]
        exact gradedNextProp_op_exact op (hg.closed i d hd _ t hmem)
          (hg.op_step i d hd op t hmem)
    · simp only [getNextState] at h
      rcases hex : transAt A i (.term .opEnd) with _ | t2 <;> simp only [hex] at h
      · cases h
      · obtain ⟨h1, h2⟩ := Prod.mk.injEq .. ▸ h
        injection h1 with h1
        rw [h1] at hex
        obtain ⟨d, hd, hmem⟩ := transAt_mem_trans A i _ t hex
        rw [← h2]
        exact gradedNextProp_end (hg.closed i d hd _ t hmem)
          (hg.end_step i d hd t hmem)
    · simp only [getNextState] at h
      rcases hex : transAt A i (.term (.wild m f)) with _ | t2 <;> simp only [hex] at h
      · rcases hany : transAt A i .anyAtom with _ | t3 <;> simp only [hany] at h
        · cases h
        · obtain ⟨h1, h2⟩ := Prod.mk.injEq .. ▸ h
          injection h1 with h1
          rw [h1] at hany
          obtain ⟨hfind, hlvl⟩ := graded_anyAtom_step hg hany
          exact gradedNextProp_flat _ _ (by simp [Label.isOp]) (by simp) hfind hlvl
      · obtain ⟨h1, h2⟩ := Prod.mk.injEq .. ▸ h
        injection h1 with h1
        rw [h1] at hex
        obtain ⟨d, hd, hmem⟩ := transAt_mem_trans A i _ t hex
        refine gradedNextProp_flat _ _ (by simp [Label.isOp]) (by simp)
          (hg.closed i d hd _ t hmem) ?_
        exact hg.flat_step i d hd _ t hmem (by simp [Label.isOp]) (by simp)
  · simp only [getNextState] at h
    rcases hex : transAt A i .anyAtom with _ | t2 <;> simp only [hex] at h
    · cases h
    · obtain ⟨h1, h2⟩ := Prod.mk.injEq .. ▸ h
      injection h1 with h1
      rw [h1] at hex
      obtain ⟨hfind, hlvl⟩ := graded_anyAtom_step hg hex
      exact gradedNextProp_flat _ _ (by simp [Label.isOp]) (by simp) hfind hlvl
  · simp only [getNextState] at h
    rcases hex : transAt A i .epsilon with _ | t2 <;> simp only [hex] at h
    · rcases hany : transAt A i .anyAtom with _ | t3 <;> simp only [hany] at h
      · cases h
      · obtain ⟨h1, h2⟩ := Prod.mk.injEq .. ▸ h
        injection h1 with h1
        rw [h1] at hany
        obtain ⟨hfind, hlvl⟩ := graded_anyAtom_step hg hany
        exact gradedNextProp_flat _ _ (by simp [Label.isOp]) (by simp) hfind hlvl
    · obtain ⟨h1, h2⟩ := Prod.mk.injEq .. ▸ h
      injection h1 with h1
      rw [h1] at hex
      obtain ⟨d, hd, hmem⟩ := transAt_mem_trans A i _ t hex
      exact absurd hmem (hg.no_eps i d hd t)

/-- The least level appearing on a state of the arena (or `0`). -/
def loOf (A : Auto Nat) (lvl : Nat → Int) : Int :=
  ((keysOfAuto A).map lvl).foldl min 0

/-- The greatest level appearing on a state of the arena (or `0`). -/
def hiOf (A : Auto Nat) (lvl : Nat → Int) : Int :=
  ((keysOfAuto A).map lvl).foldl max 0

theorem foldl_min_le_init : ∀ (l : List Int) (d : Int), l.foldl min d ≤ d := by
  intro l
  induction l with
  | nil => intro d; exact le_refl d
  | cons a l ih =>
    intro d
    calc (a :: l).foldl min d = l.foldl min (min d a) := rfl
    _ ≤ min d a := ih (min d a)
    _ ≤ d := min_le_left d a

theorem foldl_min_le_mem : ∀ (l : List Int) (d x : Int), x ∈ l → l.foldl min d ≤ x := by
  intro l
  induction l with
  | nil => intro d x h; simp at h
  | cons a l ih =>
    intro d x h
    rcases List.mem_cons.mp h with h | h
    · subst h
      calc (x :: l).foldl min d = l.foldl min (min d x) := rfl
      _ ≤ min d x := foldl_min_le_init l (min d x)
      _ ≤ x := min_le_right d x
    · exact ih (min d a) x h

theorem init_le_foldl_max : ∀ (l : List Int) (d : Int), d ≤ l.foldl max d := by
  intro l
  induction l with
  | nil => intro d; exact le_refl d
  | cons a l ih =>
    intro d
    calc d ≤ max d a := le_max_left d a
    _ ≤ l.foldl max (max d a) := ih (max d a)
    _ = (a :: l).foldl max d := rfl

theorem mem_le_foldl_max : ∀ (l : List Int) (d x : Int), x ∈ l → x ≤ l.foldl max d := by
  intro l
  induction l with
  | nil => intro d x h; simp at h
  | cons a l ih =>
    intro d x h
    rcases List.mem_cons.mp h with h | h
    · subst h
      calc x ≤ max d x := le_max_right d x
      _ ≤ l.foldl max (max d x) := init_le_foldl_max l (max d x)
      _ = (x :: l).foldl max d := rfl
    · exact ih (max d a) x h

theorem lvl_bounds (A : Auto Nat) (lvl : Nat → Int) (i : Nat) (h : (A.find i).isSome) :
    loOf A lvl ≤ lvl i ∧ lvl i ≤ hiOf A lvl := by
  have hmem : i ∈ keysOfAuto A := mem_keys_of_alookup_isSome A.states i h
  have hmem2 : lvl i ∈ (keysOfAuto A).map lvl := List.mem_map.mpr ⟨i, hmem, rfl⟩
  exact ⟨foldl_min_le_mem _ 0 _ hmem2, mem_le_foldl_max _ 0 _ hmem2⟩

theorem loOf_nonpos (A : Auto Nat) (lvl : Nat → Int) : loOf A lvl ≤ 0 :=
  foldl_min_le_init _ 0

theorem hiOf_nonneg (A : Auto Nat) (lvl : Nat → Int) : 0 ≤ hiOf A lvl :=
  init_le_foldl_max _ 0

/-! #### Membership in the label set of a queue item -/

theorem mem_dedupSeen [DecidableEq α] :
    ∀ (l seen : List α) (x : α), x ∈ dedupSeen seen l → x ∈ l := by
  intro l
  induction l with
  | nil => intro seen x h; simp [dedupSeen] at h
  | cons a l ih =>
    intro seen x h
    rw [dedupSeen] at h
    by_cases ha : a ∈ seen
    · rw [if_pos ha] at h
      exact List.mem_cons_of_mem a (ih seen x h)
    · rw [if_neg ha] at h
      rcases List.mem_cons.mp h with h | h
      · exact h ▸ List.mem_cons_self a l
      · exact List.mem_cons_of_mem a (ih (seen ++ [a]) x h)

theorem mem_dedupKeepFirst [DecidableEq α] (l : List α) (x : α)
    (h : x ∈ dedupKeepFirst l) : x ∈ l :=
  mem_dedupSeen l [] x h

/-- The possible origins of a label offered by `_StateQueueItem.labels`. -/
theorem mem_qlabels_cases (A B : Auto Nat) (q : QItem) (l : Label)
    (h : l ∈ qlabels A B q) :
    (∃ i, q.state1 = some i ∧ q.fixed ≠ 1 ∧ l ∈ keysAt A i) ∨
    (∃ j, q.state2 = some j ∧ q.fixed ≠ 2 ∧ l ∈ keysAt B j) ∨
    (q.fixed ≠ 0 ∧ l = .term .opEnd ∧
      ((q.fixed = 1 ∧ q.state2 = none) ∨ (q.fixed = 2 ∧ q.state1 = none))) ∨
    (q.fixed ≠ 0 ∧ l = .anyAtom) := by
  have h2 := mem_dedupKeepFirst _ _ h
  rw [List.mem_append] at h2
  rcases h2 with h2 | h2
  · rw [List.mem_append] at h2
    rcases h2 with h2 | h2
    · left
      rcases hs : q.state1 with _ | i <;> simp only [hs] at h2
      · simp at h2
      · by_cases hf : q.fixed ≠ 1
        · rw [if_pos hf] at h2
          exact ⟨i, rfl, hf, h2⟩
        · rw [if_neg hf] at h2
          simp at h2
    · right; left
      rcases hs : q.state2 with _ | j <;> simp only [hs] at h2
      · simp at h2
      · by_cases hf : q.fixed ≠ 2
        · rw [if_pos hf] at h2
          exact ⟨j, rfl, hf, h2⟩
        · rw [if_neg hf] at h2
          simp at h2
  · by_cases hf : q.fixed ≠ 0
    · rw [if_pos hf] at h2
      rw [List.mem_append] at h2
      rcases h2 with h2 | h2
      · right; right; left
        refine ⟨hf, ?_⟩
        by_cases h1 : q.fixed = 1 ∧ q.state2 = none
        · rw [if_pos h1] at h2
          rcases List.mem_singleton.mp h2 with rfl
          exact ⟨rfl, Or.inl h1⟩
        · rw [if_neg h1] at h2
          by_cases hb : q.fixed = 2 ∧ q.state1 = none
          · rw [if_pos hb] at h2
            rcases List.mem_singleton.mp h2 with rfl
            exact ⟨rfl, Or.inr hb⟩
          · rw [if_neg hb] at h2
            simp at h2
      · right; right; right
        rw [if_pos hf] at h2
        exact ⟨hf, List.mem_singleton.mp h2⟩
    · rw [if_neg hf] at h2
      simp at h2

/-! #### Characterization of single `_get_next_state` steps -/

theorem getNextState_fixedTrue (A : Auto Nat) (s : Option Nat) (l : Label) :
    getNextState A s l true = (s, false) := rfl

theorem getNextState_noneSide (A : Auto Nat) (l : Label) :
    getNextState A none l false = (none, false) := rfl

theorem transAt_isSome_of_mem_keys (A : Auto Nat) (i : Nat) (l : Label)
    (h : l ∈ keysAt A i) : (transAt A i l).isSome := by
  rw [keysAt] at h
  rw [transAt]
  rcases hd : A.find i with _ | d <;> rw [hd] at h
  · simp at h
  · exact alookup_isSome_of_mem_keys d.trans l h

theorem getNextState_exact (A : Auto Nat) (i : Nat) (l : Label) (t : Nat)
    (h : transAt A i l = some t) :
    getNextState A (some i) l false = (some t, false) := by
  simp [getNextState, h]

/-- A wildcard step (`w = true`) only happens from a live state on an exact
miss, and goes to the target of the state's generic wildcard transition. -/
theorem getNextState_snd_true (A : Auto Nat) (s : Option Nat) (l : Label)
    (h : (getNextState A s l false).2 = true) :
    ∃ i u, s = some i ∧ transAt A i l = none ∧ transAt A i .anyAtom = some u ∧
      getNextState A s l false = (some u, true) := by
  rcases s with _ | i
  · rw [getNextState_noneSide] at h
    cases h
  · rcases l with a | _ | _
    · rcases a with ⟨n, cs⟩ | c | op | _ | ⟨m, f⟩
      · simp only [getNextState] at h
        rcases hex : transAt A i (.term (.symbol n cs)) with _ | t2 <;> simp only [hex] at h
        · rcases hswk : symWildKeyAt A i cs with _ | k <;> simp only [hswk] at h
          · rcases hany : transAt A i .anyAtom with _ | t3 <;> simp only [hany] at h
            · cases h
            · exact ⟨i, t3, rfl, hex, hany, by simp [getNextState, hex, hswk, hany]⟩
          · rcases hkt : transAt A i k with _ | t3 <;> simp only [hkt] at h <;> cases h
        · cases h
      · simp only [getNextState] at h
        rcases hex : transAt A i (.term (.symClass c)) with _ | t2 <;> simp only [hex] at h
        · rcases hany : transAt A i .anyAtom with _ | t3 <;> simp only [hany] at h
          · cases h
          · exact ⟨i, t3, rfl, hex, hany, by simp [getNextState, hex, hany]⟩
        · cases h
      · simp only [getNextState] at h
        rcases hex : transAt A i (.term (.opHead op)) with _ | t2 <;> simp only [hex] at h
        · rcases hany : transAt A i .anyAtom with _ | t3 <;> simp only [hany] at h
          · cases h
          · exact ⟨i, t3, rfl, hex, hany, by simp [getNextState, hex, hany]⟩
        · cases h
      · simp only [getNextState] at h
        rcases hex : transAt A i (.term .opEnd) with _ | t2 <;> simp only [hex] at h <;> cases h
      · simp only [getNextState] at h
        rcases hex : transAt A i (.term (.wild m f)) with _ | t2 <;> simp only [hex] at h
        · rcases hany : transAt A i .anyAtom with _ | t3 <;> simp only [hany] at h
          · cases h
          · exact ⟨i, t3, rfl, hex, hany, by simp [getNextState, hex, hany]⟩
        · cases h
    · simp only [getNextState] at h
      rcases hex : transAt A i .anyAtom with _ | t2 <;> simp only [hex] at h
      · cases h
      · cases h
    · simp only [getNextState] at h
      rcases hex : transAt A i .epsilon with _ | t2 <;> simp only [hex] at h
      · rcases hany : transAt A i .anyAtom with _ | t3 <;> simp only [hany] at h
        · cases h
        · exact ⟨i, t3, rfl, hex, hany, by simp [getNextState, hex, hany]⟩
      · cases h

/-! #### The queue-item invariant -/

/-- The invariant maintained for every `_StateQueueItem` put on the product
worklist: live states are in their arenas, the stored ids match the states,
and the replay mode `fixed` determines the shape of `depth`: zero when not
fixed; otherwise positive, with the pinned side holding a state that has a
generic wildcard transition, and bounded through the grading of the side
that is still being replayed. -/
structure QInv (A B : Auto Nat) (lvlA lvlB : Nat → Int) (q : QItem) : Prop where
  find1 : ∀ i, q.state1 = some i → (A.find i).isSome
  find2 : ∀ j, q.state2 = some j → (B.find j).isSome
  id1_eq : q.id1 = q.state1.getD 0
  id2_eq : q.id2 = q.state2.getD 0
  fixed_cases :
    (q.fixed = 0 ∧ q.depth = 0) ∨
    (q.fixed = 1 ∧ 1 ≤ q.depth ∧
      (∃ s1, q.state1 = some s1 ∧ (transAt A s1 .anyAtom).isSome) ∧
      (∀ j, q.state2 = some j → q.depth ≤ lvlB j - loOf B lvlB) ∧
      (q.state2 = none → q.depth ≤ hiOf B lvlB - loOf B lvlB)) ∨
    (q.fixed = 2 ∧ 1 ≤ q.depth ∧
      (∃ s2, q.state2 = some s2 ∧ (transAt B s2 .anyAtom).isSome) ∧
      (∀ i, q.state1 = some i → q.depth ≤ lvlA i - loOf A lvlA) ∧
      (q.state1 = none → q.depth ≤ hiOf A lvlA - loOf A lvlA))

/-- The largest skip depth a queue item can reach. -/
def maxDepthBound (A B : Auto Nat) (lvlA lvlB : Nat → Int) : Nat :=
  (max (hiOf A lvlA - loOf A lvlA) (hiOf B lvlB - loOf B lvlB)).toNat

/-- The finite space of product keys: a (possibly failed) state id on each
side together with a bounded depth. -/
def allKeys (A B : Auto Nat) (maxD : Nat) : List PKey :=
  (0 :: keysOfAuto A).bind fun i =>
    (0 :: keysOfAuto B).bind fun j =>
      (List.range (maxD + 1)).map fun d => (i, j, (d : Int))

theorem mem_allKeys (A B : Auto Nat) (maxD : Nat) (i j : Nat) (d : Int)
    (hi : i = 0 ∨ i ∈ keysOfAuto A) (hj : j = 0 ∨ j ∈ keysOfAuto B)
    (hd0 : 0 ≤ d) (hdm : d ≤ (maxD : Int)) :
    (i, j, d) ∈ allKeys A B maxD := by
  have hi2 : i ∈ 0 :: keysOfAuto A := by
    rcases hi with rfl | hi
    · exact List.mem_cons_self _ _
    · exact List.mem_cons_of_mem _ hi
  have hj2 : j ∈ 0 :: keysOfAuto B := by
    rcases hj with rfl | hj
    · exact List.mem_cons_self _ _
    · exact List.mem_cons_of_mem _ hj
  simp only [allKeys, List.mem_bind, List.mem_map, List.mem_range]
  refine ⟨i, hi2, j, hj2, d.toNat, ?_, ?_⟩
  · simp only [bind_pure_comp, List.map_eq_map, List.mem_map, List.mem_range]
    exact ⟨d.toNat, by omega, rfl⟩
  · have h4 : ((d.toNat : Nat) : Int) = d := Int.toNat_of_nonneg hd0
    rw [h4]

/-- Every invariant-satisfying queue item has its key in the finite key
space. -/
theorem QItem_key_valid {A B : Auto Nat} {lvlA lvlB : Nat → Int} {q : QItem}
    (hq : QInv A B lvlA lvlB q) :
    q.key ∈ allKeys A B (maxDepthBound A B lvlA lvlB) := by
  have hi : q.id1 = 0 ∨ q.id1 ∈ keysOfAuto A := by
    rcases hs : q.state1 with _ | i
    · left; rw [hq.id1_eq, hs]; rfl
    · right
      rw [hq.id1_eq, hs]
      exact mem_keys_of_alookup_isSome A.states i (hq.find1 i hs)
  have hj : q.id2 = 0 ∨ q.id2 ∈ keysOfAuto B := by
    rcases hs : q.state2 with _ | j
    · left; rw [hq.id2_eq, hs]; rfl
    · right
      rw [hq.id2_eq, hs]
      exact mem_keys_of_alookup_isSome B.states j (hq.find2 j hs)
  have hd : 0 ≤ q.depth ∧ q.depth ≤ (maxDepthBound A B lvlA lvlB : Int) := by
    have hmaxd := maxDepthBound A B lvlA lvlB
    rcases hq.fixed_cases with ⟨_, hd0⟩ | ⟨_, hd1, _, hbs, hbn⟩ | ⟨_, hd1, _, hbs, hbn⟩
    · constructor
      · rw [hd0]
      · rw [hd0]
        exact Int.natCast_nonneg _
    · refine ⟨by omega, ?_⟩
      have hup : q.depth ≤ hiOf B lvlB - loOf B lvlB := by
        rcases hs : q.state2 with _ | j2
        · exact hbn hs
        · have h1 := hbs j2 hs
          have h2 := lvl_bounds B lvlB j2 (hq.find2 j2 hs)
          omega
      have h3 : hiOf B lvlB - loOf B lvlB ≤
          max (hiOf A lvlA - loOf A lvlA) (hiOf B lvlB - loOf B lvlB) :=
        le_max_right _ _
      rw [maxDepthBound]
      omega
    · refine ⟨by omega, ?_⟩
      have hup : q.depth ≤ hiOf A lvlA - loOf A lvlA := by
        rcases hs : q.state1 with _ | i2
        · exact hbn hs
        · have h1 := hbs i2 hs
          have h2 := lvl_bounds A lvlA i2 (hq.find1 i2 hs)
          omega
      have h3 : hiOf A lvlA - loOf A lvlA ≤
          max (hiOf A lvlA - loOf A lvlA) (hiOf B lvlB - loOf B lvlB) :=
        le_max_left _ _
      rw [maxDepthBound]
      omega
  exact mem_allKeys A B _ q.id1 q.id2 q.depth hi hj hd.1 hd.2

theorem getNextState_opEnd (B : Auto Nat) (j : Nat) :
    getNextState B (some j) (.term .opEnd) false = (transAt B j (.term .opEnd), false) := by
  rcases hex : transAt B j (.term .opEnd) with _ | t
  · simp [getNextState, hex]
  · simp [getNextState, hex]

theorem getNextState_find {A : Auto Nat} {lvl : Nat → Int} (hg : IsGraded A lvl)
    (s : Option Nat) (l : Label)
    (hs : ∀ i, s = some i → (A.find i).isSome) (x : Nat)
    (h : (getNextState A s l false).1 = some x) : (A.find x).isSome := by
  rcases s with _ | i
  · rw [getNextState_noneSide] at h
    cases h
  · rcases hr : getNextState A (some i) l false with ⟨t, w⟩
    rw [hr] at h
    change t = some x at h
    subst h
    exact (getNextState_graded hg i l x w hr).1

theorem QInv_mkQItem {A B : Auto Nat} {lvlA lvlB : Nat → Int} (s1 s2 : Option Nat)
    (h1 : ∀ i, s1 = some i → (A.find i).isSome)
    (h2 : ∀ j, s2 = some j → (B.find j).isSome) :
    QInv A B lvlA lvlB (mkQItem A B s1 s2) := by
  refine ⟨h1, h2, rfl, rfl, Or.inl ⟨rfl, rfl⟩⟩

/-- `productChild` from an unfixed item: it always succeeds and preserves the
invariant. -/
theorem productChild_inv_fix0 {A B : Auto Nat} {lvlA lvlB : Nat → Int}
    (hgA : IsGraded A lvlA) (hgB : IsGraded B lvlB)
    (q : QItem) (hq : QInv A B lvlA lvlB q) (hf : q.fixed = 0) (hd : q.depth = 0)
    (l : Label) (hl : l ∈ qlabels A B q) :
    ∃ c, productChild A B q l = some c ∧ QInv A B lvlA lvlB c := by
  have hb1 : (q.fixed == 1) = false := by rw [hf]; rfl
  have hb2 : (q.fixed == 2) = false := by rw [hf]; rfl
  by_cases hop : l.isOp = true
  · by_cases hw1 : (getNextState A q.state1 l false).2 = true
    · -- side 1 takes the wildcard: side 2 must hold the label exactly
      obtain ⟨i1, u, hs1, hmiss, hany, hr1⟩ := getNextState_snd_true A q.state1 l hw1
      rcases mem_qlabels_cases A B q l hl with ⟨i, hsi, _, hkey⟩ | ⟨j, hsj, _, hkey⟩ |
        ⟨hfne, _⟩ | ⟨hfne, _⟩
      · rw [hs1] at hsi
        injection hsi with hsi
        rw [← hsi] at hkey
        have hsome := transAt_isSome_of_mem_keys A i1 l hkey
        rw [hmiss] at hsome
        cases hsome
      · have hex2 := transAt_isSome_of_mem_keys B j l hkey
        rcases ht2 : transAt B j l with _ | t
        · rw [ht2] at hex2
          cases hex2
        · have hr2j : getNextState B (some j) l false = (some t, false) :=
            getNextState_exact B j l t ht2
          have hr2 : getNextState B q.state2 l false = (some t, false) := by
            rw [hsj]; exact hr2j
          have hg2 := getNextState_graded hgB j l t false hr2j
          have hlv : lvlB t = lvlB j + 1 := hg2.2.1 hop rfl
          have hfind_t : (B.find t).isSome := hg2.1
          have hloB := (lvl_bounds B lvlB j (hq.find2 j hsj)).1
          have hr1i : getNextState A (some i1) l false = (some u, true) := by
            rw [← hs1]; exact hr1
          refine ⟨⟨q.state1, some t, q.id1, t, payloadAt B t ++ payloadAt A i1, 1, 1⟩, ?_, ?_⟩
          · simp [productChild, getNextState_fixedTrue, hb1, hb2, hr1i, hr2j, hop, hf, hs1, hsj, mkQItem]
          · refine ⟨fun i hi => hq.find1 i hi, fun j2 hj => ?_, hq.id1_eq, rfl, ?_⟩
            · have hj2 : some t = some j2 := hj
              injection hj2 with hj2
              subst hj2
              exact hfind_t
            · right; left
              refine ⟨rfl, le_refl 1, ⟨i1, hs1, by rw [hany]; rfl⟩, ?_, ?_⟩
              · intro j2 hj
                have hj2 : some t = some j2 := hj
                injection hj2 with hj2
                subst hj2
                show (1 : Int) ≤ lvlB t - loOf B lvlB
                omega
              · intro hnone
                exact absurd (show (some t : Option Nat) = none from hnone) (by simp)
      · exact absurd hf (by omega)
      · exact absurd hf (by omega)
    · by_cases hw2 : (getNextState B q.state2 l false).2 = true
      · -- side 2 takes the wildcard: side 1 must hold the label exactly
        obtain ⟨j2, u, hs2, hmiss, hany, hr2⟩ := getNextState_snd_true B q.state2 l hw2
        rcases mem_qlabels_cases A B q l hl with ⟨i, hsi, _, hkey⟩ | ⟨j, hsj, _, hkey⟩ |
          ⟨hfne, _⟩ | ⟨hfne, _⟩
        · have hex1 := transAt_isSome_of_mem_keys A i l hkey
          rcases ht1 : transAt A i l with _ | t
          · rw [ht1] at hex1
            cases hex1
          · have hr1i : getNextState A (some i) l false = (some t, false) :=
              getNextState_exact A i l t ht1
            have hr1 : getNextState A q.state1 l false = (some t, false) := by
              rw [hsi]; exact hr1i
            have hg1 := getNextState_graded hgA i l t false hr1i
            have hlv : lvlA t = lvlA i + 1 := hg1.2.1 hop rfl
            have hfind_t : (A.find t).isSome := hg1.1
            have hloA := (lvl_bounds A lvlA i (hq.find1 i hsi)).1
            have hr2i : getNextState B (some j2) l false = (some u, true) := by
              rw [← hs2]; exact hr2
            refine ⟨⟨some t, q.state2, t, q.id2, payloadAt A t ++ payloadAt B j2, 1, 2⟩, ?_, ?_⟩
            · simp [productChild, getNextState_fixedTrue, hb1, hb2, hr1i, hr2i, hop, hf, hs2, hsi, mkQItem]
            · refine ⟨fun i2 hi => ?_, fun j3 hj => hq.find2 j3 hj, rfl, hq.id2_eq, ?_⟩
              · have hi2 : some t = some i2 := hi
                injection hi2 with hi2
                subst hi2
                exact hfind_t
              · right; right
                refine ⟨rfl, le_refl 1, ⟨j2, hs2, by rw [hany]; rfl⟩, ?_, ?_⟩
                · intro i2 hi
                  have hi2 : some t = some i2 := hi
                  injection hi2 with hi2
                  subst hi2
                  show (1 : Int) ≤ lvlA t - loOf A lvlA
                  omega
                · intro hnone
                  exact absurd (show (some t : Option Nat) = none from hnone) (by simp)
        · rw [hs2] at hsj
          injection hsj with hsj
          rw [← hsj] at hkey
          have hsome := transAt_isSome_of_mem_keys B j2 l hkey
          rw [hmiss] at hsome
          cases hsome
        · exact absurd hf (by omega)
        · exact absurd hf (by omega)
      · -- neither side falls back: plain lockstep child
        refine ⟨mkQItem A B (getNextState A q.state1 l false).1
            (getNextState B q.state2 l false).1, ?_, ?_⟩
        · simp [productChild, getNextState_fixedTrue, hb1, hb2, hop, hw1, hw2, hf, hd, mkQItem]
        · exact QInv_mkQItem _ _
            (fun i hi => getNextState_find hgA q.state1 l hq.find1 i hi)
            (fun j hj => getNextState_find hgB q.state2 l hq.find2 j hj)
  · -- not an operation head: never enters fixed mode from an unfixed item
    refine ⟨mkQItem A B (getNextState A q.state1 l false).1
        (getNextState B q.state2 l false).1, ?_, ?_⟩
    · have hcond : ¬(l = .term .opEnd ∧ q.fixed ≠ 0) := by
        intro hc
        exact hc.2 hf
      simp [productChild, getNextState_fixedTrue, hb1, hb2, hop, hcond, hf, hd, mkQItem]
    · exact QInv_mkQItem _ _
        (fun i hi => getNextState_find hgA q.state1 l hq.find1 i hi)
        (fun j hj => getNextState_find hgB q.state2 l hq.find2 j hj)

/-- `productChild` from an item fixed on side 1: it always succeeds and
preserves the invariant. -/
theorem productChild_inv_fix1 {A B : Auto Nat} {lvlA lvlB : Nat → Int}
    (hgA : IsGraded A lvlA) (hgB : IsGraded B lvlB)
    (q : QItem) (hq : QInv A B lvlA lvlB q) (hf : q.fixed = 1)
    (l : Label) (hl : l ∈ qlabels A B q) :
    ∃ c, productChild A B q l = some c ∧ QInv A B lvlA lvlB c := by
  have hb1 : (q.fixed == 1) = true := by rw [hf]; rfl
  have hb2 : (q.fixed == 2) = false := by rw [hf]; rfl
  rcases hq.fixed_cases with ⟨h0, _⟩ | ⟨_, hd1, hpin, hbs, hbn⟩ | ⟨h2, _⟩
  · rw [hf] at h0; cases h0
  swap
  · rw [hf] at h2; cases h2
  obtain ⟨s1, hs1, hany⟩ := hpin
  by_cases hop : l.isOp = true
  · -- an operation head: replay depth grows, side 2 must step exactly
    rcases mem_qlabels_cases A B q l hl with ⟨i, hsi, hfne, hkey⟩ | ⟨j, hsj, _, hkey⟩ |
      ⟨_, hlend, _⟩ | ⟨_, hlany⟩
    · exact absurd hf hfne
    · have hex2 := transAt_isSome_of_mem_keys B j l hkey
      rcases ht2 : transAt B j l with _ | t
      · rw [ht2] at hex2
        cases hex2
      · have hr2j : getNextState B (some j) l false = (some t, false) :=
          getNextState_exact B j l t ht2
        have hg2 := getNextState_graded hgB j l t false hr2j
        have hlv : lvlB t = lvlB j + 1 := hg2.2.1 hop rfl
        have hfind_t : (B.find t).isSome := hg2.1
        have hbs2 := hbs j hsj
        refine ⟨⟨some s1, some t, s1, t, payloadAt A s1 ++ payloadAt B t, q.depth + 1, 1⟩,
          ?_, ?_⟩
        · simp [productChild, hb1, hb2, getNextState_fixedTrue, hr2j, hsj, hs1, hop, hf,
            mkQItem]
        · refine ⟨fun i2 hi => ?_, fun j2 hj => ?_, rfl, rfl, ?_⟩
          · have hi2 : some s1 = some i2 := hi
            injection hi2 with hi2
            subst hi2
            exact hq.find1 s1 hs1
          · have hj2 : some t = some j2 := hj
            injection hj2 with hj2
            subst hj2
            exact hfind_t
          · right; left
            refine ⟨rfl, by show (1:Int) ≤ q.depth + 1; omega, ⟨s1, rfl, hany⟩, ?_, ?_⟩
            · intro j2 hj
              have hj2 : some t = some j2 := hj
              injection hj2 with hj2
              subst hj2
              show q.depth + 1 ≤ lvlB t - loOf B lvlB
              omega
            · intro hnone
              exact absurd (show (some t : Option Nat) = none from hnone) (by simp)
    · rw [hlend] at hop
      simp [Label.isOp] at hop
    · rw [hlany] at hop
      simp [Label.isOp] at hop
  · have hop2 : l.isOp = false := by revert hop; cases l.isOp <;> simp
    by_cases hend : l = .term .opEnd
    · subst hend
      rcases hsj : q.state2 with _ | j
      · -- side 2 already failed: only the depth moves
        have hr2 : getNextState B q.state2 (.term .opEnd) false = (none, false) := by
          rw [hsj]; rfl
        by_cases hdz : q.depth - 1 = 0
        · -- unfixing: resume side 1 behind its wildcard transition
          obtain ⟨u, hu⟩ := Option.isSome_iff_exists.mp hany
          obtain ⟨d1, hd1', hmem⟩ := transAt_mem_trans A s1 .anyAtom u hu
          have hfind_u : (A.find u).isSome := hgA.closed s1 d1 hd1' _ u hmem
          refine ⟨⟨some u, none, u, 0, payloadAt A s1 ++ payloadAt A u, 0, 0⟩, ?_, ?_⟩
          · simp [productChild, getNextState_fixedTrue, hb1, hb2, hr2, hs1, hu, hf, hdz, mkQItem, Label.isOp]
          · refine ⟨fun i2 hi => ?_, fun j2 hj => ?_, rfl, rfl, Or.inl ⟨rfl, rfl⟩⟩
            · have hi2 : some u = some i2 := hi
              injection hi2 with hi2
              subst hi2
              exact hfind_u
            · exact absurd (show (none : Option Nat) = some j2 from hj) (by simp)
        · refine ⟨⟨some s1, none, s1, 0, payloadAt A s1, q.depth - 1, 1⟩, ?_, ?_⟩
          · simp [productChild, getNextState_fixedTrue, hb1, hb2, hr2, hs1, hf, hdz, mkQItem, Label.isOp]
          · refine ⟨fun i2 hi => ?_, fun j2 hj => ?_, rfl, rfl, ?_⟩
            · have hi2 : some s1 = some i2 := hi
              injection hi2 with hi2
              subst hi2
              exact hq.find1 s1 hs1
            · exact absurd (show (none : Option Nat) = some j2 from hj) (by simp)
            · right; left
              refine ⟨rfl, by show (1:Int) ≤ q.depth - 1; omega, ⟨s1, rfl, hany⟩, ?_, ?_⟩
              · intro j2 hj
                exact absurd (show (none : Option Nat) = some j2 from hj) (by simp)
              · intro _
                have := hbn hsj
                show q.depth - 1 ≤ hiOf B lvlB - loOf B lvlB
                omega
      · -- side 2 still live: it steps on the closing parenthesis or dies
        have hr2j := getNextState_opEnd B j
        have hbs2 := hbs j hsj
        have hjb := lvl_bounds B lvlB j (hq.find2 j hsj)
        rcases hend2 : transAt B j (.term .opEnd) with _ | t
        · rw [hend2] at hr2j
          by_cases hdz : q.depth - 1 = 0
          · obtain ⟨u, hu⟩ := Option.isSome_iff_exists.mp hany
            obtain ⟨d1, hd1', hmem⟩ := transAt_mem_trans A s1 .anyAtom u hu
            have hfind_u : (A.find u).isSome := hgA.closed s1 d1 hd1' _ u hmem
            refine ⟨⟨some u, none, u, 0, payloadAt A s1 ++ payloadAt A u, 0, 0⟩, ?_, ?_⟩
            · simp [productChild, getNextState_fixedTrue, hb1, hb2, hr2j, hsj, hs1, hu, hf, hdz, mkQItem,
                Label.isOp]
            · refine ⟨fun i2 hi => ?_, fun j2 hj => ?_, rfl, rfl, Or.inl ⟨rfl, rfl⟩⟩
              · have hi2 : some u = some i2 := hi
                injection hi2 with hi2
                subst hi2
                exact hfind_u
              · exact absurd (show (none : Option Nat) = some j2 from hj) (by simp)
          · refine ⟨⟨some s1, none, s1, 0, payloadAt A s1, q.depth - 1, 1⟩, ?_, ?_⟩
            · simp [productChild, getNextState_fixedTrue, hb1, hb2, hr2j, hsj, hs1, hf, hdz, mkQItem, Label.isOp]
            · refine ⟨fun i2 hi => ?_, fun j2 hj => ?_, rfl, rfl, ?_⟩
              · have hi2 : some s1 = some i2 := hi
                injection hi2 with hi2
                subst hi2
                exact hq.find1 s1 hs1
              · exact absurd (show (none : Option Nat) = some j2 from hj) (by simp)
              · right; left
                refine ⟨rfl, by show (1:Int) ≤ q.depth - 1; omega, ⟨s1, rfl, hany⟩, ?_, ?_⟩
                · intro j2 hj
                  exact absurd (show (none : Option Nat) = some j2 from hj) (by simp)
                · intro _
                  show q.depth - 1 ≤ hiOf B lvlB - loOf B lvlB
                  omega
        · rw [hend2] at hr2j
          obtain ⟨d2, hd2', hmem2⟩ := transAt_mem_trans B j _ t hend2
          have hfind_t : (B.find t).isSome := hgB.closed j d2 hd2' _ t hmem2
          have hlv : lvlB t = lvlB j - 1 := hgB.end_step j d2 hd2' t hmem2
          by_cases hdz : q.depth - 1 = 0
          · obtain ⟨u, hu⟩ := Option.isSome_iff_exists.mp hany
            obtain ⟨d1, hd1', hmem⟩ := transAt_mem_trans A s1 .anyAtom u hu
            have hfind_u : (A.find u).isSome := hgA.closed s1 d1 hd1' _ u hmem
            refine ⟨⟨some u, some t, u, t,
              (payloadAt A s1 ++ payloadAt B t) ++ payloadAt A u, 0, 0⟩, ?_, ?_⟩
            · simp [productChild, getNextState_fixedTrue, hb1, hb2, hr2j, hsj, hs1, hu, hf, hdz, mkQItem,
                Label.isOp]
            · refine ⟨fun i2 hi => ?_, fun j2 hj => ?_, rfl, rfl, Or.inl ⟨rfl, rfl⟩⟩
              · have hi2 : some u = some i2 := hi
                injection hi2 with hi2
                subst hi2
                exact hfind_u
              · have hj2 : some t = some j2 := hj
                injection hj2 with hj2
                subst hj2
                exact hfind_t
          · refine ⟨⟨some s1, some t, s1, t, payloadAt A s1 ++ payloadAt B t,
              q.depth - 1, 1⟩, ?_, ?_⟩
            · simp [productChild, getNextState_fixedTrue, hb1, hb2, hr2j, hsj, hs1, hf, hdz, mkQItem, Label.isOp]
            · refine ⟨fun i2 hi => ?_, fun j2 hj => ?_, rfl, rfl, ?_⟩
              · have hi2 : some s1 = some i2 := hi
                injection hi2 with hi2
                subst hi2
                exact hq.find1 s1 hs1
              · have hj2 : some t = some j2 := hj
                injection hj2 with hj2
                subst hj2
                exact hfind_t
              · right; left
                refine ⟨rfl, by show (1:Int) ≤ q.depth - 1; omega, ⟨s1, rfl, hany⟩, ?_, ?_⟩
                · intro j2 hj
                  have hj2 : some t = some j2 := hj
                  injection hj2 with hj2
                  subst hj2
                  show q.depth - 1 ≤ lvlB t - loOf B lvlB
                  omega
                · intro hnone
                  exact absurd (show (some t : Option Nat) = none from hnone) (by simp)
    · -- a flat label: state 2 moves on its level, depth unchanged
      have hcond : ¬(l = .term .opEnd ∧ q.fixed ≠ 0) := fun hc => hend hc.1
      rcases hsj : q.state2 with _ | j
      · have hr2 : getNextState B q.state2 l false = (none, false) := by rw [hsj]; rfl
        refine ⟨⟨some s1, none, s1, 0, payloadAt A s1, q.depth, 1⟩, ?_, ?_⟩
        · simp [productChild, getNextState_fixedTrue, hb1, hb2, hr2, hs1, hsj, hf, hop2, hend, getNextState_noneSide, mkQItem]
        · refine ⟨fun i2 hi => ?_, fun j2 hj => ?_, rfl, rfl, ?_⟩
          · have hi2 : some s1 = some i2 := hi
            injection hi2 with hi2
            subst hi2
            exact hq.find1 s1 hs1
          · exact absurd (show (none : Option Nat) = some j2 from hj) (by simp)
          · right; left
            refine ⟨rfl, hd1, ⟨s1, rfl, hany⟩, ?_, ?_⟩
            · intro j2 hj
              exact absurd (show (none : Option Nat) = some j2 from hj) (by simp)
            · intro _
              exact hbn hsj
      · have hbs2 := hbs j hsj
        have hjb := lvl_bounds B lvlB j (hq.find2 j hsj)
        rcases hr2 : getNextState B (some j) l false with ⟨t2v, w2v⟩
        rcases t2v with _ | t
        · refine ⟨⟨some s1, none, s1, 0, payloadAt A s1, q.depth, 1⟩, ?_, ?_⟩
          · simp [productChild, getNextState_fixedTrue, hb1, hb2, hr2, hs1, hsj, hf, hop2, hend, getNextState_noneSide, mkQItem]
          · refine ⟨fun i2 hi => ?_, fun j2 hj => ?_, rfl, rfl, ?_⟩
            · have hi2 : some s1 = some i2 := hi
              injection hi2 with hi2
              subst hi2
              exact hq.find1 s1 hs1
            · exact absurd (show (none : Option Nat) = some j2 from hj) (by simp)
            · right; left
              refine ⟨rfl, hd1, ⟨s1, rfl, hany⟩, ?_, ?_⟩
              · intro j2 hj
                exact absurd (show (none : Option Nat) = some j2 from hj) (by simp)
              · intro _
                show q.depth ≤ hiOf B lvlB - loOf B lvlB
                omega
        · have hg2 := getNextState_graded hgB j l t w2v hr2
          have hlv : lvlB t = lvlB j := hg2.2.2.2.2 hop2 hend
          have hfind_t : (B.find t).isSome := hg2.1
          refine ⟨⟨some s1, some t, s1, t, payloadAt A s1 ++ payloadAt B t, q.depth, 1⟩,
            ?_, ?_⟩
          · simp [productChild, getNextState_fixedTrue, hb1, hb2, hr2, hs1, hsj, hf, hop2, hend, getNextState_noneSide, mkQItem]
          · refine ⟨fun i2 hi => ?_, fun j2 hj => ?_, rfl, rfl, ?_⟩
            · have hi2 : some s1 = some i2 := hi
              injection hi2 with hi2
              subst hi2
              exact hq.find1 s1 hs1
            · have hj2 : some t = some j2 := hj
              injection hj2 with hj2
              subst hj2
              exact hfind_t
            · right; left
              refine ⟨rfl, hd1, ⟨s1, rfl, hany⟩, ?_, ?_⟩
              · intro j2 hj
                have hj2 : some t = some j2 := hj
                injection hj2 with hj2
                subst hj2
                show q.depth ≤ lvlB t - loOf B lvlB
                omega
              · intro hnone
                exact absurd (show (some t : Option Nat) = none from hnone) (by simp)

/-- `productChild` from an item fixed on side 2: it always succeeds and
preserves the invariant. -/
theorem productChild_inv_fix2 {A B : Auto Nat} {lvlA lvlB : Nat → Int}
    (hgA : IsGraded A lvlA) (hgB : IsGraded B lvlB)
    (q : QItem) (hq : QInv A B lvlA lvlB q) (hf : q.fixed = 2)
    (l : Label) (hl : l ∈ qlabels A B q) :
    ∃ c, productChild A B q l = some c ∧ QInv A B lvlA lvlB c := by
  have hb1 : (q.fixed == 1) = false := by rw [hf]; rfl
  have hb2 : (q.fixed == 2) = true := by rw [hf]; rfl
  rcases hq.fixed_cases with ⟨h0, _⟩ | ⟨h1, _⟩ | ⟨_, hd1, hpin, hbs, hbn⟩
  · rw [hf] at h0; cases h0
  · rw [hf] at h1; cases h1
  obtain ⟨s2, hs2, hany⟩ := hpin
  by_cases hop : l.isOp = true
  · rcases mem_qlabels_cases A B q l hl with ⟨i, hsi, _, hkey⟩ | ⟨j, hsj, hfne, hkey⟩ |
      ⟨_, hlend, _⟩ | ⟨_, hlany⟩
    · have hex1 := transAt_isSome_of_mem_keys A i l hkey
      rcases ht1 : transAt A i l with _ | t
      · rw [ht1] at hex1
        cases hex1
      · have hr1i : getNextState A (some i) l false = (some t, false) :=
          getNextState_exact A i l t ht1
        have hg1 := getNextState_graded hgA i l t false hr1i
        have hlv : lvlA t = lvlA i + 1 := hg1.2.1 hop rfl
        have hfind_t : (A.find t).isSome := hg1.1
        have hbs2 := hbs i hsi
        refine ⟨⟨some t, some s2, t, s2, payloadAt A t ++ payloadAt B s2, q.depth + 1, 2⟩,
          ?_, ?_⟩
        · simp [productChild, getNextState_fixedTrue, hb1, hb2, hr1i, hsi, hs2, hop, hf,
            mkQItem]
        · refine ⟨fun i2 hi => ?_, fun j2 hj => ?_, rfl, rfl, ?_⟩
          · have hi2 : some t = some i2 := hi
            injection hi2 with hi2
            subst hi2
            exact hfind_t
          · have hj2 : some s2 = some j2 := hj
            injection hj2 with hj2
            subst hj2
            exact hq.find2 s2 hs2
          · right; right
            refine ⟨rfl, by show (1:Int) ≤ q.depth + 1; omega, ⟨s2, rfl, hany⟩, ?_, ?_⟩
            · intro i2 hi
              have hi2 : some t = some i2 := hi
              injection hi2 with hi2
              subst hi2
              show q.depth + 1 ≤ lvlA t - loOf A lvlA
              omega
            · intro hnone
              exact absurd (show (some t : Option Nat) = none from hnone) (by simp)
    · exact absurd hf hfne
    · rw [hlend] at hop
      simp [Label.isOp] at hop
    · rw [hlany] at hop
      simp [Label.isOp] at hop
  · have hop2 : l.isOp = false := by revert hop; cases l.isOp <;> simp
    by_cases hend : l = .term .opEnd
    · subst hend
      rcases hsi : q.state1 with _ | i
      · by_cases hdz : q.depth - 1 = 0
        · obtain ⟨u, hu⟩ := Option.isSome_iff_exists.mp hany
          obtain ⟨d2, hd2', hmem⟩ := transAt_mem_trans B s2 .anyAtom u hu
          have hfind_u : (B.find u).isSome := hgB.closed s2 d2 hd2' _ u hmem
          refine ⟨⟨none, some u, 0, u, payloadAt B s2 ++ payloadAt B u, 0, 0⟩, ?_, ?_⟩
          · simp [productChild, getNextState_fixedTrue, getNextState_noneSide, hb1, hb2,
              hsi, hs2, hu, hf, hdz, mkQItem, Label.isOp]
          · refine ⟨fun i2 hi => ?_, fun j2 hj => ?_, rfl, rfl, Or.inl ⟨rfl, rfl⟩⟩
            · exact absurd (show (none : Option Nat) = some i2 from hi) (by simp)
            · have hj2 : some u = some j2 := hj
              injection hj2 with hj2
              subst hj2
              exact hfind_u
        · refine ⟨⟨none, some s2, 0, s2, payloadAt B s2, q.depth - 1, 2⟩, ?_, ?_⟩
          · simp [productChild, getNextState_fixedTrue, getNextState_noneSide, hb1, hb2,
              hsi, hs2, hf, hdz, mkQItem, Label.isOp]
          · refine ⟨fun i2 hi => ?_, fun j2 hj => ?_, rfl, rfl, ?_⟩
            · exact absurd (show (none : Option Nat) = some i2 from hi) (by simp)
            · have hj2 : some s2 = some j2 := hj
              injection hj2 with hj2
              subst hj2
              exact hq.find2 s2 hs2
            · right; right
              refine ⟨rfl, by show (1:Int) ≤ q.depth - 1; omega, ⟨s2, rfl, hany⟩, ?_, ?_⟩
              · intro i2 hi
                exact absurd (show (none : Option Nat) = some i2 from hi) (by simp)
              · intro _
                have := hbn hsi
                show q.depth - 1 ≤ hiOf A lvlA - loOf A lvlA
                omega
      · have hr1i := getNextState_opEnd A i
        have hbs2 := hbs i hsi
        have hib := lvl_bounds A lvlA i (hq.find1 i hsi)
        rcases hend1 : transAt A i (.term .opEnd) with _ | t
        · rw [hend1] at hr1i
          by_cases hdz : q.depth - 1 = 0
          · obtain ⟨u, hu⟩ := Option.isSome_iff_exists.mp hany
            obtain ⟨d2, hd2', hmem⟩ := transAt_mem_trans B s2 .anyAtom u hu
            have hfind_u : (B.find u).isSome := hgB.closed s2 d2 hd2' _ u hmem
            refine ⟨⟨none, some u, 0, u, payloadAt B s2 ++ payloadAt B u, 0, 0⟩, ?_, ?_⟩
            · simp [productChild, getNextState_fixedTrue, hb1, hb2, hr1i, hsi, hs2, hu,
                hf, hdz, mkQItem, Label.isOp]
            · refine ⟨fun i2 hi => ?_, fun j2 hj => ?_, rfl, rfl, Or.inl ⟨rfl, rfl⟩⟩
              · exact absurd (show (none : Option Nat) = some i2 from hi) (by simp)
              · have hj2 : some u = some j2 := hj
                injection hj2 with hj2
                subst hj2
                exact hfind_u
          · refine ⟨⟨none, some s2, 0, s2, payloadAt B s2, q.depth - 1, 2⟩, ?_, ?_⟩
            · simp [productChild, getNextState_fixedTrue, hb1, hb2, hr1i, hsi, hs2, hf,
                hdz, mkQItem, Label.isOp]
            · refine ⟨fun i2 hi => ?_, fun j2 hj => ?_, rfl, rfl, ?_⟩
              · exact absurd (show (none : Option Nat) = some i2 from hi) (by simp)
              · have hj2 : some s2 = some j2 := hj
                injection hj2 with hj2
                subst hj2
                exact hq.find2 s2 hs2
              · right; right
                refine ⟨rfl, by show (1:Int) ≤ q.depth - 1; omega, ⟨s2, rfl, hany⟩, ?_, ?_⟩
                · intro i2 hi
                  exact absurd (show (none : Option Nat) = some i2 from hi) (by simp)
                · intro _
                  show q.depth - 1 ≤ hiOf A lvlA - loOf A lvlA
                  omega
        · rw [hend1] at hr1i
          obtain ⟨d1, hd1', hmem1⟩ := transAt_mem_trans A i _ t hend1
          have hfind_t : (A.find t).isSome := hgA.closed i d1 hd1' _ t hmem1
          have hlv : lvlA t = lvlA i - 1 := hgA.end_step i d1 hd1' t hmem1
          by_cases hdz : q.depth - 1 = 0
          · obtain ⟨u, hu⟩ := Option.isSome_iff_exists.mp hany
            obtain ⟨d2, hd2', hmem⟩ := transAt_mem_trans B s2 .anyAtom u hu
            have hfind_u : (B.find u).isSome := hgB.closed s2 d2 hd2' _ u hmem
            refine ⟨⟨some t, some u, t, u,
              (payloadAt A t ++ payloadAt B s2) ++ payloadAt B u, 0, 0⟩, ?_, ?_⟩
            · simp [productChild, getNextState_fixedTrue, hb1, hb2, hr1i, hsi, hs2, hu,
                hf, hdz, mkQItem, Label.isOp]
            · refine ⟨fun i2 hi => ?_, fun j2 hj => ?_, rfl, rfl, Or.inl ⟨rfl, rfl⟩⟩
              · have hi2 : some t = some i2 := hi
                injection hi2 with hi2
                subst hi2
                exact hfind_t
              · have hj2 : some u = some j2 := hj
                injection hj2 with hj2
                subst hj2
                exact hfind_u
          · refine ⟨⟨some t, some s2, t, s2, payloadAt A t ++ payloadAt B s2,
              q.depth - 1, 2⟩, ?_, ?_⟩
            · simp [productChild, getNextState_fixedTrue, hb1, hb2, hr1i, hsi, hs2, hf,
                hdz, mkQItem, Label.isOp]
            · refine ⟨fun i2 hi => ?_, fun j2 hj => ?_, rfl, rfl, ?_⟩
              · have hi2 : some t = some i2 := hi
                injection hi2 with hi2
                subst hi2
                exact hfind_t
              · have hj2 : some s2 = some j2 := hj
                injection hj2 with hj2
                subst hj2
                exact hq.find2 s2 hs2
              · right; right
                refine ⟨rfl, by show (1:Int) ≤ q.depth - 1; omega, ⟨s2, rfl, hany⟩, ?_, ?_⟩
                · intro i2 hi
                  have hi2 : some t = some i2 := hi
                  injection hi2 with hi2
                  subst hi2
                  show q.depth - 1 ≤ lvlA t - loOf A lvlA
                  omega
                · intro hnone
                  exact absurd (show (some t : Option Nat) = none from hnone) (by simp)
    · rcases hsi : q.state1 with _ | i
      · refine ⟨⟨none, some s2, 0, s2, payloadAt B s2, q.depth, 2⟩, ?_, ?_⟩
        · simp [productChild, getNextState_fixedTrue, getNextState_noneSide, hb1, hb2,
            hsi, hs2, hf, hop2, hend, mkQItem]
        · refine ⟨fun i2 hi => ?_, fun j2 hj => ?_, rfl, rfl, ?_⟩
          · exact absurd (show (none : Option Nat) = some i2 from hi) (by simp)
          · have hj2 : some s2 = some j2 := hj
            injection hj2 with hj2
            subst hj2
            exact hq.find2 s2 hs2
          · right; right
            refine ⟨rfl, hd1, ⟨s2, rfl, hany⟩, ?_, ?_⟩
            · intro i2 hi
              exact absurd (show (none : Option Nat) = some i2 from hi) (by simp)
            · intro _
              exact hbn hsi
      · have hbs2 := hbs i hsi
        have hib := lvl_bounds A lvlA i (hq.find1 i hsi)
        rcases hr1 : getNextState A (some i) l false with ⟨t1v, w1v⟩
        rcases t1v with _ | t
        · refine ⟨⟨none, some s2, 0, s2, payloadAt B s2, q.depth, 2⟩, ?_, ?_⟩
          · simp [productChild, getNextState_fixedTrue, hb1, hb2, hr1, hsi, hs2, hf,
              hop2, hend, mkQItem]
          · refine ⟨fun i2 hi => ?_, fun j2 hj => ?_, rfl, rfl, ?_⟩
            · exact absurd (show (none : Option Nat) = some i2 from hi) (by simp)
            · have hj2 : some s2 = some j2 := hj
              injection hj2 with hj2
              subst hj2
              exact hq.find2 s2 hs2
            · right; right
              refine ⟨rfl, hd1, ⟨s2, rfl, hany⟩, ?_, ?_⟩
              · intro i2 hi
                exact absurd (show (none : Option Nat) = some i2 from hi) (by simp)
              · intro _
                show q.depth ≤ hiOf A lvlA - loOf A lvlA
                omega
        · have hg1 := getNextState_graded hgA i l t w1v hr1
          have hlv : lvlA t = lvlA i := hg1.2.2.2.2 hop2 hend
          have hfind_t : (A.find t).isSome := hg1.1
          refine ⟨⟨some t, some s2, t, s2, payloadAt A t ++ payloadAt B s2, q.depth, 2⟩,
            ?_, ?_⟩
          · simp [productChild, getNextState_fixedTrue, hb1, hb2, hr1, hsi, hs2, hf,
              hop2, hend, mkQItem]
          · refine ⟨fun i2 hi => ?_, fun j2 hj => ?_, rfl, rfl, ?_⟩
            · have hi2 : some t = some i2 := hi
              injection hi2 with hi2
              subst hi2
              exact hfind_t
            · have hj2 : some s2 = some j2 := hj
              injection hj2 with hj2
              subst hj2
              exact hq.find2 s2 hs2
            · right; right
              refine ⟨rfl, hd1, ⟨s2, rfl, hany⟩, ?_, ?_⟩
              · intro i2 hi
                have hi2 : some t = some i2 := hi
                injection hi2 with hi2
                subst hi2
                show q.depth ≤ lvlA t - loOf A lvlA
                omega
              · intro hnone
                exact absurd (show (some t : Option Nat) = none from hnone) (by simp)

/-- `productChild` on a label offered by the item always succeeds and
preserves the invariant. -/
theorem productChild_inv {A B : Auto Nat} {lvlA lvlB : Nat → Int}
    (hgA : IsGraded A lvlA) (hgB : IsGraded B lvlB)
    (q : QItem) (hq : QInv A B lvlA lvlB q)
    (l : Label) (hl : l ∈ qlabels A B q) :
    ∃ c, productChild A B q l = some c ∧ QInv A B lvlA lvlB c := by
  rcases hfc : q.fixed with _ | _ | _ | n
  · exact productChild_inv_fix0 hgA hgB q hq hfc (by
      rcases hq.fixed_cases with ⟨_, hd⟩ | ⟨h1, _⟩ | ⟨h2, _⟩
      · exact hd
      · rw [hfc] at h1; cases h1
      · rw [hfc] at h2; cases h2) l hl
  · exact productChild_inv_fix1 hgA hgB q hq hfc l hl
  · exact productChild_inv_fix2 hgA hgB q hq hfc l hl
  · exfalso
    rcases hq.fixed_cases with ⟨h0, _⟩ | ⟨h1, _⟩ | ⟨h2, _⟩ <;> rw [hfc] at * <;> omega

/-- `setTransP` does not change the set of state keys. -/
theorem setTransP_keys (sts : List (PKey × NState PKey)) (k : PKey)
    (tr : List (Label × PKey)) :
    (setTransP sts k tr).map Prod.fst = sts.map Prod.fst := by
  induction sts with
  | nil => rfl
  | cons e es ih =>
    rcases e with ⟨i, d⟩
    rw [setTransP] at ih ⊢
    simp only [List.map_cons]
    by_cases hik : i = k
    · rw [if_pos hik]
      simp only [List.map_cons] at ih ⊢
      rw [ih]
    · rw [if_neg hik]
      simp only [List.map_cons] at ih ⊢
      rw [ih]

theorem alookup_none_not_mem_keys [DecidableEq κ] (l : List (κ × α)) (k : κ)
    (h : alookup l k = none) : k ∉ l.map Prod.fst := by
  intro hmem
  have h2 := alookup_isSome_of_mem_keys l k hmem
  rw [h] at h2
  cases h2

/-- Processing the labels of one queue item: it succeeds, the enqueued items
are exactly the (invariant-satisfying) children whose keys were newly added
to the arena, in order, and distinctness of the state keys is preserved. -/
theorem productLabels_inv {A B : Auto Nat} {lvlA lvlB : Nat → Int}
    (hgA : IsGraded A lvlA) (hgB : IsGraded B lvlB)
    (q : QItem) (hq : QInv A B lvlA lvlB q) :
    ∀ (ls : List Label) (sts : List (PKey × NState PKey)) (items : List QItem)
      (tr : List (Label × PKey)),
      (∀ l ∈ ls, l ∈ qlabels A B q) →
      (∀ it ∈ items, QInv A B lvlA lvlB it ∧ it.key ∈ sts.map Prod.fst) →
      ∃ sts2 items2 tr2,
        productLabels A B q ls sts items tr = some (sts2, items2, tr2) ∧
        (∃ newItems, items2 = items ++ newItems ∧
          sts2.map Prod.fst = sts.map Prod.fst ++ newItems.map QItem.key) ∧
        (∀ it ∈ items2, QInv A B lvlA lvlB it ∧ it.key ∈ sts2.map Prod.fst) ∧
        ((sts.map Prod.fst).Nodup → (sts2.map Prod.fst).Nodup) := by
  intro ls
  induction ls with
  | nil =>
    intro sts items tr _ hitems
    exact ⟨sts, items, tr, rfl, ⟨[], by simp, by simp⟩, hitems, fun h => h⟩
  | cons l ls ih =>
    intro sts items tr hls hitems
    obtain ⟨c, hc, hcinv⟩ := productChild_inv hgA hgB q hq l (hls l (List.mem_cons_self l ls))
    have hls2 : ∀ l2 ∈ ls, l2 ∈ qlabels A B q := fun l2 h2 => hls l2 (List.mem_cons_of_mem l h2)
    rcases halk : alookup sts c.key with _ | cur
    · -- a new product state: enqueue the child
      have hnotmem := alookup_none_not_mem_keys sts c.key halk
      have hitems2 : ∀ it ∈ items ++ [c],
          QInv A B lvlA lvlB it ∧
          it.key ∈ (sts ++ [(c.key, (⟨[], c.payload⟩ : NState PKey))]).map Prod.fst := by
        intro it hit
        rw [List.mem_append] at hit
        rcases hit with hit | hit
        · obtain ⟨h1, h2⟩ := hitems it hit
          exact ⟨h1, by rw [List.map_append]; exact List.mem_append_left _ h2⟩
        · rcases List.mem_singleton.mp hit with rfl
          refine ⟨hcinv, ?_⟩
          rw [List.map_append]
          exact List.mem_append_right _ (by simp)
      obtain ⟨sts2, items2, tr2, heq, ⟨newI, hni, hkeys⟩, hinv2, hnd2⟩ :=
        ih (sts ++ [(c.key, ⟨[], c.payload⟩)]) (items ++ [c]) (setKey tr l c.key) hls2 hitems2
      refine ⟨sts2, items2, tr2, ?_, ⟨c :: newI, ?_, ?_⟩, hinv2, ?_⟩
      · simp only [productLabels, hc, Option.bind, halk]
        exact heq
      · rw [hni, List.append_assoc]
        rfl
      · rw [hkeys, List.map_append, List.append_assoc]
        rfl
      · intro hnd
        refine hnd2 ?_
        rw [List.map_append]
        rw [List.nodup_append_comm]
        simp only [List.map_cons, List.map_nil, List.singleton_append]
        exact List.nodup_cons.mpr ⟨hnotmem, hnd⟩
    · -- the key already exists: only the transition entry is recorded
      obtain ⟨sts2, items2, tr2, heq, hnew, hinv2, hnd2⟩ :=
        ih sts items (setKey tr l c.key) hls2 hitems
      refine ⟨sts2, items2, tr2, ?_, hnew, hinv2, hnd2⟩
      simp only [productLabels, hc, halk]
      exact heq

/-- Length bound from distinctness and membership in the finite key space. -/
theorem sts_length_le {K : List PKey} (sts : List (PKey × NState PKey))
    (hnd : (sts.map Prod.fst).Nodup) (hval : ∀ k ∈ sts.map Prod.fst, k ∈ K) :
    sts.length ≤ K.length := by
  have hsub : sts.map Prod.fst ⊆ K := fun k hk => hval k hk
  have := List.Subperm.length_le (List.subperm_of_subset hnd hsub)
  simpa using this

/-- The product worklist terminates: with fuel exceeding the measure
`2·(free key slots) + queue length`, the loop returns, and the final arena
has pairwise-distinct keys drawn from the finite key space. -/
theorem productLoop_term {A B : Auto Nat} {lvlA lvlB : Nat → Int}
    (hgA : IsGraded A lvlA) (hgB : IsGraded B lvlB) :
    ∀ (n : Nat) (queue : List QItem) (sts : List (PKey × NState PKey)),
      (∀ it ∈ queue, QInv A B lvlA lvlB it ∧ it.key ∈ sts.map Prod.fst) →
      (sts.map Prod.fst).Nodup →
      (∀ k ∈ sts.map Prod.fst, k ∈ allKeys A B (maxDepthBound A B lvlA lvlB)) →
      2 * ((allKeys A B (maxDepthBound A B lvlA lvlB)).length - sts.length) +
        queue.length < n →
      ∃ out, productLoop A B n queue sts = some out ∧
        (out.map Prod.fst).Nodup ∧
        (∀ k ∈ out.map Prod.fst, k ∈ allKeys A B (maxDepthBound A B lvlA lvlB)) := by
  intro n
  induction n with
  | zero =>
    intro queue sts _ _ _ hm
    exact absurd hm (by omega)
  | succ n ih =>
    intro queue sts hqueue hnd hval hm
    rcases queue with _ | ⟨q, rest⟩
    · exact ⟨sts, rfl, hnd, hval⟩
    · obtain ⟨hqinv, hqkey⟩ := hqueue q (List.mem_cons_self q rest)
      have hcur := alookup_isSome_of_mem_keys sts q.key hqkey
      rcases halk : alookup sts q.key with _ | cur
      · rw [halk] at hcur
        cases hcur
      · obtain ⟨sts2, items2, tr2, heq, ⟨newI, hni, hkeys⟩, hinv2, hnd2⟩ :=
          productLabels_inv hgA hgB q hqinv (qlabels A B q) sts [] cur.trans
            (fun l h => h) (by intro it hit; simp at hit)
        rw [List.nil_append] at hni
        subst hni
        have hnd3 := hnd2 hnd
        have hval2 : ∀ k ∈ sts2.map Prod.fst,
            k ∈ allKeys A B (maxDepthBound A B lvlA lvlB) := by
          intro k hk
          rw [hkeys, List.mem_append] at hk
          rcases hk with hk | hk
          · exact hval k hk
          · rw [List.mem_map] at hk
            obtain ⟨it, hit, hkeq⟩ := hk
            subst hkeq
            exact QItem_key_valid (hinv2 it hit).1
        have hlen2 : sts2.length = sts.length + items2.length := by
          have h1 : (sts2.map Prod.fst).length =
              (sts.map Prod.fst).length + (items2.map QItem.key).length := by
            rw [hkeys, List.length_append]
          simpa using h1
        have hle2 : sts2.length ≤ (allKeys A B (maxDepthBound A B lvlA lvlB)).length :=
          sts_length_le sts2 hnd3 hval2
        have hqueue2 : ∀ it ∈ rest ++ items2,
            QInv A B lvlA lvlB it ∧
            it.key ∈ (setTransP sts2 q.key tr2).map Prod.fst := by
          intro it hit
          rw [setTransP_keys]
          rw [List.mem_append] at hit
          rcases hit with hit | hit
          · obtain ⟨h1, h2⟩ := hqueue it (List.mem_cons_of_mem q hit)
            refine ⟨h1, ?_⟩
            rw [hkeys]
            exact List.mem_append_left _ h2
          · exact hinv2 it hit
        have hnd4 : ((setTransP sts2 q.key tr2).map Prod.fst).Nodup := by
          rw [setTransP_keys]; exact hnd3
        have hval3 : ∀ k ∈ (setTransP sts2 q.key tr2).map Prod.fst,
            k ∈ allKeys A B (maxDepthBound A B lvlA lvlB) := by
          rw [setTransP_keys]; exact hval2
        have hm2 : 2 * ((allKeys A B (maxDepthBound A B lvlA lvlB)).length -
            (setTransP sts2 q.key tr2).length) + (rest ++ items2).length < n := by
          have hlsp : (setTransP sts2 q.key tr2).length = sts2.length := by
            have := setTransP_keys sts2 q.key tr2
            have h2 := congrArg List.length this
            simpa using h2
          rw [hlsp, List.length_append]
          simp only [List.length_cons] at hm
          omega
        obtain ⟨out, hout, hondnd, honval⟩ := ih (rest ++ items2) (setTransP sts2 q.key tr2)
          hqueue2 hnd4 hval3 hm2
        refine ⟨out, ?_, hondnd, honval⟩
        simp only [productLoop, halk, heq]
        exact hout

/-- `_product_net` terminates on graded inputs, with the product arena's keys
pairwise distinct and confined to the finite key space. -/
theorem productNet_terminates {A B : Auto Nat} {lvlA lvlB : Nat → Int}
    (hgA : IsGraded A lvlA) (hgB : IsGraded B lvlB) :
    ∃ net, productNet A B
        (2 * (allKeys A B (maxDepthBound A B lvlA lvlB)).length + 2) = some net ∧
      (net.states.map Prod.fst).Nodup ∧
      (∀ k ∈ net.states.map Prod.fst, k ∈ allKeys A B (maxDepthBound A B lvlA lvlB)) ∧
      net.states.length ≤ (allKeys A B (maxDepthBound A B lvlA lvlB)).length := by
  have hq0 : QInv A B lvlA lvlB (mkQItem A B (some A.root) (some B.root)) :=
    QInv_mkQItem _ _
      (fun i hi => by injection hi with hi; subst hi; exact hgA.root_mem)
      (fun j hj => by injection hj with hj; subst hj; exact hgB.root_mem)
  have hrootval : ((A.root, B.root, (0 : Int)) : PKey) ∈
      allKeys A B (maxDepthBound A B lvlA lvlB) := by
    refine mem_allKeys A B _ A.root B.root 0 ?_ ?_ (le_refl 0) (Int.natCast_nonneg _)
    · exact Or.inr (mem_keys_of_alookup_isSome A.states A.root hgA.root_mem)
    · exact Or.inr (mem_keys_of_alookup_isSome B.states B.root hgB.root_mem)
  obtain ⟨out, hout, hnd, hval⟩ := productLoop_term hgA hgB
    (2 * (allKeys A B (maxDepthBound A B lvlA lvlB)).length + 2)
    [mkQItem A B (some A.root) (some B.root)]
    [((A.root, B.root, (0 : Int)), ⟨[], []⟩)]
    (by
      intro it hit
      rcases List.mem_singleton.mp hit with rfl
      exact ⟨hq0, by simp [QItem.key, mkQItem]⟩)
    (by simp)
    (by
      intro k hk
      simp only [List.map_cons, List.map_nil] at hk
      rcases List.mem_singleton.mp hk with rfl
      exact hrootval)
    (by
      have hN1 : 1 ≤ (allKeys A B (maxDepthBound A B lvlA lvlB)).length :=
        List.length_pos.mpr (by
          intro hnil
          rw [hnil] at hrootval
          simp at hrootval)
      simp only [List.length_cons, List.length_nil]
      omega)
  refine ⟨⟨out, (A.root, B.root, 0)⟩, ?_, hnd, hval, sts_length_le out hnd hval⟩
  simp only [productNet, hout]

/-! ### Gradedness of the syntactic per-pattern generator -/

theorem alookup_append [DecidableEq κ] :
    ∀ (l1 l2 : List (κ × α)) (k : κ),
      alookup (l1 ++ l2) k =
        match alookup l1 k with
        | some v => some v
        | none => alookup l2 k := by
  intro l1
  induction l1 with
  | nil => intro l2 k; rfl
  | cons e es ih =>
    intro l2 k
    rcases e with ⟨k2, v2⟩
    rw [List.cons_append]
    rw [alookup]
    by_cases hk : k2 = k
    · rw [if_pos hk]
      rw [alookup, if_pos hk]
    · rw [if_neg hk]
      rw [alookup, if_neg hk]
      exact ih l2 k

theorem alookup_setTransState (src : Nat) (l : Label) (tgt : Nat) (k : Nat) :
    ∀ (sts : List (Nat × NState Nat)),
      alookup (setTransState sts src l tgt) k =
        (alookup sts k).map fun d =>
          if k = src then ⟨setKey d.trans l tgt, d.payload⟩ else d := by
  intro sts
  induction sts with
  | nil => rfl
  | cons e es ih =>
    rcases e with ⟨i, d⟩
    simp only [setTransState, List.map_cons] at ih ⊢
    by_cases hi : i = src
    · rw [if_pos hi]
      by_cases hik : i = k
      · have hks : k = src := by rw [← hik, hi]
        rw [alookup, if_pos hik, alookup, if_pos hik]
        simp [hks]
      · rw [alookup, if_neg hik, alookup, if_neg hik]
        exact ih
    · rw [if_neg hi]
      by_cases hik : i = k
      · have hks : ¬k = src := by rw [← hik]; exact fun hh => hi hh
        rw [alookup, if_pos hik, alookup, if_pos hik]
        simp [hks]
      · rw [alookup, if_neg hik, alookup, if_neg hik]
        exact ih

theorem alookup_setPayload (i : Nat) (p : List Nat) (k : Nat) :
    ∀ (sts : List (Nat × NState Nat)),
      alookup (setPayload sts i p) k =
        (alookup sts k).map fun d => if k = i then ⟨d.trans, p⟩ else d := by
  intro sts
  induction sts with
  | nil => rfl
  | cons e es ih =>
    rcases e with ⟨j, d⟩
    simp only [setPayload, List.map_cons] at ih ⊢
    by_cases hj : j = i
    · rw [if_pos hj]
      by_cases hjk : j = k
      · have hks : k = i := by rw [← hjk, hj]
        rw [alookup, if_pos hjk, alookup, if_pos hjk]
        simp [hks]
      · rw [alookup, if_neg hjk, alookup, if_neg hjk]
        exact ih
    · rw [if_neg hj]
      by_cases hjk : j = k
      · have hks : ¬k = i := by rw [← hjk]; exact fun hh => hj hh
        rw [alookup, if_pos hjk, alookup, if_pos hjk]
        simp [hks]
      · rw [alookup, if_neg hjk, alookup, if_neg hjk]
        exact ih

theorem alookup_addFreshState (sts : List (Nat × NState Nat)) (i : Nat) (k : Nat) :
    alookup (addFreshState sts i) k =
      match alookup sts k with
      | some v => some v
      | none => if i = k then some ⟨[], []⟩ else none := by
  rw [addFreshState, alookup_append]
  rcases alookup sts k with _ | v
  · show (alookup [(i, (⟨[], []⟩ : NState Nat))] k) =
      if i = k then some (⟨[], []⟩ : NState Nat) else none
    rw [alookup]
    by_cases hik : i = k
    · rw [if_pos hik, if_pos hik]
    · rw [if_neg hik, if_neg hik]
      rfl
  · rfl

theorem mem_setKey [DecidableEq κ] :
    ∀ (tr : List (κ × α)) (k : κ) (v : α) (p : κ × α),
      p ∈ setKey tr k v → p = (k, v) ∨ p ∈ tr := by
  intro tr
  induction tr with
  | nil =>
    intro k v p h
    rw [setKey] at h
    exact Or.inl (List.mem_singleton.mp h)
  | cons e es ih =>
    intro k v p h
    rcases e with ⟨k2, v2⟩
    rw [setKey] at h
    by_cases hk : k2 = k
    · rw [if_pos hk] at h
      rcases List.mem_cons.mp h with h | h
      · exact Or.inl h
      · exact Or.inr (List.mem_cons_of_mem _ h)
    · rw [if_neg hk] at h
      rcases List.mem_cons.mp h with h | h
      · exact Or.inr (h ▸ List.mem_cons_self _ _)
      · rcases ih k v p h with h | h
        · exact Or.inl h
        · exact Or.inr (List.mem_cons_of_mem _ h)

/-- The level shift of a transition label. -/
def lvlDelta : Label → Int
  | .term (.opHead _) => 1
  | .term .opEnd => -1
  | _ => 0

/-- The invariant of the syntactic generator's fold state: all edges respect
the ghost level map `lvl`, ids are below `free`, and the root `1` and the
current state are present. -/
structure ChainInv (cur free : Nat) (sts : List (Nat × NState Nat)) (lvl : Nat → Int) :
    Prop where
  root_mem : (alookup sts 1).isSome
  cur_mem : (alookup sts cur).isSome
  bounded : ∀ k, (alookup sts k).isSome → k < free
  closed : ∀ k d, alookup sts k = some d → ∀ l t, (l, t) ∈ d.trans → (alookup sts t).isSome
  no_eps : ∀ k d, alookup sts k = some d → ∀ t, (Label.epsilon, t) ∉ d.trans
  op_step : ∀ k d, alookup sts k = some d → ∀ op t,
    (Label.term (.opHead op), t) ∈ d.trans → lvl t = lvl k + 1
  end_step : ∀ k d, alookup sts k = some d → ∀ t,
    (Label.term .opEnd, t) ∈ d.trans → lvl t = lvl k - 1
  flat_step : ∀ k d, alookup sts k = some d → ∀ l t, (l, t) ∈ d.trans →
    l.isOp = false → l ≠ .term .opEnd → lvl t = lvl k

/-- A `_create_child_state` step advances the invariant, the fresh state
sitting `lvlDelta lbl` above the old current state. -/
theorem chainInv_createChild {cur free : Nat} {sts : List (Nat × NState Nat)}
    {lvl : Nat → Int} (h : ChainInv cur free sts lvl) (lbl : Label)
    (hne : lbl ≠ .epsilon) :
    ChainInv free (free + 1) (createChild sts cur lbl free)
      (fun k => if k = free then lvl cur + lvlDelta lbl else lvl k) := by
  have hcc : ∀ k, alookup (createChild sts cur lbl free) k =
      match alookup sts k with
      | some d => some (if k = cur then ⟨setKey d.trans lbl free, d.payload⟩ else d)
      | none => if k = free then some ⟨[], []⟩ else none := by
    intro k
    have hrw : createChild sts cur lbl free =
        setTransState sts cur lbl free ++ [(free, ⟨[], []⟩)] := rfl
    rw [hrw, alookup_append, alookup_setTransState]
    rcases hh : alookup sts k with _ | d
    · show (alookup [(free, (⟨[], []⟩ : NState Nat))] k) =
        if k = free then some (⟨[], []⟩ : NState Nat) else none
      rw [alookup]
      by_cases hfk : free = k
      · rw [if_pos hfk, if_pos hfk.symm]
      · rw [if_neg hfk, if_neg (fun hh2 => hfk hh2.symm)]
        rfl
    · rfl
  have hfree_not : alookup sts free = none := by
    rcases hh : alookup sts free with _ | d
    · rfl
    · have := h.bounded free (by rw [hh]; rfl)
      omega
  have hcur_lt : cur < free := h.bounded cur h.cur_mem
  have hold : ∀ k, (alookup sts k).isSome → k < free := h.bounded
  refine ⟨?_, ?_, ?_, ?_, ?_, ?_, ?_, ?_⟩
  · rw [hcc 1]
    rcases hh : alookup sts 1 with _ | d
    · have hr := h.root_mem
      rw [hh] at hr
      cases hr
    · rfl
  · rw [hcc free, hfree_not]
    simp
  · intro k hk
    rw [hcc k] at hk
    rcases hh : alookup sts k with _ | d <;> rw [hh] at hk
    · by_cases hkf : k = free
      · omega
      · rw [if_neg hkf] at hk
        cases hk
    · have := hold k (by rw [hh]; rfl)
      omega
  · intro k d hkd l t hmem
    rw [hcc k] at hkd
    rcases hh : alookup sts k with _ | d0 <;> rw [hh] at hkd
    · by_cases hkf : k = free
      · rw [if_pos hkf] at hkd
        injection hkd with hkd
        subst hkd
        simp at hmem
      · rw [if_neg hkf] at hkd
        cases hkd
    · injection hkd with hkd
      subst hkd
      by_cases hkc : k = cur
      · rw [if_pos hkc] at hmem
        simp only at hmem
        rcases mem_setKey d0.trans lbl free (l, t) hmem with hmem | hmem
        · injection hmem with _ h2
          rw [h2, hcc free, hfree_not]
          simp
        · have := h.closed k d0 hh l t hmem
          rw [hcc t]
          rcases ht : alookup sts t with _ | dt
          · rw [ht] at this; cases this
          · rfl
      · rw [if_neg hkc] at hmem
        have := h.closed k d0 hh l t hmem
        rw [hcc t]
        rcases ht : alookup sts t with _ | dt
        · rw [ht] at this; cases this
        · rfl
  · intro k d hkd t hmem
    rw [hcc k] at hkd
    rcases hh : alookup sts k with _ | d0 <;> rw [hh] at hkd
    · by_cases hkf : k = free
      · rw [if_pos hkf] at hkd
        injection hkd with hkd
        subst hkd
        simp at hmem
      · rw [if_neg hkf] at hkd
        cases hkd
    · injection hkd with hkd
      subst hkd
      by_cases hkc : k = cur
      · rw [if_pos hkc] at hmem
        simp only at hmem
        rcases mem_setKey d0.trans lbl free (.epsilon, t) hmem with hmem | hmem
        · injection hmem with h1 _
          exact hne h1.symm
        · exact h.no_eps k d0 hh t hmem
      · rw [if_neg hkc] at hmem
        exact h.no_eps k d0 hh t hmem
  · intro k d hkd op t hmem
    rw [hcc k] at hkd
    rcases hh : alookup sts k with _ | d0 <;> rw [hh] at hkd
    · by_cases hkf : k = free
      · rw [if_pos hkf] at hkd
        injection hkd with hkd
        subst hkd
        simp at hmem
      · rw [if_neg hkf] at hkd
        cases hkd
    · injection hkd with hkd
      subst hkd
      have hklt := hold k (by rw [hh]; rfl)
      by_cases hkc : k = cur
      · rw [if_pos hkc] at hmem
        simp only at hmem
        rcases mem_setKey d0.trans lbl free (.term (.opHead op), t) hmem with hmem | hmem
        · injection hmem with h1 h2
          subst h2
          rw [if_pos rfl, if_neg (by omega), hkc, ← h1]
          rfl
        · have ht := h.closed k d0 hh _ t hmem
          have htlt := hold t ht
          rw [if_neg (by omega), if_neg (by omega)]
          exact h.op_step k d0 hh op t hmem
      · rw [if_neg hkc] at hmem
        have ht := h.closed k d0 hh _ t hmem
        have htlt := hold t ht
        rw [if_neg (by omega), if_neg (by omega)]
        exact h.op_step k d0 hh op t hmem
  · intro k d hkd t hmem
    rw [hcc k] at hkd
    rcases hh : alookup sts k with _ | d0 <;> rw [hh] at hkd
    · by_cases hkf : k = free
      · rw [if_pos hkf] at hkd
        injection hkd with hkd
        subst hkd
        simp at hmem
      · rw [if_neg hkf] at hkd
        cases hkd
    · injection hkd with hkd
      subst hkd
      have hklt := hold k (by rw [hh]; rfl)
      by_cases hkc : k = cur
      · rw [if_pos hkc] at hmem
        simp only at hmem
        rcases mem_setKey d0.trans lbl free (.term .opEnd, t) hmem with hmem | hmem
        · injection hmem with h1 h2
          subst h2
          rw [if_pos rfl, if_neg (by omega), hkc, ← h1]
          rfl
        · have ht := h.closed k d0 hh _ t hmem
          have htlt := hold t ht
          rw [if_neg (by omega), if_neg (by omega)]
          exact h.end_step k d0 hh t hmem
      · rw [if_neg hkc] at hmem
        have ht := h.closed k d0 hh _ t hmem
        have htlt := hold t ht
        rw [if_neg (by omega), if_neg (by omega)]
        exact h.end_step k d0 hh t hmem
  · intro k d hkd l t hmem hop hend
    rw [hcc k] at hkd
    rcases hh : alookup sts k with _ | d0 <;> rw [hh] at hkd
    · by_cases hkf : k = free
      · rw [if_pos hkf] at hkd
        injection hkd with hkd
        subst hkd
        simp at hmem
      · rw [if_neg hkf] at hkd
        cases hkd
    · injection hkd with hkd
      subst hkd
      have hklt := hold k (by rw [hh]; rfl)
      by_cases hkc : k = cur
      · rw [if_pos hkc] at hmem
        simp only at hmem
        rcases mem_setKey d0.trans lbl free (l, t) hmem with hmem | hmem
        · injection hmem with h1 h2
          subst h2
          rw [if_pos rfl, if_neg (by omega), hkc]
          have : lvlDelta lbl = 0 := by
            subst h1
            rcases l with a | _ | _
            · rcases a with _ | _ | op | _ | _
              · rfl
              · rfl
              · simp [Label.isOp] at hop
              · exact absurd rfl hend
              · rfl
            · rfl
            · rfl
          rw [this]
          omega
        · have ht := h.closed k d0 hh _ t hmem
          have htlt := hold t ht
          rw [if_neg (by omega), if_neg (by omega)]
          exact h.flat_step k d0 hh l t hmem hop hend
      · rw [if_neg hkc] at hmem
        have ht := h.closed k d0 hh _ t hmem
        have htlt := hold t ht
        rw [if_neg (by omega), if_neg (by omega)]
        exact h.flat_step k d0 hh l t hmem hop hend

theorem chainInv_stateChain :
    ∀ (m : Nat) (cur free : Nat) (sts : List (Nat × NState Nat)) (lvl : Nat → Int),
      ChainInv cur free sts lvl →
      ∃ lvl2, ChainInv (stateChain cur free .anyAtom sts m).1
        (stateChain cur free .anyAtom sts m).2.1
        (stateChain cur free .anyAtom sts m).2.2 lvl2 := by
  intro m
  induction m with
  | zero =>
    intro cur free sts lvl h
    exact ⟨lvl, h⟩
  | succ n ih =>
    intro cur free sts lvl h
    rw [stateChain]
    exact ih free (free + 1) (createChild sts cur .anyAtom free) _
      (chainInv_createChild h .anyAtom (by intro hh; cases hh))

theorem chainInv_fold :
    ∀ (ft : List Atom) (cur free : Nat) (sts : List (Nat × NState Nat)) (lvl : Nat → Int),
      ChainInv cur free sts lvl →
      ∃ lvl2,
        ChainInv (ft.foldl synStep (cur, free, sts)).1
          (ft.foldl synStep (cur, free, sts)).2.1
          (ft.foldl synStep (cur, free, sts)).2.2 lvl2 := by
  intro ft
  induction ft with
  | nil =>
    intro cur free sts lvl h
    exact ⟨lvl, h⟩
  | cons t ts ih =>
    intro cur free sts lvl h
    rw [List.foldl_cons]
    rcases t with ⟨n, cs⟩ | c | op | _ | ⟨m, f⟩
    · exact ih _ _ _ _ (chainInv_createChild h (.term (.symbol n cs)) (by intro hh; cases hh))
    · exact ih _ _ _ _ (chainInv_createChild h (.term (.symClass c)) (by intro hh; cases hh))
    · exact ih _ _ _ _ (chainInv_createChild h (.term (.opHead op)) (by intro hh; cases hh))
    · exact ih _ _ _ _ (chainInv_createChild h (.term .opEnd) (by intro hh; cases hh))
    · obtain ⟨lvl2, h2⟩ := chainInv_stateChain m cur free sts lvl h
      exact ih _ _ _ _ h2

/-- The syntactic per-pattern generator always produces a graded automaton. -/
theorem generateSyntacticNet_graded (ft : List Atom) (lbl : Nat) :
    ∃ lvl, IsGraded (generateSyntacticNet ft lbl) lvl := by
  have hone : ∀ (k : Nat) (d : NState Nat),
      alookup [(1, (⟨[], []⟩ : NState Nat))] k = some d → d = ⟨[], []⟩ := by
    intro k d h
    rw [alookup] at h
    by_cases h1 : 1 = k
    · rw [if_pos h1] at h
      injection h with h
      exact h.symm
    · rw [if_neg h1] at h
      cases h
  have hinit : ChainInv 1 2 [(1, ⟨[], []⟩)] (fun _ => 0) := by
    refine ⟨rfl, rfl, ?_, ?_, ?_, ?_, ?_, ?_⟩
    · intro k hk
      rw [alookup] at hk
      by_cases h1 : 1 = k
      · omega
      · rw [if_neg h1] at hk
        cases hk
    · intro k d hkd l t hmem
      rw [hone k d hkd] at hmem
      simp at hmem
    · intro k d hkd t hmem
      rw [hone k d hkd] at hmem
      simp at hmem
    · intro k d hkd op t hmem
      rw [hone k d hkd] at hmem
      simp at hmem
    · intro k d hkd t hmem
      rw [hone k d hkd] at hmem
      simp at hmem
    · intro k d hkd l t hmem _ _
      rfl
  obtain ⟨lvl2, hinv⟩ := chainInv_fold ft 1 2 [(1, ⟨[], []⟩)] (fun _ => 0) hinit
  refine ⟨lvl2, ?_⟩
  have hA : generateSyntacticNet ft lbl =
      ⟨setPayload (ft.foldl synStep (1, 2, [(1, ⟨[], []⟩)])).2.2
        (ft.foldl synStep (1, 2, [(1, ⟨[], []⟩)])).1 [lbl], 1⟩ := rfl
  rw [hA]
  set r := ft.foldl synStep (1, 2, [(1, ⟨[], []⟩)]) with hr
  have hfind : ∀ i, (Auto.find ⟨setPayload r.2.2 r.1 [lbl], 1⟩ i) =
      (alookup r.2.2 i).map (fun d => if i = r.1 then ⟨d.trans, [lbl]⟩ else d) := by
    intro i
    show alookup (setPayload r.2.2 r.1 [lbl]) i = _
    rw [alookup_setPayload]
  have hsame : ∀ i d, Auto.find ⟨setPayload r.2.2 r.1 [lbl], 1⟩ i = some d →
      ∃ d0, alookup r.2.2 i = some d0 ∧ d.trans = d0.trans := by
    intro i d h
    rw [hfind] at h
    rcases hh : alookup r.2.2 i with _ | d0
    · rw [hh] at h
      cases h
    · rw [hh] at h
      refine ⟨d0, rfl, ?_⟩
      injection h with h
      subst h
      by_cases hic : i = r.1
      · simp [hic]
      · simp [hic]
  have hback : ∀ i, (alookup r.2.2 i).isSome →
      (Auto.find ⟨setPayload r.2.2 r.1 [lbl], 1⟩ i).isSome := by
    intro i hi
    rw [hfind]
    rcases hh : alookup r.2.2 i with _ | d0
    · rw [hh] at hi
      cases hi
    · rfl
  refine ⟨?_, ?_, ?_, ?_, ?_, ?_⟩
  · exact hback 1 hinv.root_mem
  · intro i d hid l t hmem
    obtain ⟨d0, hd0, htr⟩ := hsame i d hid
    rw [htr] at hmem
    exact hback t (hinv.closed i d0 hd0 l t hmem)
  · intro i d hid t hmem
    obtain ⟨d0, hd0, htr⟩ := hsame i d hid
    rw [htr] at hmem
    exact hinv.no_eps i d0 hd0 t hmem
  · intro i d hid op t hmem
    obtain ⟨d0, hd0, htr⟩ := hsame i d hid
    rw [htr] at hmem
    exact hinv.op_step i d0 hd0 op t hmem
  · intro i d hid t hmem
    obtain ⟨d0, hd0, htr⟩ := hsame i d hid
    rw [htr] at hmem
    exact hinv.end_step i d0 hd0 t hmem
  · intro i d hid l t hmem hop hend
    obtain ⟨d0, hd0, htr⟩ := hsame i d hid
    rw [htr] at hmem
    exact hinv.flat_step i d0 hd0 l t hmem hop hend

/-! ### Gradedness of the general per-pattern generator

The NFA built by `_generate_net` is graded with level-preserving epsilon
edges; the subset construction then yields a graded DFA. -/

/-- The level relation an edge must satisfy: operation heads go up one,
`OPERATION_END` goes down one, every other label (including epsilon and the
generic wildcard) stays level. -/
def edgeOk (lvl : Nat → Int) (src : Nat) (l : Label) (t : Nat) : Prop :=
  match l with
  | .term (.opHead _) => lvl t = lvl src + 1
  | .term .opEnd => lvl t = lvl src - 1
  | _ => lvl t = lvl src

/-- All edges of the arena are closed and graded. -/
def EdgesOk (sts : List (Nat × NState Nat)) (lvl : Nat → Int) : Prop :=
  ∀ k d, alookup sts k = some d → ∀ l t, (l, t) ∈ d.trans →
    (alookup sts t).isSome ∧ edgeOk lvl k l t

theorem presence_setTransState (sts : List (Nat × NState Nat)) (src : Nat) (l : Label)
    (tgt : Nat) (k : Nat) :
    (alookup (setTransState sts src l tgt) k).isSome = (alookup sts k).isSome := by
  rw [alookup_setTransState]
  rcases alookup sts k with _ | d
  · rfl
  · rfl

theorem presence_addFreshState (sts : List (Nat × NState Nat)) (f : Nat) (k : Nat) :
    (alookup (addFreshState sts f) k).isSome =
      ((alookup sts k).isSome || f == k) := by
  rw [alookup_addFreshState]
  rcases alookup sts k with _ | d
  · by_cases hf : f = k
    · rw [if_pos hf]
      simp [hf]
    · rw [if_neg hf]
      simp [hf]
  · rfl

/-- The lookup behaviour of `_create_child_state`. -/
theorem createChild_lookup (sts : List (Nat × NState Nat)) (src : Nat) (lbl : Label)
    (tgt : Nat) (k : Nat) :
    alookup (createChild sts src lbl tgt) k =
      match alookup sts k with
      | some d => some (if k = src then ⟨setKey d.trans lbl tgt, d.payload⟩ else d)
      | none => if k = tgt then some ⟨[], []⟩ else none := by
  have hrw : createChild sts src lbl tgt =
      setTransState sts src lbl tgt ++ [(tgt, ⟨[], []⟩)] := rfl
  rw [hrw, alookup_append, alookup_setTransState]
  rcases hh : alookup sts k with _ | d
  · show (alookup [(tgt, (⟨[], []⟩ : NState Nat))] k) =
      if k = tgt then some (⟨[], []⟩ : NState Nat) else none
    rw [alookup]
    by_cases hfk : tgt = k
    · rw [if_pos hfk, if_pos hfk.symm]
    · rw [if_neg hfk, if_neg (fun hh2 => hfk hh2.symm)]
      rfl
  · rfl

theorem presence_createChild (sts : List (Nat × NState Nat)) (src : Nat) (lbl : Label)
    (tgt : Nat) (k : Nat) :
    (alookup (createChild sts src lbl tgt) k).isSome =
      ((alookup sts k).isSome || tgt == k) := by
  rw [createChild_lookup]
  rcases alookup sts k with _ | d
  · by_cases hf : k = tgt
    · rw [if_pos hf]
      simp [hf]
    · rw [if_neg hf]
      simp
      exact fun hh => hf hh.symm
  · rfl

theorem edgesOk_setTransState {sts : List (Nat × NState Nat)} {lvl : Nat → Int}
    (h : EdgesOk sts lvl) (src : Nat) (l : Label) (tgt : Nat)
    (htgt : (alookup sts tgt).isSome) (hedge : edgeOk lvl src l tgt) :
    EdgesOk (setTransState sts src l tgt) lvl := by
  intro k d hkd l2 t hmem
  rw [alookup_setTransState] at hkd
  rcases hh : alookup sts k with _ | d0 <;> rw [hh] at hkd
  · cases hkd
  · injection hkd with hkd
    subst hkd
    beta_reduce at hmem
    by_cases hks : k = src
    · rw [if_pos hks] at hmem
      simp only at hmem
      rcases mem_setKey d0.trans l tgt (l2, t) hmem with hmem | hmem
      · injection hmem with h1 h2
        subst h1
        subst h2
        rw [presence_setTransState]
        exact ⟨htgt, hks ▸ hedge⟩
      · obtain ⟨hp, he⟩ := h k d0 hh l2 t hmem
        rw [presence_setTransState]
        exact ⟨hp, he⟩
    · rw [if_neg hks] at hmem
      obtain ⟨hp, he⟩ := h k d0 hh l2 t hmem
      rw [presence_setTransState]
      exact ⟨hp, he⟩

theorem edgesOk_addFreshState {sts : List (Nat × NState Nat)} {lvl : Nat → Int}
    (h : EdgesOk sts lvl) (f : Nat) (hf : alookup sts f = none) (X : Int) :
    EdgesOk (addFreshState sts f) (fun k => if k = f then X else lvl k) := by
  intro k d hkd l t hmem
  rw [alookup_addFreshState] at hkd
  rcases hh : alookup sts k with _ | d0 <;> rw [hh] at hkd
  · by_cases hkf : f = k
    · rw [if_pos hkf] at hkd
      injection hkd with hkd
      subst hkd
      simp at hmem
    · rw [if_neg hkf] at hkd
      cases hkd
  · injection hkd with hkd
    subst hkd
    obtain ⟨hp, he⟩ := h k d0 hh l t hmem
    have hkne : k ≠ f := by
      intro hkk
      rw [hkk, hf] at hh
      cases hh
    have htne : t ≠ f := by
      intro htt
      rw [htt, hf] at hp
      cases hp
    constructor
    · rw [presence_addFreshState, hp]
      rfl
    · rcases l with a | _ | _
      · rcases a with _ | _ | op | _ | _ <;>
          simp only [edgeOk] at he ⊢ <;> rw [if_neg htne, if_neg hkne] <;> exact he
      · simp only [edgeOk] at he ⊢
        rw [if_neg htne, if_neg hkne]
        exact he
      · simp only [edgeOk] at he ⊢
        rw [if_neg htne, if_neg hkne]
        exact he

theorem edgesOk_congr {sts : List (Nat × NState Nat)} {lvl lvl2 : Nat → Int}
    (h : EdgesOk sts lvl) (hagree : ∀ k, (alookup sts k).isSome → lvl2 k = lvl k) :
    EdgesOk sts lvl2 := by
  intro k d hkd l t hmem
  obtain ⟨hp, he⟩ := h k d hkd l t hmem
  refine ⟨hp, ?_⟩
  have hk2 : lvl2 k = lvl k := hagree k (by rw [hkd]; rfl)
  have ht2 : lvl2 t = lvl t := hagree t hp
  rcases l with a | _ | _
  · rcases a with _ | _ | op | _ | _ <;>
      simp only [edgeOk] at he ⊢ <;> rw [hk2, ht2] <;> exact he
  · simp only [edgeOk] at he ⊢
    rw [hk2, ht2]
    exact he
  · simp only [edgeOk] at he ⊢
    rw [hk2, ht2]
    exact he

theorem edgesOk_createChild {sts : List (Nat × NState Nat)} {lvl : Nat → Int}
    (h : EdgesOk sts lvl) (src : Nat) (lbl : Label) (tgt : Nat)
    (htgt : alookup sts tgt = none) :
    EdgesOk (createChild sts src lbl tgt)
      (fun k => if k = tgt then lvl src + lvlDelta lbl else lvl k) := by
  intro k d hkd l t hmem
  rw [createChild_lookup] at hkd
  rcases hh : alookup sts k with _ | d0 <;> rw [hh] at hkd
  · by_cases hkf : k = tgt
    · rw [if_pos hkf] at hkd
      injection hkd with hkd
      subst hkd
      simp at hmem
    · rw [if_neg hkf] at hkd
      cases hkd
  · injection hkd with hkd
    subst hkd
    have hkne : k ≠ tgt := by
      intro hkk
      rw [hkk, htgt] at hh
      cases hh
    have hold : ∀ l2 t2, (l2, t2) ∈ d0.trans →
        (alookup (createChild sts src lbl tgt) t2).isSome ∧
        edgeOk (fun k2 => if k2 = tgt then lvl src + lvlDelta lbl else lvl k2) k l2 t2 := by
      intro l2 t2 hm2
      obtain ⟨hp, he⟩ := h k d0 hh l2 t2 hm2
      have htne : t2 ≠ tgt := by
        intro htt
        rw [htt, htgt] at hp
        cases hp
      constructor
      · rw [presence_createChild, hp]
        rfl
      · rcases l2 with a | _ | _
        · rcases a with _ | _ | op | _ | _ <;>
            simp only [edgeOk] at he ⊢ <;> rw [if_neg htne, if_neg hkne] <;> exact he
        · simp only [edgeOk] at he ⊢
          rw [if_neg htne, if_neg hkne]
          exact he
        · simp only [edgeOk] at he ⊢
          rw [if_neg htne, if_neg hkne]
          exact he
    by_cases hks : k = src
    · rw [if_pos hks] at hmem
      simp only at hmem
      rcases mem_setKey d0.trans lbl tgt (l, t) hmem with hmem | hmem
      · injection hmem with h1 h2
        subst h1
        subst h2
        constructor
        · rw [presence_createChild]
          simp
        · rcases l with a | _ | _
          · rcases a with _ | _ | op | _ | _ <;>
              simp only [edgeOk, lvlDelta] <;> beta_reduce <;>
              rw [if_pos trivial, if_neg hkne, hks] <;> omega
          · simp only [edgeOk, lvlDelta]
            beta_reduce
            rw [if_pos trivial, if_neg hkne, hks]
            omega
          · simp only [edgeOk, lvlDelta]
            beta_reduce
            rw [if_pos trivial, if_neg hkne, hks]
            omega
      · exact hold l t hmem
    · rw [if_neg hks] at hmem
      exact hold l t hmem

/-- A wildcard chain extends the arena with level-preserving edges. -/
theorem stateChain_ext :
    ∀ (m cur free : Nat) (sts : List (Nat × NState Nat)) (lvl : Nat → Int),
      EdgesOk sts lvl → (∀ k, (alookup sts k).isSome → k < free) →
      (alookup sts cur).isSome →
      ∃ lvl2,
        EdgesOk (stateChain cur free .anyAtom sts m).2.2 lvl2 ∧
        (∀ k, (alookup (stateChain cur free .anyAtom sts m).2.2 k).isSome →
          k < (stateChain cur free .anyAtom sts m).2.1) ∧
        (alookup (stateChain cur free .anyAtom sts m).2.2
          (stateChain cur free .anyAtom sts m).1).isSome ∧
        lvl2 (stateChain cur free .anyAtom sts m).1 = lvl cur ∧
        (∀ k, (alookup sts k).isSome →
          (alookup (stateChain cur free .anyAtom sts m).2.2 k).isSome ∧ lvl2 k = lvl k) ∧
        free ≤ (stateChain cur free .anyAtom sts m).2.1 := by
  intro m
  induction m with
  | zero =>
    intro cur free sts lvl hE hb hcur
    exact ⟨lvl, hE, hb, hcur, rfl, fun k hk => ⟨hk, rfl⟩, le_refl free⟩
  | succ n ih =>
    intro cur free sts lvl hE hb hcur
    rw [stateChain]
    have hfree : alookup sts free = none := by
      rcases hh : alookup sts free with _ | d
      · rfl
      · have := hb free (by rw [hh]; rfl)
        omega
    have hE2 := edgesOk_createChild hE cur .anyAtom free hfree
    have hb2 : ∀ k, (alookup (createChild sts cur .anyAtom free) k).isSome →
        k < free + 1 := by
      intro k hk
      rw [presence_createChild] at hk
      rcases Bool.or_eq_true_iff.mp hk with hk | hk
      · have := hb k hk
        omega
      · have : free = k := by simpa using hk
        omega
    have hcur2 : (alookup (createChild sts cur .anyAtom free) free).isSome := by
      rw [presence_createChild]
      simp
    obtain ⟨lvl2, hE3, hb3, hcur3, hlv3, hagree3, hle3⟩ :=
      ih free (free + 1) (createChild sts cur .anyAtom free)
        (fun k => if k = free then lvl cur + lvlDelta .anyAtom else lvl k) hE2 hb2 hcur2
    refine ⟨lvl2, hE3, hb3, hcur3, ?_, ?_, ?_⟩
    · rw [hlv3]
      simp [lvlDelta]
    · intro k hk
      have hkf : k ≠ free := by
        intro hh
        rw [hh, hfree] at hk
        cases hk
      have hpres : (alookup (createChild sts cur .anyAtom free) k).isSome := by
        rw [presence_createChild, hk]
        rfl
      obtain ⟨hmono, hagr⟩ := hagree3 k hpres
      refine ⟨hmono, ?_⟩
      rw [hagr]
      beta_reduce
      rw [if_neg hkf]
    · omega

/-- The chain loop of the fixed-arity fail ladder extends the arena with all
ladder states on the inner level `L`. -/
theorem failLadderGo_ext :
    ∀ (n : Nat) (target cur free : Nat) (acc : List Nat)
      (sts : List (Nat × NState Nat)) (lvl : Nat → Int) (L : Int),
      EdgesOk sts lvl → (∀ k, (alookup sts k).isSome → k < free) →
      (alookup sts cur).isSome → lvl cur = L →
      (alookup sts target).isSome → lvl target = L - 1 →
      (∀ x ∈ acc, (alookup sts x).isSome ∧ lvl x = L) →
      ∃ lvl2,
        EdgesOk (failLadderGo target cur free acc sts n).2.2 lvl2 ∧
        (∀ k, (alookup (failLadderGo target cur free acc sts n).2.2 k).isSome →
          k < (failLadderGo target cur free acc sts n).2.1) ∧
        (∀ k, (alookup sts k).isSome →
          (alookup (failLadderGo target cur free acc sts n).2.2 k).isSome ∧
          lvl2 k = lvl k) ∧
        (∀ x ∈ (failLadderGo target cur free acc sts n).1,
          (alookup (failLadderGo target cur free acc sts n).2.2 x).isSome ∧ lvl2 x = L) ∧
        free ≤ (failLadderGo target cur free acc sts n).2.1 := by
  intro n
  induction n with
  | zero =>
    intro target cur free acc sts lvl L hE hb hcur hcurL htgt htgtL hacc
    rw [failLadderGo]
    have hedge : edgeOk lvl cur (.term .opEnd) target := by
      simp only [edgeOk]
      omega
    have hE2 := edgesOk_setTransState hE cur (.term .opEnd) target htgt hedge
    refine ⟨lvl, hE2, ?_, ?_, ?_, le_refl free⟩
    · intro k hk
      rw [presence_setTransState] at hk
      exact hb k hk
    · intro k hk
      rw [presence_setTransState]
      exact ⟨hk, rfl⟩
    · intro x hx
      rw [presence_setTransState]
      exact hacc x hx
  | succ n ih =>
    intro target cur free acc sts lvl L hE hb hcur hcurL htgt htgtL hacc
    rw [failLadderGo]
    have hfree : alookup sts free = none := by
      rcases hh : alookup sts free with _ | d
      · rfl
      · have := hb free (by rw [hh]; rfl)
        omega
    have hcurne : cur ≠ free := by
      intro hh
      rw [hh, hfree] at hcur
      cases hcur
    have htgtne : target ≠ free := by
      intro hh
      rw [hh, hfree] at htgt
      cases htgt
    have hE2 := edgesOk_addFreshState hE free hfree L
    have hpres2 : ∀ k, (alookup sts k).isSome →
        (alookup (addFreshState sts free) k).isSome := by
      intro k hk
      rw [presence_addFreshState, hk]
      rfl
    have hfpres2 : (alookup (addFreshState sts free) free).isSome := by
      rw [presence_addFreshState]
      simp
    have hedge : edgeOk (fun k => if k = free then L else lvl k) cur .anyAtom free := by
      simp only [edgeOk]
      simp [hcurne]
      omega
    have hE3 := edgesOk_setTransState hE2 cur .anyAtom free hfpres2 hedge
    have hb3 : ∀ k, (alookup (setTransState (addFreshState sts free) cur .anyAtom free) k).isSome →
        k < free + 1 := by
      intro k hk
      rw [presence_setTransState, presence_addFreshState] at hk
      rcases Bool.or_eq_true_iff.mp hk with hk | hk
      · have := hb k hk
        omega
      · have : free = k := by simpa using hk
        omega
    have hcur3 : (alookup (setTransState (addFreshState sts free) cur .anyAtom free) free).isSome := by
      rw [presence_setTransState]
      exact hfpres2
    have htgt3 : (alookup (setTransState (addFreshState sts free) cur .anyAtom free) target).isSome := by
      rw [presence_setTransState]
      exact hpres2 target htgt
    have hacc3 : ∀ x ∈ acc ++ [free],
        (alookup (setTransState (addFreshState sts free) cur .anyAtom free) x).isSome ∧
        (fun k => if k = free then L else lvl k) x = L := by
      intro x hx
      rw [List.mem_append] at hx
      rcases hx with hx | hx
      · obtain ⟨hp, hl⟩ := hacc x hx
        have hxne : x ≠ free := by
          intro hh
          rw [hh, hfree] at hp
          cases hp
        refine ⟨by rw [presence_setTransState]; exact hpres2 x hp, ?_⟩
        beta_reduce
        rw [if_neg hxne]
        exact hl
      · rcases List.mem_singleton.mp hx with rfl
        refine ⟨hcur3, ?_⟩
        simp
    obtain ⟨lvl2, hE4, hb4, hagree4, hladder4, hle4⟩ :=
      ih target free (free + 1) (acc ++ [free])
        (setTransState (addFreshState sts free) cur .anyAtom free)
        (fun k => if k = free then L else lvl k) L hE3 hb3 hcur3
        (by simp) htgt3
        (by beta_reduce; rw [if_neg htgtne]; exact htgtL) hacc3
    refine ⟨lvl2, hE4, hb4, ?_, ?_, by omega⟩
    · intro k hk
      have hkne : k ≠ free := by
        intro hh
        rw [hh, hfree] at hk
        cases hk
      have hp3 : (alookup (setTransState (addFreshState sts free) cur .anyAtom free) k).isSome := by
        rw [presence_setTransState]
        exact hpres2 k hk
      obtain ⟨hmono, hagr⟩ := hagree4 k hp3
      refine ⟨hmono, ?_⟩
      rw [hagr]
      beta_reduce
      rw [if_neg hkne]
    · intro x hx
      exact hladder4 x hx

/-- `failLadder` builds the fail ladder of a fixed-arity head: the ladder
states all sit on the inner level `L = lvl target + 1`. -/
theorem failLadder_ext (free arityMin target : Nat) (sts : List (Nat × NState Nat))
    (lvl : Nat → Int) (L : Int)
    (hE : EdgesOk sts lvl) (hb : ∀ k, (alookup sts k).isSome → k < free)
    (htgt : (alookup sts target).isSome) (htgtL : lvl target = L - 1) :
    ∃ lvl2,
      EdgesOk (failLadder free arityMin target sts).2.2 lvl2 ∧
      (∀ k, (alookup (failLadder free arityMin target sts).2.2 k).isSome →
        k < (failLadder free arityMin target sts).2.1) ∧
      (∀ k, (alookup sts k).isSome →
        (alookup (failLadder free arityMin target sts).2.2 k).isSome ∧ lvl2 k = lvl k) ∧
      (∀ x ∈ (failLadder free arityMin target sts).1,
        (alookup (failLadder free arityMin target sts).2.2 x).isSome ∧ lvl2 x = L) ∧
      free ≤ (failLadder free arityMin target sts).2.1 := by
  rw [failLadder]
  have hfree : alookup sts free = none := by
    rcases hh : alookup sts free with _ | d
    · rfl
    · have := hb free (by rw [hh]; rfl)
      omega
  have htgtne : target ≠ free := by
    intro hh
    rw [hh, hfree] at htgt
    cases htgt
  have hE2 := edgesOk_addFreshState hE free hfree L
  have hb2 : ∀ k, (alookup (addFreshState sts free) k).isSome → k < free + 1 := by
    intro k hk
    rw [presence_addFreshState] at hk
    rcases Bool.or_eq_true_iff.mp hk with hk | hk
    · have := hb k hk
      omega
    · have : free = k := by simpa using hk
      omega
  have hfp : (alookup (addFreshState sts free) free).isSome := by
    rw [presence_addFreshState]
    simp
  have htgt2 : (alookup (addFreshState sts free) target).isSome := by
    rw [presence_addFreshState, htgt]
    rfl
  obtain ⟨lvl2, hE3, hb3, hagree3, hladder3, hle3⟩ :=
    failLadderGo_ext arityMin target free (free + 1) [free] (addFreshState sts free)
      (fun k => if k = free then L else lvl k) L hE2 hb2 hfp
      (by simp) htgt2
      (by beta_reduce; rw [if_neg htgtne]; exact htgtL)
      (by
        intro x hx
        rcases List.mem_singleton.mp hx with rfl
        refine ⟨hfp, ?_⟩
        simp)
  refine ⟨lvl2, hE3, hb3, ?_, hladder3, by omega⟩
  intro k hk
  have hkne : k ≠ free := by
    intro hh
    rw [hh, hfree] at hk
    cases hk
  obtain ⟨hmono, hagr⟩ := hagree3 k (by rw [presence_addFreshState, hk]; rfl)
  refine ⟨hmono, ?_⟩
  rw [hagr]
  beta_reduce
  rw [if_neg hkne]

/-- Membership in a `fail_states` stack entry. -/
def failMem : FailEntry → Nat → Prop
  | none, _ => False
  | some (.inl i), x => x = i
  | some (.inr l), x => x ∈ l

theorem head?_get0 {α : Type} : ∀ (l : List α) (a : α), l.head? = some a → l.get? 0 = some a := by
  intro l a h
  cases l with
  | nil => cases h
  | cons x xs =>
    injection h with h
    subst h
    rfl

theorem pyIdx_mem (l : List Nat) (i : Int) (x : Nat) (h : pyIdx l i = some x) : x ∈ l := by
  rw [pyIdx] at h
  by_cases h0 : 0 ≤ i
  · rw [if_pos h0] at h
    exact List.get?_mem h
  · rw [if_neg h0] at h
    simp only at h
    by_cases h1 : 0 ≤ Int.ofNat l.length + i
    · rw [if_pos h1] at h
      exact List.get?_mem h
    · rw [if_neg h1] at h
      cases h

theorem lastFailState_mem (fe : FailEntry) (cnt : Int) (x : Nat)
    (h : lastFailState fe cnt = some (some x)) : failMem fe x := by
  rcases fe with _ | e
  · rw [lastFailState] at h
    injection h with h
    cases h
  · rcases e with i | l
    · rw [lastFailState] at h
      injection h with h
      injection h with h
      exact h.symm
    · rw [lastFailState] at h
      rcases hp : pyIdx l cnt with _ | y
      · rw [hp] at h
        cases h
      · rw [hp] at h
        injection h with h
        injection h with h
        rw [← h]
        exact pyIdx_mem l cnt y hp

/-- The invariant of the `_generate_net` walk: the three stacks stay in sync,
all edges are graded with level-preserving epsilon edges, the current state
sits on the level given by the stack height, and the remembered wildcard and
fail states of each stack frame sit on that frame's level. -/
structure GenInv (st : GenSt) (lvl : Nat → Int) : Prop where
  len_fw : st.failS.length = st.lastW.length
  len_fc : st.counts.length = st.lastW.length
  root_mem : (alookup st.sts 1).isSome
  cur_mem : (alookup st.sts st.cur).isSome
  bounded : ∀ k, (alookup st.sts k).isSome → k < st.free
  edges : EdgesOk st.sts lvl
  cur_lvl : lvl st.cur = (st.lastW.length : Int) - 1
  lastW_ok : ∀ idx w, st.lastW.get? idx = some (some w) →
    (alookup st.sts w).isSome ∧ lvl w = (st.lastW.length : Int) - 1 - idx
  failS_ok : ∀ idx e x, st.failS.get? idx = some e → failMem e x →
    (alookup st.sts x).isSome ∧ lvl x = (st.lastW.length : Int) - 1 - idx

/-- Adding a level-preserving epsilon edge from the current state preserves
the walk invariant. -/
theorem genInv_setTrans_eps {st : GenSt} {lvl : Nat → Int} (hinv : GenInv st lvl)
    (w : Nat) (hw : (alookup st.sts w).isSome) (hlvlw : lvl w = lvl st.cur) :
    GenInv { st with sts := setTransState st.sts st.cur .epsilon w } lvl := by
  refine ⟨hinv.len_fw, hinv.len_fc, ?_, ?_, ?_, ?_, hinv.cur_lvl, ?_, ?_⟩
  · show (alookup (setTransState st.sts st.cur .epsilon w) 1).isSome
    rw [presence_setTransState]
    exact hinv.root_mem
  · show (alookup (setTransState st.sts st.cur .epsilon w) st.cur).isSome
    rw [presence_setTransState]
    exact hinv.cur_mem
  · intro k hk
    rw [presence_setTransState] at hk
    exact hinv.bounded k hk
  · exact edgesOk_setTransState hinv.edges st.cur .epsilon w hw (by simp only [edgeOk]; exact hlvlw)
  · intro idx w2 h2
    obtain ⟨hp, hl⟩ := hinv.lastW_ok idx w2 h2
    exact ⟨by rw [presence_setTransState]; exact hp, hl⟩
  · intro idx e x h2 hm
    obtain ⟨hp, hl⟩ := hinv.failS_ok idx e x h2 hm
    exact ⟨by rw [presence_setTransState]; exact hp, hl⟩

/-- `genEpsStep` preserves the walk invariant. -/
theorem genEpsStep_inv {st st2 : GenSt} {lvl : Nat → Int}
    (hinv : GenInv st lvl) (h : genEpsStep st = some st2) : GenInv st2 lvl := by
  rw [genEpsStep] at h
  rcases hlw : st.lastW.head? with _ | lw <;> simp only [hlw] at h
  · cases h
  · by_cases heq : lw = some st.cur
    · rw [if_pos heq] at h
      injection h with h
      rw [← h]
      exact hinv
    · rw [if_neg heq] at h
      rcases lw with _ | w
      · simp only at h
        rcases hfe : st.failS.head? with _ | fe <;> simp only [hfe] at h
        · cases h
        · rcases fe with _ | entry
          · simp only at h
            injection h with h
            rw [← h]
            exact hinv
          · simp only at h
            rcases hcnt : st.counts.head? with _ | cnt <;> simp only [hcnt] at h
            · cases h
            · rcases hlf : lastFailState (some entry) cnt with _ | lf <;> simp only [hlf] at h
              · cases h
              · rcases lf with _ | tgt
                · simp only at h
                  injection h with h
                  rw [← h]
                  exact hinv
                · simp only at h
                  injection h with h
                  rw [← h]
                  obtain ⟨hp, hl⟩ := hinv.failS_ok 0 (some entry) tgt
                    (head?_get0 _ _ hfe) (lastFailState_mem _ cnt tgt hlf)
                  refine genInv_setTrans_eps hinv tgt hp ?_
                  rw [hl, hinv.cur_lvl]
                  omega
      · simp only at h
        injection h with h
        rw [← h]
        obtain ⟨hp, hl⟩ := hinv.lastW_ok 0 w (head?_get0 _ _ hlw)
        refine genInv_setTrans_eps hinv w hp ?_
        rw [hl, hinv.cur_lvl]
        omega

/-- Facts about the arena after `_create_child_state` from the current state
onto the fresh id. -/
theorem createChild_push_facts {st : GenSt} {lvl : Nat → Int}
    (hinv : GenInv st lvl) (lbl : Label) :
    (alookup (createChild st.sts st.cur lbl st.free) 1).isSome ∧
    (alookup (createChild st.sts st.cur lbl st.free) st.free).isSome ∧
    (∀ k, (alookup (createChild st.sts st.cur lbl st.free) k).isSome → k < st.free + 1) ∧
    EdgesOk (createChild st.sts st.cur lbl st.free)
      (fun k => if k = st.free then lvl st.cur + lvlDelta lbl else lvl k) ∧
    (∀ k, (alookup st.sts k).isSome →
      (alookup (createChild st.sts st.cur lbl st.free) k).isSome ∧
      (fun k2 => if k2 = st.free then lvl st.cur + lvlDelta lbl else lvl k2) k = lvl k) ∧
    (fun k => if k = st.free then lvl st.cur + lvlDelta lbl else lvl k) st.free =
      lvl st.cur + lvlDelta lbl := by
  have hfree : alookup st.sts st.free = none := by
    rcases hh : alookup st.sts st.free with _ | d
    · rfl
    · have := hinv.bounded st.free (by rw [hh]; rfl)
      omega
  refine ⟨?_, ?_, ?_, ?_, ?_, by simp⟩
  · rw [presence_createChild, hinv.root_mem]
    rfl
  · rw [presence_createChild]
    simp
  · intro k hk
    rw [presence_createChild] at hk
    rcases Bool.or_eq_true_iff.mp hk with hk | hk
    · have := hinv.bounded k hk
      omega
    · have : st.free = k := by simpa using hk
      omega
  · exact edgesOk_createChild hinv.edges st.cur lbl st.free hfree
  · intro k hk
    have hkne : k ≠ st.free := by
      intro hh
      rw [hh, hfree] at hk
      cases hk
    refine ⟨by rw [presence_createChild, hk]; rfl, ?_⟩
    beta_reduce
    rw [if_neg hkne]

/-- A flat (level-preserving) atom extends the chain and keeps the walk
invariant, with the fresh state on the current level. -/
theorem genInv_pushFlat {st : GenSt} {lvl : Nat → Int} (hinv : GenInv st lvl)
    (t : Atom) (hd : lvlDelta (.term t) = 0) :
    GenInv { st with cur := st.free, free := st.free + 1,
                     sts := createChild st.sts st.cur (.term t) st.free }
      (fun k => if k = st.free then lvl st.cur + lvlDelta (.term t) else lvl k) := by
  obtain ⟨h1, hfp, hb, hE, hagree, hlvf⟩ := createChild_push_facts hinv (.term t)
  refine ⟨hinv.len_fw, hinv.len_fc, h1, hfp, hb, hE, ?_, ?_, ?_⟩
  · show (fun k => if k = st.free then lvl st.cur + lvlDelta (.term t) else lvl k) st.free =
      ((st.lastW.length : Int)) - 1
    rw [hlvf, hd, hinv.cur_lvl]
    omega
  · intro idx w h2
    obtain ⟨hp, hl⟩ := hinv.lastW_ok idx w h2
    obtain ⟨hp2, hl2⟩ := hagree w hp
    exact ⟨hp2, hl2.trans hl⟩
  · intro idx e x h2 hm
    obtain ⟨hp, hl⟩ := hinv.failS_ok idx e x h2 hm
    obtain ⟨hp2, hl2⟩ := hagree x hp
    exact ⟨hp2, hl2.trans hl⟩

theorem get?_tail {α : Type} (l : List α) (n : Nat) : l.tail.get? n = l.get? (n + 1) := by
  cases l with
  | nil => rfl
  | cons x xs => rfl

/-- Pushing a new stack frame for an operation head preserves the walk
invariant, given the facts about the extended arena. -/
theorem genInv_pushOp {st : GenSt} {lvl lvl2 : Nat → Int}
    (hinv : GenInv st lvl)
    (S2 : List (Nat × NState Nat)) (F2 : Nat) (E : FailEntry) (c : Int)
    (hroot : (alookup S2 1).isSome)
    (hcur : (alookup S2 st.free).isSome)
    (hbound : ∀ k, (alookup S2 k).isSome → k < F2)
    (hedges : EdgesOk S2 lvl2)
    (hmono : ∀ k, (alookup st.sts k).isSome → (alookup S2 k).isSome ∧ lvl2 k = lvl k)
    (hcurlvl : lvl2 st.free = (st.lastW.length : Int))
    (hfail : ∀ x, failMem E x → (alookup S2 x).isSome ∧ lvl2 x = (st.lastW.length : Int)) :
    GenInv { st with cur := st.free, free := F2, sts := S2,
                     failS := E :: st.failS, lastW := none :: st.lastW,
                     counts := c :: st.counts } lvl2 := by
  refine ⟨?_, ?_, hroot, hcur, hbound, hedges, ?_, ?_, ?_⟩
  · show (E :: st.failS).length = ((none : Option Nat) :: st.lastW).length
    simp [hinv.len_fw]
  · show (c :: st.counts).length = ((none : Option Nat) :: st.lastW).length
    simp [hinv.len_fc]
  · show lvl2 st.free = ((((none : Option Nat) :: st.lastW).length : Nat) : Int) - 1
    rw [hcurlvl]
    simp only [List.length_cons]
    push_cast
    ring
  · intro idx w h2
    rcases idx with _ | idx
    · rw [List.get?_cons_zero] at h2
      injection h2 with h2
      cases h2
    · rw [List.get?_cons_succ] at h2
      obtain ⟨hp, hl⟩ := hinv.lastW_ok idx w h2
      obtain ⟨hp2, hl2⟩ := hmono w hp
      refine ⟨hp2, ?_⟩
      rw [hl2, hl]
      simp only [List.length_cons]
      push_cast
      ring
  · intro idx e x h2 hm
    rcases idx with _ | idx
    · rw [List.get?_cons_zero] at h2
      injection h2 with h2
      rw [← h2] at hm
      obtain ⟨hp, hl⟩ := hfail x hm
      refine ⟨hp, ?_⟩
      rw [hl]
      simp only [List.length_cons]
      push_cast
      ring
    · rw [List.get?_cons_succ] at h2
      obtain ⟨hp, hl⟩ := hinv.failS_ok idx e x h2 hm
      obtain ⟨hp2, hl2⟩ := hmono x hp
      refine ⟨hp2, ?_⟩
      rw [hl2, hl]
      simp only [List.length_cons]
      push_cast
      ring

/-- The variadic-head variant: a single backtrack state with a wildcard
self-loop and an `OPERATION_END` edge back to the parent target. -/
theorem genStepCore_variadic (op : OpType) (target : Nat) {st : GenSt} {lvl : Nat → Int}
    (hinv : GenInv st lvl)
    (hE : EdgesOk (createChild st.sts st.cur (.term (.opHead op)) st.free)
      (fun k => if k = st.free then lvl st.cur + lvlDelta (.term (.opHead op)) else lvl k))
    (hb : ∀ k, (alookup (createChild st.sts st.cur (.term (.opHead op)) st.free) k).isSome →
      k < st.free + 1)
    (h1 : (alookup (createChild st.sts st.cur (.term (.opHead op)) st.free) 1).isSome)
    (hfp : (alookup (createChild st.sts st.cur (.term (.opHead op)) st.free) st.free).isSome)
    (hagree : ∀ k, (alookup st.sts k).isSome →
      (alookup (createChild st.sts st.cur (.term (.opHead op)) st.free) k).isSome ∧
      (fun k2 => if k2 = st.free then lvl st.cur + lvlDelta (.term (.opHead op)) else lvl k2) k
        = lvl k)
    (hXfree : (fun k => if k = st.free then lvl st.cur + lvlDelta (.term (.opHead op))
      else lvl k) st.free = (st.lastW.length : Int))
    (htp : (alookup (createChild st.sts st.cur (.term (.opHead op)) st.free) target).isSome)
    (htl : (fun k => if k = st.free then lvl st.cur + lvlDelta (.term (.opHead op))
      else lvl k) target = (st.lastW.length : Int) - 1) :
    ∃ lvl2, GenInv { st with
      cur := st.free, free := st.free + 1 + 1,
      sts := setTransState (setTransState
        (addFreshState (createChild st.sts st.cur (.term (.opHead op)) st.free) (st.free + 1))
        (st.free + 1) (.term .opEnd) target) (st.free + 1) .anyAtom (st.free + 1),
      failS := some (.inl (st.free + 1)) :: st.failS,
      lastW := none :: st.lastW,
      counts := 0 :: st.counts } lvl2 := by
  set C := createChild st.sts st.cur (.term (.opHead op)) st.free with hC
  set lvlX := fun k => if k = st.free then lvl st.cur + lvlDelta (.term (.opHead op))
    else lvl k with hlvlX
  have hfid : alookup C (st.free + 1) = none := by
    rcases hh : alookup C (st.free + 1) with _ | d
    · rfl
    · have := hb (st.free + 1) (by rw [hh]; rfl)
      omega
  have htgtne : target ≠ st.free + 1 := by
    intro hh
    rw [hh, hfid] at htp
    cases htp
  have hE2 := edgesOk_addFreshState hE (st.free + 1) hfid (st.lastW.length : Int)
  have hp2 : ∀ k, (alookup C k).isSome → (alookup (addFreshState C (st.free + 1)) k).isSome := by
    intro k hk
    rw [presence_addFreshState, hk]
    rfl
  have hfidp : (alookup (addFreshState C (st.free + 1)) (st.free + 1)).isSome := by
    rw [presence_addFreshState]
    simp
  have htl2 : lvlX target = (st.lastW.length : Int) - 1 := htl
  have hedge1 : edgeOk (fun k => if k = st.free + 1 then (st.lastW.length : Int) else lvlX k)
      (st.free + 1) (.term .opEnd) target := by
    simp only [edgeOk]
    beta_reduce
    rw [if_neg htgtne, if_pos trivial, htl2]
  have hE3 := edgesOk_setTransState hE2 (st.free + 1) (.term .opEnd) target
    (hp2 target htp) hedge1
  have hE4 := edgesOk_setTransState hE3 (st.free + 1) .anyAtom (st.free + 1)
    (by rw [presence_setTransState]; exact hfidp) (by simp only [edgeOk])
  refine ⟨_, genInv_pushOp hinv _ _ _ _ ?_ ?_ ?_ hE4 ?_ ?_ ?_⟩
  · rw [presence_setTransState, presence_setTransState]
    exact hp2 1 h1
  · rw [presence_setTransState, presence_setTransState]
    exact hp2 st.free hfp
  · intro k hk
    rw [presence_setTransState, presence_setTransState, presence_addFreshState] at hk
    rcases Bool.or_eq_true_iff.mp hk with hk | hk
    · have := hb k hk
      omega
    · have : st.free + 1 = k := by simpa using hk
      omega
  · intro k hk
    obtain ⟨hp, hl⟩ := hagree k hk
    have hkne : k ≠ st.free + 1 := by
      intro hh
      rw [hh, hfid] at hp
      cases hp
    refine ⟨by rw [presence_setTransState, presence_setTransState]; exact hp2 k hp, ?_⟩
    beta_reduce
    rw [if_neg hkne]
    exact hl
  · show (fun k => if k = st.free + 1 then (st.lastW.length : Int) else lvlX k) st.free =
      (st.lastW.length : Int)
    beta_reduce
    rw [if_neg (by omega)]
    exact hXfree
  · intro x hm
    have hx : x = st.free + 1 := hm
    subst hx
    refine ⟨by rw [presence_setTransState, presence_setTransState]; exact hfidp, ?_⟩
    beta_reduce
    rw [if_pos rfl]

/-- The fixed-arity-head variant: the fail ladder. -/
theorem genStepCore_ladder (op : OpType) (target : Nat) {st : GenSt} {lvl : Nat → Int}
    (hinv : GenInv st lvl)
    (hE : EdgesOk (createChild st.sts st.cur (.term (.opHead op)) st.free)
      (fun k => if k = st.free then lvl st.cur + lvlDelta (.term (.opHead op)) else lvl k))
    (hb : ∀ k, (alookup (createChild st.sts st.cur (.term (.opHead op)) st.free) k).isSome →
      k < st.free + 1)
    (h1 : (alookup (createChild st.sts st.cur (.term (.opHead op)) st.free) 1).isSome)
    (hfp : (alookup (createChild st.sts st.cur (.term (.opHead op)) st.free) st.free).isSome)
    (hagree : ∀ k, (alookup st.sts k).isSome →
      (alookup (createChild st.sts st.cur (.term (.opHead op)) st.free) k).isSome ∧
      (fun k2 => if k2 = st.free then lvl st.cur + lvlDelta (.term (.opHead op)) else lvl k2) k
        = lvl k)
    (hXfree : (fun k => if k = st.free then lvl st.cur + lvlDelta (.term (.opHead op))
      else lvl k) st.free = (st.lastW.length : Int))
    (htp : (alookup (createChild st.sts st.cur (.term (.opHead op)) st.free) target).isSome)
    (htl : (fun k => if k = st.free then lvl st.cur + lvlDelta (.term (.opHead op))
      else lvl k) target = (st.lastW.length : Int) - 1) :
    ∃ lvl2, GenInv { st with
      cur := st.free,
      free := (failLadder (st.free + 1) op.arityMin target
        (createChild st.sts st.cur (.term (.opHead op)) st.free)).2.1,
      sts := (failLadder (st.free + 1) op.arityMin target
        (createChild st.sts st.cur (.term (.opHead op)) st.free)).2.2,
      failS := some (.inr (failLadder (st.free + 1) op.arityMin target
        (createChild st.sts st.cur (.term (.opHead op)) st.free)).1) :: st.failS,
      lastW := none :: st.lastW,
      counts := 0 :: st.counts } lvl2 := by
  obtain ⟨lvl2, hE2, hb2, hagree2, hladder2, hle2⟩ :=
    failLadder_ext (st.free + 1) op.arityMin target
      (createChild st.sts st.cur (.term (.opHead op)) st.free)
      (fun k => if k = st.free then lvl st.cur + lvlDelta (.term (.opHead op)) else lvl k)
      (st.lastW.length : Int) hE hb htp htl
  refine ⟨lvl2, genInv_pushOp hinv _ _ _ _ ?_ ?_ hb2 hE2 ?_ ?_ ?_⟩
  · exact (hagree2 1 h1).1
  · exact (hagree2 st.free hfp).1
  · intro k hk
    obtain ⟨hp, hl⟩ := hagree k hk
    obtain ⟨hp2, hl2⟩ := hagree2 k hp
    exact ⟨hp2, by rw [hl2]; exact hl⟩
  · rw [(hagree2 st.free hfp).2]
    exact hXfree
  · intro x hm
    exact hladder2 x hm

/-- The operation-head case of `genStepCore` preserves the walk invariant. -/
theorem genStepCore_inv_opHead {st st2 : GenSt} {lvl : Nat → Int}
    (hinv : GenInv st lvl) (hlen : 1 ≤ st.lastW.length) (op : OpType)
    (h : genStepCore st (.opHead op) = some st2) : ∃ lvl2, GenInv st2 lvl2 := by
  simp only [genStepCore] at h
  obtain ⟨h1, hfp, hb, hE, hagree, hlvf⟩ := createChild_push_facts hinv (.term (.opHead op))
  have hXfree : (fun k => if k = st.free then lvl st.cur + lvlDelta (.term (.opHead op))
      else lvl k) st.free = (st.lastW.length : Int) := by
    rw [hlvf, hinv.cur_lvl]
    simp only [lvlDelta]
    ring
  rcases hlw : st.lastW.head? with _ | lw <;> simp only [hlw] at h
  · cases h
  · rcases hfe : st.failS.head? with _ | fe <;> simp only [hfe] at h
    · cases h
    · have htarget : ∀ target, (lw = some target) ∨
          (lw = none ∧ ∃ cnt, lastFailState fe cnt = some (some target)) →
          (alookup st.sts target).isSome ∧ lvl target = (st.lastW.length : Int) - 1 := by
        intro target hc
        rcases hc with hc | ⟨_, cnt, hc⟩
        · rw [hc] at hlw
          obtain ⟨hp, hl⟩ := hinv.lastW_ok 0 target (head?_get0 _ _ hlw)
          exact ⟨hp, by rw [hl]; push_cast; ring⟩
        · obtain ⟨hp, hl⟩ := hinv.failS_ok 0 fe target (head?_get0 _ _ hfe)
            (lastFailState_mem fe cnt target hc)
          exact ⟨hp, by rw [hl]; push_cast; ring⟩
      rcases lw with _ | w
      · rcases fe with _ | entry
        · -- no wildcard and no fail state above: no fail entry is pushed
          simp only [Option.isSome_none, Bool.or_self, Bool.false_eq_true, if_false] at h
          injection h with h
          rw [← h]
          refine ⟨_, genInv_pushOp hinv _ _ _ _ h1 hfp hb hE hagree hXfree ?_⟩
          intro x hm
          cases hm
        · -- target comes from the parent fail state
          simp only [Option.isSome_none, Option.isSome_some, Bool.or_true,
            Bool.false_or, if_true] at h
          rcases hcnt : st.counts.head? with _ | cnt <;> simp only [hcnt] at h
          · cases h
          · rcases hlf : lastFailState (some entry) cnt with _ | lf <;> simp only [hlf] at h
            · cases h
            · have hor : ((none : Option Nat) <|> lf) = lf := rfl
              rcases hfx : op.arityFixed with _ | _
              · simp only [hfx, Bool.false_eq_true, if_false] at h
                rw [hor] at h
                rcases lf with _ | target
                · cases h
                · simp only at h
                  injection h with h
                  rw [← h]
                  obtain ⟨htp, htl⟩ := htarget target (Or.inr ⟨rfl, cnt, hlf⟩)
                  obtain ⟨htp2, htl2⟩ := hagree target htp
                  -- variadic: one backtrack state with self-loop and end edge
                  exact genStepCore_variadic op target hinv hE hb h1 hfp hagree hXfree
                    htp2 (by rw [htl2]; exact htl)
              · simp only [hfx, if_true] at h
                rw [hor] at h
                rcases lf with _ | target
                · cases h
                · simp only at h
                  injection h with h
                  rw [← h]
                  obtain ⟨htp, htl⟩ := htarget target (Or.inr ⟨rfl, cnt, hlf⟩)
                  obtain ⟨htp2, htl2⟩ := hagree target htp
                  exact genStepCore_ladder op target hinv hE hb h1 hfp hagree hXfree
                    htp2 (by rw [htl2]; exact htl)
      · -- target is the remembered wildcard state of the current frame
        simp only [Option.isSome_some, Bool.true_or, if_true] at h
        rcases hcnt : st.counts.head? with _ | cnt <;> simp only [hcnt] at h
        · cases h
        · rcases hlf : lastFailState fe cnt with _ | lf <;> simp only [hlf] at h
          · cases h
          · have hor : ((some w : Option Nat) <|> lf) = some w := rfl
            obtain ⟨htp, htl⟩ := htarget w (Or.inl rfl)
            obtain ⟨htp2, htl2⟩ := hagree w htp
            rcases hfx : op.arityFixed with _ | _
            · simp only [hfx, Bool.false_eq_true, if_false] at h
              rw [hor] at h
              simp only at h
              injection h with h
              rw [← h]
              exact genStepCore_variadic op w hinv hE hb h1 hfp hagree hXfree
                htp2 (by rw [htl2]; exact htl)
            · simp only [hfx, if_true] at h
              rw [hor] at h
              simp only at h
              injection h with h
              rw [← h]
              exact genStepCore_ladder op w hinv hE hb h1 hfp hagree hXfree
                htp2 (by rw [htl2]; exact htl)

/-- `genStepCore` preserves the walk invariant (whenever it succeeds and the
stacks are non-empty on entry). -/
theorem genStepCore_inv {st st2 : GenSt} {lvl : Nat → Int}
    (hinv : GenInv st lvl) (hlen : 1 ≤ st.lastW.length) (t : Atom)
    (h : genStepCore st t = some st2) : ∃ lvl2, GenInv st2 lvl2 := by
  rcases t with ⟨n, cs⟩ | c | op | _ | ⟨m, f⟩
  · simp only [genStepCore] at h
    injection h with h
    rw [← h]
    exact ⟨_, genInv_pushFlat hinv (.symbol n cs) rfl⟩
  · simp only [genStepCore] at h
    injection h with h
    rw [← h]
    exact ⟨_, genInv_pushFlat hinv (.symClass c) rfl⟩
  · -- operation head: handled below
    exact genStepCore_inv_opHead hinv hlen op h
  · -- operation end: pop one frame
    simp only [genStepCore] at h
    obtain ⟨h1, hfp, hb, hE, hagree, hlvf⟩ := createChild_push_facts hinv (.term .opEnd)
    rcases hfs : st.failS with _ | ⟨fe, fs⟩ <;> rw [hfs] at h
    · cases h
    · rcases hws : st.lastW with _ | ⟨w0, ws⟩ <;> rw [hws] at h
      · cases h
      · rcases hcs : st.counts with _ | ⟨c0, cs2⟩ <;> rw [hcs] at h
        · cases h
        · simp only at h
          injection h with h
          rw [← h]
          refine ⟨_, ?_, ?_, h1, hfp, hb, hE, ?_, ?_, ?_⟩
          · show fs.length = ws.length
            have := hinv.len_fw
            rw [hfs, hws] at this
            simpa using this
          · show cs2.length = ws.length
            have := hinv.len_fc
            rw [hcs, hws] at this
            simpa using this
          · show (fun k => if k = st.free then lvl st.cur + lvlDelta (.term .opEnd) else lvl k)
                st.free = ((ws.length : Int)) - 1
            rw [hlvf, hinv.cur_lvl, hws]
            simp only [lvlDelta, List.length_cons]
            push_cast
            ring
          · intro idx w h2
            have h3 : st.lastW.get? (idx + 1) = some (some w) := by
              rw [hws]
              exact h2
            obtain ⟨hp, hl⟩ := hinv.lastW_ok (idx + 1) w h3
            obtain ⟨hp2, hl2⟩ := hagree w hp
            refine ⟨hp2, ?_⟩
            have heq := hl2.trans hl
            beta_reduce at heq ⊢
            rw [hws] at heq
            simp only [List.length_cons] at heq
            push_cast at heq ⊢
            omega
          · intro idx e x h2 hm
            have h3 : st.failS.get? (idx + 1) = some e := by
              rw [hfs]
              exact h2
            obtain ⟨hp, hl⟩ := hinv.failS_ok (idx + 1) e x h3 hm
            obtain ⟨hp2, hl2⟩ := hagree x hp
            refine ⟨hp2, ?_⟩
            have heq := hl2.trans hl
            beta_reduce at heq ⊢
            rw [hws] at heq
            simp only [List.length_cons] at heq
            push_cast at heq ⊢
            omega
  · -- wildcard: a chain of wildcard edges, a star also loops and re-pins
    simp only [genStepCore] at h
    obtain ⟨lvl2, hE2, hb2, hcur2, hlv2, hagree2, hle2⟩ :=
      stateChain_ext m st.cur st.free st.sts lvl hinv.edges hinv.bounded hinv.cur_mem
    rcases f with _ | _
    · -- star wildcard
      simp only [Bool.false_eq_true, if_false] at h
      injection h with h
      rw [← h]
      set r := stateChain st.cur st.free .anyAtom st.sts m with hr
      have hE3 := edgesOk_setTransState hE2 r.1 .anyAtom r.1 hcur2
        (by simp only [edgeOk])
      refine ⟨lvl2, ?_, ?_, ?_, ?_, ?_, hE3, ?_, ?_, ?_⟩
      · show st.failS.length = (some r.1 :: st.lastW.tail).length
        rw [hinv.len_fw]
        simp only [List.length_cons, List.length_tail]
        omega
      · show ((-1 : Int) :: st.counts.tail).length = (some r.1 :: st.lastW.tail).length
        simp only [List.length_cons, List.length_tail]
        have := hinv.len_fc
        omega
      · show (alookup (setTransState r.2.2 r.1 .anyAtom r.1) 1).isSome
        rw [presence_setTransState]
        exact (hagree2 1 hinv.root_mem).1
      · show (alookup (setTransState r.2.2 r.1 .anyAtom r.1) r.1).isSome
        rw [presence_setTransState]
        exact hcur2
      · intro k hk
        rw [presence_setTransState] at hk
        exact hb2 k hk
      · show lvl2 r.1 = ((some r.1 :: st.lastW.tail).length : Int) - 1
        rw [hlv2, hinv.cur_lvl]
        simp only [List.length_cons, List.length_tail]
        push_cast
        omega
      · intro idx w h2
        rcases idx with _ | idx
        · rw [List.get?_cons_zero] at h2
          injection h2 with h2
          injection h2 with h2
          rw [← h2]
          refine ⟨by rw [presence_setTransState]; exact hcur2, ?_⟩
          rw [hlv2, hinv.cur_lvl]
          simp only [List.length_cons, List.length_tail]
          push_cast
          omega
        · rw [List.get?_cons_succ, get?_tail] at h2
          obtain ⟨hp, hl⟩ := hinv.lastW_ok (idx + 1) w h2
          obtain ⟨hp2, hl2⟩ := hagree2 w hp
          refine ⟨by rw [presence_setTransState]; exact hp2, ?_⟩
          rw [hl2, hl]
          simp only [List.length_cons, List.length_tail]
          push_cast
          omega
      · intro idx e x h2 hm
        obtain ⟨hp, hl⟩ := hinv.failS_ok idx e x h2 hm
        obtain ⟨hp2, hl2⟩ := hagree2 x hp
        refine ⟨by rw [presence_setTransState]; exact hp2, ?_⟩
        rw [hl2, hl]
        simp only [List.length_cons, List.length_tail]
        push_cast
        omega
    · -- fixed-size wildcard: only the chain
      simp only [if_true] at h
      injection h with h
      rw [← h]
      refine ⟨lvl2, hinv.len_fw, hinv.len_fc, (hagree2 1 hinv.root_mem).1, hcur2, hb2, hE2,
        ?_, ?_, ?_⟩
      · show lvl2 (stateChain st.cur st.free .anyAtom st.sts m).1 =
          ((st.lastW.length : Int)) - 1
        rw [hlv2, hinv.cur_lvl]
      · intro idx w h2
        obtain ⟨hp, hl⟩ := hinv.lastW_ok idx w h2
        obtain ⟨hp2, hl2⟩ := hagree2 w hp
        exact ⟨hp2, by rw [hl2]; exact hl⟩
      · intro idx e x h2 hm
        obtain ⟨hp, hl⟩ := hinv.failS_ok idx e x h2 hm
        obtain ⟨hp2, hl2⟩ := hagree2 x hp
        exact ⟨hp2, by rw [hl2]; exact hl⟩

/-- `genStep` preserves the walk invariant. -/
theorem genStep_inv {st0 st2 : GenSt} {lvl : Nat → Int}
    (hinv : GenInv st0 lvl) (t : Atom) (h : genStep st0 t = some st2) :
    ∃ lvl2, GenInv st2 lvl2 := by
  rw [genStep] at h
  rcases hcnt : st0.counts.head? with _ | cnt0 <;> simp only [hcnt] at h
  · cases h
  · have hclen : 1 ≤ st0.counts.length := by
      cases hc : st0.counts with
      | nil => rw [hc] at hcnt; cases hcnt
      | cons a l => simp [hc]
    have hwlen : 1 ≤ st0.lastW.length := by
      have := hinv.len_fc
      omega
    have hinv2 : GenInv { st0 with
        counts := (if 0 ≤ cnt0 then cnt0 + 1 else cnt0) :: st0.counts.tail } lvl := by
      refine ⟨hinv.len_fw, ?_, hinv.root_mem, hinv.cur_mem, hinv.bounded, hinv.edges,
        hinv.cur_lvl, hinv.lastW_ok, hinv.failS_ok⟩
      show ((if 0 ≤ cnt0 then cnt0 + 1 else cnt0) :: st0.counts.tail).length = st0.lastW.length
      simp only [List.length_cons, List.length_tail]
      have := hinv.len_fc
      omega
    rcases hcore : genStepCore { st0 with
        counts := (if 0 ≤ cnt0 then cnt0 + 1 else cnt0) :: st0.counts.tail } t
      with _ | stc <;> simp only [hcore] at h
    · cases h
    · obtain ⟨lvl2, hinv3⟩ := genStepCore_inv hinv2 hwlen t hcore
      exact ⟨lvl2, genEpsStep_inv hinv3 h⟩

/-- `genWalk` preserves the walk invariant. -/
theorem genWalk_inv :
    ∀ (ft : List Atom) (st st2 : GenSt) (lvl : Nat → Int),
      GenInv st lvl → genWalk st ft = some st2 → ∃ lvl2, GenInv st2 lvl2 := by
  intro ft
  induction ft with
  | nil =>
    intro st st2 lvl hinv h
    rw [genWalk] at h
    injection h with h
    rw [← h]
    exact ⟨lvl, hinv⟩
  | cons t ts ih =>
    intro st st2 lvl hinv h
    rw [genWalk] at h
    rcases hstep : genStep st t with _ | stm <;> simp only [hstep] at h
    · cases h
    · obtain ⟨lvl2, hinv2⟩ := genStep_inv hinv t hstep
      exact ih stm st2 lvl2 hinv2 h

/-- The initial state of the `_generate_net` walk satisfies the invariant. -/
theorem genInv_init :
    GenInv ⟨[none], [none], [0], 1, 2, [(1, ⟨[], []⟩)]⟩ (fun _ => 0) := by
  have hone : ∀ (k : Nat) (d : NState Nat),
      alookup [(1, (⟨[], []⟩ : NState Nat))] k = some d → d = ⟨[], []⟩ := by
    intro k d h
    rw [alookup] at h
    by_cases h1 : 1 = k
    · rw [if_pos h1] at h
      injection h with h
      exact h.symm
    · rw [if_neg h1] at h
      cases h
  refine ⟨rfl, rfl, rfl, rfl, ?_, ?_, rfl, ?_, ?_⟩
  · intro k hk
    show k < 2
    rw [alookup] at hk
    by_cases h1 : 1 = k
    · omega
    · rw [if_neg h1] at hk
      cases hk
  · intro k d hkd l t hmem
    rw [hone k d hkd] at hmem
    simp at hmem
  · intro idx w h2
    rcases idx with _ | idx
    · rw [List.get?_cons_zero] at h2
      injection h2 with h2
      cases h2
    · rw [List.get?_cons_succ] at h2
      simp at h2
  · intro idx e x h2 hm
    rcases idx with _ | idx
    · rw [List.get?_cons_zero] at h2
      injection h2 with h2
      rw [← h2] at hm
      cases hm
    · rw [List.get?_cons_succ] at h2
      simp at h2

theorem presence_setPayload (sts : List (Nat × NState Nat)) (i : Nat) (p : List Nat)
    (k : Nat) :
    (alookup (setPayload sts i p) k).isSome = (alookup sts k).isSome := by
  rw [alookup_setPayload]
  rcases alookup sts k with _ | d
  · rfl
  · rfl

theorem edgesOk_setPayload {sts : List (Nat × NState Nat)} {lvl : Nat → Int}
    (hE : EdgesOk sts lvl) (i : Nat) (p : List Nat) :
    EdgesOk (setPayload sts i p) lvl := by
  intro k d hkd l t hmem
  rw [alookup_setPayload] at hkd
  rcases hh : alookup sts k with _ | d0 <;> rw [hh] at hkd
  · cases hkd
  · injection hkd with hkd
    have htr : d.trans = d0.trans := by
      rw [← hkd]
      by_cases hki : k = i
      · simp [hki]
      · simp [hki]
    rw [htr] at hmem
    obtain ⟨hp, he⟩ := hE k d0 hh l t hmem
    exact ⟨by rw [presence_setPayload]; exact hp, he⟩

/-- The NFA handed to the subset construction by `_generate_net` is graded
(with level-preserving epsilon edges) and contains the root `1`. -/
theorem generateNet_nfa_graded (ft : List Atom) (lbl : Nat) (st : GenSt)
    (h : genWalk ⟨[none], [none], [0], 1, 2, [(1, ⟨[], []⟩)]⟩ ft = some st) :
    ∃ lvl, EdgesOk (setPayload st.sts st.cur [lbl]) lvl ∧
      (alookup (setPayload st.sts st.cur [lbl]) 1).isSome := by
  obtain ⟨lvl2, hinv⟩ := genWalk_inv ft _ st (fun _ => 0) genInv_init h
  refine ⟨lvl2, edgesOk_setPayload hinv.edges st.cur [lbl], ?_⟩
  rw [presence_setPayload]
  exact hinv.root_mem

/-! #### The subset construction turns the graded NFA into a graded DFA -/

/-- All members of an NFA state set are present and on one level. -/
def Unif (nfa : List (Nat × NState Nat)) (lvl : Nat → Int) (S : List Nat) (L : Int) :
    Prop :=
  ∀ x ∈ S, (alookup nfa x).isSome ∧ lvl x = L

theorem mem_insertSorted (x : Nat) :
    ∀ (l : List Nat) (y : Nat), y ∈ insertSorted x l ↔ y = x ∨ y ∈ l := by
  intro l
  induction l with
  | nil =>
    intro y
    rw [insertSorted]
    simp
  | cons z zs ih =>
    intro y
    rw [insertSorted]
    by_cases hz : x ≤ z
    · rw [if_pos hz]
      simp [List.mem_cons]
    · rw [if_neg hz]
      simp [List.mem_cons, ih]
      tauto

theorem mem_sortNat (l : List Nat) (y : Nat) : y ∈ sortNat l ↔ y ∈ l := by
  induction l with
  | nil => rfl
  | cons a l ih =>
    show y ∈ insertSorted a (sortNat l) ↔ _
    rw [mem_insertSorted, ih]
    simp [List.mem_cons]

theorem mem_dedupSeen_iff [DecidableEq α] :
    ∀ (l seen : List α) (x : α), x ∈ dedupSeen seen l ↔ (x ∈ l ∧ x ∉ seen) := by
  intro l
  induction l with
  | nil =>
    intro seen x
    simp [dedupSeen]
  | cons a l ih =>
    intro seen x
    rw [dedupSeen]
    by_cases ha : a ∈ seen
    · rw [if_pos ha, ih]
      constructor
      · rintro ⟨h1, h2⟩
        exact ⟨List.mem_cons_of_mem a h1, h2⟩
      · rintro ⟨h1, h2⟩
        rcases List.mem_cons.mp h1 with h1 | h1
        · subst h1
          exact absurd ha h2
        · exact ⟨h1, h2⟩
    · rw [if_neg ha]
      constructor
      · intro h1
        rcases List.mem_cons.mp h1 with h1 | h1
        · subst h1
          exact ⟨List.mem_cons_self _ _, ha⟩
        · obtain ⟨h2, h3⟩ := (ih (seen ++ [a]) x).mp h1
          refine ⟨List.mem_cons_of_mem a h2, ?_⟩
          intro hc
          exact h3 (List.mem_append_left _ hc)
      · rintro ⟨h1, h2⟩
        rcases List.mem_cons.mp h1 with h1 | h1
        · subst h1
          exact List.mem_cons_self _ _
        · by_cases hxa : x = a
          · subst hxa
            exact List.mem_cons_self _ _
          · refine List.mem_cons_of_mem _ ((ih (seen ++ [a]) x).mpr ⟨h1, ?_⟩)
            intro hc
            rcases List.mem_append.mp hc with hc | hc
            · exact h2 hc
            · exact hxa (List.mem_singleton.mp hc)

theorem mem_dedupKeepFirst_iff [DecidableEq α] (l : List α) (x : α) :
    x ∈ dedupKeepFirst l ↔ x ∈ l := by
  rw [dedupKeepFirst, mem_dedupSeen_iff]
  simp

theorem mem_canonSet (l : List Nat) (y : Nat) : y ∈ canonSet l ↔ y ∈ l := by
  rw [canonSet, mem_sortNat, mem_dedupKeepFirst_iff]

theorem unif_canonSet {nfa : List (Nat × NState Nat)} {lvl : Nat → Int} {L : Int}
    (S : List Nat) (h : Unif nfa lvl S L) : Unif nfa lvl (canonSet S) L := by
  intro x hx
  exact h x ((mem_canonSet S x).mp hx)

theorem unif_epsClosurePass {nfa : List (Nat × NState Nat)} {lvl : Nat → Int} {L : Int}
    (hE : EdgesOk nfa lvl) (acc : List Nat) (h : Unif nfa lvl acc L) :
    Unif nfa lvl (epsClosurePass nfa acc) L := by
  intro x hx
  rw [epsClosurePass, mem_dedupKeepFirst_iff] at hx
  rw [List.mem_filter] at hx
  obtain ⟨hx, _⟩ := hx
  rw [List.mem_filterMap] at hx
  obtain ⟨i, hi, hfi⟩ := hx
  rcases hii : alookup nfa i with _ | d <;> rw [hii] at hfi
  · cases hfi
  · have hmem := alookup_mem d.trans .epsilon x hfi
    obtain ⟨hp, he⟩ := hE i d hii .epsilon x hmem
    refine ⟨hp, ?_⟩
    have hδ : lvl x = lvl i := he
    rw [hδ, (h i hi).2]

theorem unif_epsClosureGo {nfa : List (Nat × NState Nat)} {lvl : Nat → Int} {L : Int}
    (hE : EdgesOk nfa lvl) :
    ∀ (n : Nat) (acc : List Nat), Unif nfa lvl acc L →
      Unif nfa lvl (epsClosureGo nfa n acc) L := by
  intro n
  induction n with
  | zero => intro acc h; exact h
  | succ n ih =>
    intro acc h
    rw [epsClosureGo]
    by_cases hadd : epsClosurePass nfa acc = []
    · rw [if_pos hadd]
      exact h
    · rw [if_neg hadd]
      refine ih (acc ++ epsClosurePass nfa acc) ?_
      intro x hx
      rcases List.mem_append.mp hx with hx | hx
      · exact h x hx
      · exact unif_epsClosurePass hE acc h x hx

theorem unif_epsClosure {nfa : List (Nat × NState Nat)} {lvl : Nat → Int} {L : Int}
    (hE : EdgesOk nfa lvl) (s : List Nat) (h : Unif nfa lvl s L) :
    Unif nfa lvl (epsClosure nfa s) L :=
  unif_canonSet _ (unif_epsClosureGo hE _ s h)

theorem mem_epsClosureGo_of_mem {nfa : List (Nat × NState Nat)} :
    ∀ (n : Nat) (acc : List Nat) (x : Nat), x ∈ acc → x ∈ epsClosureGo nfa n acc := by
  intro n
  induction n with
  | zero => intro acc x h; exact h
  | succ n ih =>
    intro acc x h
    rw [epsClosureGo]
    by_cases hadd : epsClosurePass nfa acc = []
    · rw [if_pos hadd]
      exact h
    · rw [if_neg hadd]
      exact ih _ x (List.mem_append_left _ h)

theorem mem_epsClosure_of_mem {nfa : List (Nat × NState Nat)} (s : List Nat) (x : Nat)
    (h : x ∈ s) : x ∈ epsClosure nfa s := by
  rw [epsClosure, mem_canonSet]
  exact mem_epsClosureGo_of_mem _ s x h

theorem lvlDelta_flat (l : Label) (hop : l.isOp = false) (hend : l ≠ .term .opEnd) :
    lvlDelta l = 0 := by
  rcases l with a | _ | _
  · rcases a with _ | _ | op | _ | _
    · rfl
    · rfl
    · simp [Label.isOp] at hop
    · exact absurd rfl hend
    · rfl
  · rfl
  · rfl

theorem edgeOk_delta {lvl : Nat → Int} {s : Nat} {l : Label} {t : Nat}
    (h : edgeOk lvl s l t) : lvl t = lvl s + lvlDelta l := by
  rcases l with a | _ | _
  · rcases a with _ | _ | op | _ | _ <;> simp only [edgeOk, lvlDelta] at h ⊢ <;> omega
  · simp only [edgeOk, lvlDelta] at h ⊢
    omega
  · simp only [edgeOk, lvlDelta] at h ⊢
    omega

/-- Every state contributed by `targetStep` is present and sits `lvlDelta l`
above the member's level. -/
theorem targetStep_unif {nfa : List (Nat × NState Nat)} {lvl : Nat → Int} {L : Int}
    (hE : EdgesOk nfa lvl) (l : Label) (acc : List Nat) (s : Nat)
    (hs : (alookup nfa s).isSome → lvl s = L)
    (hacc : ∀ x ∈ acc, (alookup nfa x).isSome ∧ lvl x = L + lvlDelta l) :
    ∀ x ∈ targetStep nfa l acc s, (alookup nfa x).isSome ∧ lvl x = L + lvlDelta l := by
  intro x hx
  rw [targetStep] at hx
  rcases hsd : alookup nfa s with _ | d <;> simp only [hsd] at hx
  · exact hacc x hx
  · have hsl : lvl s = L := hs (by rw [hsd]; rfl)
    rw [List.mem_append, List.mem_append, List.mem_append] at hx
    rcases hx with ((hx | hx) | hx) | hx
    · exact hacc x hx
    · -- exact transition on `l`
      rcases ht : alookup d.trans l with _ | t <;> simp only [ht] at hx
      · simp at hx
      · rcases List.mem_singleton.mp hx with rfl
        obtain ⟨hp, he⟩ := hE s d hsd l x (alookup_mem _ _ _ ht)
        exact ⟨hp, by rw [edgeOk_delta he, hsl]⟩
    · -- symbol-wildcard transition (flat, only for symbol labels)
      rcases l with a | _ | _
      · rcases a with ⟨n, cs⟩ | c | op | _ | ⟨mm, ff⟩
        · simp only at hx
          rcases hk : symWildKey cs d.trans with _ | k <;> simp only [hk] at hx
          · simp at hx
          · rcases ht : alookup d.trans k with _ | t <;> simp only [ht] at hx
            · simp at hx
            · rcases List.mem_singleton.mp hx with rfl
              obtain ⟨c, rfl⟩ := symWildKey_shape cs d.trans k hk
              obtain ⟨hp, he⟩ := hE s d hsd _ x (alookup_mem _ _ _ ht)
              refine ⟨hp, ?_⟩
              have h0 : lvl x = lvl s := he
              rw [h0, hsl]
              simp [lvlDelta]
        · simp at hx
        · simp at hx
        · simp at hx
        · simp at hx
      · simp at hx
      · simp at hx
    · -- generic wildcard transition (only for flat labels)
      split at hx
      · next hcond =>
        rcases Bool.and_eq_true_iff.mp hcond with ⟨h1, h2⟩
        have hop : l.isOp = false := by
          simpa using h1
        have hend : l ≠ .term .opEnd := by
          simpa using h2
        rcases ht : alookup d.trans .anyAtom with _ | t <;> simp only [ht] at hx
        · simp at hx
        · rcases List.mem_singleton.mp hx with rfl
          obtain ⟨hp, he⟩ := hE s d hsd .anyAtom x (alookup_mem _ _ _ ht)
          refine ⟨hp, ?_⟩
          have h0 : lvl x = lvl s := he
          rw [h0, hsl, lvlDelta_flat l hop hend]
          ring
      · simp at hx

theorem unif_targetSet {nfa : List (Nat × NState Nat)} {lvl : Nat → Int} {L : Int}
    (hE : EdgesOk nfa lvl) (S : List Nat) (l : Label) (hS : Unif nfa lvl S L) :
    Unif nfa lvl (targetSet nfa S l) (L + lvlDelta l) := by
  rw [targetSet]
  refine unif_epsClosure hE _ (unif_canonSet _ ?_)
  have hfold : ∀ (S2 : List Nat) (acc : List Nat),
      (∀ s ∈ S2, (alookup nfa s).isSome → lvl s = L) →
      (∀ x ∈ acc, (alookup nfa x).isSome ∧ lvl x = L + lvlDelta l) →
      ∀ x ∈ S2.foldl (targetStep nfa l) acc,
        (alookup nfa x).isSome ∧ lvl x = L + lvlDelta l := by
    intro S2
    induction S2 with
    | nil => intro acc _ hacc x hx; exact hacc x hx
    | cons s S3 ih =>
      intro acc hS2 hacc x hx
      rw [List.foldl_cons] at hx
      refine ih (targetStep nfa l acc s) (fun s2 h2 => hS2 s2 (List.mem_cons_of_mem _ h2))
        ?_ x hx
      exact targetStep_unif hE l acc s (hS2 s (List.mem_cons_self _ _)) hacc
  exact hfold S [] (fun s h2 _ => (hS s h2).2) (by intro x hx; simp at hx)

theorem mem_foldl_labelStep {nfa : List (Nat × NState Nat)} :
    ∀ (S : List Nat) (acc : List Label) (x : Label),
      x ∈ S.foldl (labelStep nfa) acc ↔
        x ∈ acc ∨ ∃ s ∈ S, ∃ d, alookup nfa s = some d ∧ x ∈ d.trans.map Prod.fst := by
  intro S
  induction S with
  | nil =>
    intro acc x
    simp
  | cons s S ih =>
    intro acc x
    rw [List.foldl_cons, ih]
    rcases hd : alookup nfa s with _ | d
    · rw [labelStep]
      simp only [hd]
      constructor
      · rintro (hx | hx)
        · exact Or.inl hx
        · obtain ⟨s2, hs2, d2, hd2, hx2⟩ := hx
          exact Or.inr ⟨s2, List.mem_cons_of_mem _ hs2, d2, hd2, hx2⟩
      · rintro (hx | hx)
        · exact Or.inl hx
        · obtain ⟨s2, hs2, d2, hd2, hx2⟩ := hx
          rcases List.mem_cons.mp hs2 with hs2 | hs2
          · subst hs2
            rw [hd] at hd2
            cases hd2
          · exact Or.inr ⟨s2, hs2, d2, hd2, hx2⟩
    · rw [labelStep]
      simp only [hd]
      rw [List.mem_append]
      constructor
      · rintro ((hx | hx) | hx)
        · exact Or.inl hx
        · exact Or.inr ⟨s, List.mem_cons_self _ _, d, hd, hx⟩
        · obtain ⟨s2, hs2, d2, hd2, hx2⟩ := hx
          exact Or.inr ⟨s2, List.mem_cons_of_mem _ hs2, d2, hd2, hx2⟩
      · rintro (hx | hx)
        · exact Or.inl (Or.inl hx)
        · obtain ⟨s2, hs2, d2, hd2, hx2⟩ := hx
          rcases List.mem_cons.mp hs2 with hs2 | hs2
          · subst hs2
            rw [hd] at hd2
            have hdd : d = d2 := Option.some.inj hd2
            subst hdd
            exact Or.inl (Or.inr hx2)
          · exact Or.inr ⟨s2, hs2, d2, hd2, hx2⟩

theorem targetStep_acc_sub (nfa : List (Nat × NState Nat)) (l : Label) (acc : List Nat)
    (s : Nat) : ∀ x ∈ acc, x ∈ targetStep nfa l acc s := by
  intro x hx
  rw [targetStep]
  rcases hd : alookup nfa s with _ | d
  · exact hx
  · simp only
    exact List.mem_append_left _ (List.mem_append_left _ (List.mem_append_left _ hx))

theorem foldl_targetStep_acc_sub (nfa : List (Nat × NState Nat)) (l : Label) :
    ∀ (S acc : List Nat) (x : Nat), x ∈ acc → x ∈ S.foldl (targetStep nfa l) acc := by
  intro S
  induction S with
  | nil => intro acc x hx; exact hx
  | cons s S ih =>
    intro acc x hx
    rw [List.foldl_cons]
    exact ih _ x (targetStep_acc_sub nfa l acc s x hx)

theorem mem_foldl_targetStep_of_edge {nfa : List (Nat × NState Nat)} {l : Label}
    {s : Nat} {d : NState Nat} {t : Nat}
    (hd : alookup nfa s = some d) (ht : alookup d.trans l = some t) :
    ∀ (S : List Nat) (acc : List Nat), s ∈ S → t ∈ S.foldl (targetStep nfa l) acc := by
  intro S
  induction S with
  | nil =>
    intro acc h
    simp at h
  | cons s2 S ih =>
    intro acc hs
    rw [List.foldl_cons]
    rcases List.mem_cons.mp hs with hseq | hs
    · subst hseq
      refine foldl_targetStep_acc_sub nfa l S _ t ?_
      rw [targetStep]
      simp only [hd, ht]
      exact List.mem_append_left _ (List.mem_append_left _
        (List.mem_append_right _ (List.mem_singleton.mpr rfl)))
    · exact ih _ hs

theorem targetSet_ne_nil {nfa : List (Nat × NState Nat)} {S : List Nat} {l : Label}
    (h : l ∈ subsetLabels nfa S) : targetSet nfa S l ≠ [] := by
  rw [subsetLabels, mem_dedupKeepFirst_iff, mem_foldl_labelStep] at h
  rcases h with h | h
  · simp at h
  obtain ⟨s, hs, d, hd, hl⟩ := h
  have hts : (alookup d.trans l).isSome := alookup_isSome_of_mem_keys _ _ hl
  rcases ht : alookup d.trans l with _ | t
  · rw [ht] at hts
    cases hts
  have hmem : t ∈ targetSet nfa S l := by
    rw [targetSet]
    exact mem_epsClosure_of_mem _ t
      ((mem_canonSet _ t).mpr (mem_foldl_targetStep_of_edge hd ht S [] hs))
  exact List.ne_nil_of_mem hmem

theorem alookup_setTransD :
    ∀ (dfa : List (List Nat × NState (List Nat))) (k : List Nat)
      (tr : List (Label × List Nat)) (i : List Nat),
      alookup (setTransD dfa k tr) i =
        (alookup dfa i).map fun d => if i = k then ⟨tr, d.payload⟩ else d := by
  intro dfa
  induction dfa with
  | nil => intro k tr i; rfl
  | cons e es ih =>
    intro k tr i
    rcases e with ⟨i2, d2⟩
    show alookup ((if i2 = k then (i2, (⟨tr, d2.payload⟩ : NState (List Nat)))
        else (i2, d2)) :: setTransD es k tr) i = _
    by_cases hik : i2 = k
    · rw [if_pos hik]
      rw [alookup, alookup]
      by_cases hii : i2 = i
      · subst hii
        rw [if_pos rfl, if_pos rfl]
        rw [Option.map_some']
        rw [if_pos hik]
      · rw [if_neg hii, if_neg hii]
        exact ih k tr i
    · rw [if_neg hik]
      rw [alookup, alookup]
      by_cases hii : i2 = i
      · subst hii
        rw [if_pos rfl, if_pos rfl]
        rw [Option.map_some']
        rw [if_neg hik]
      · rw [if_neg hii, if_neg hii]
        exact ih k tr i

theorem setTransD_keys (dfa : List (List Nat × NState (List Nat))) (k : List Nat)
    (tr : List (Label × List Nat)) :
    (setTransD dfa k tr).map Prod.fst = dfa.map Prod.fst := by
  induction dfa with
  | nil => rfl
  | cons e es ih =>
    rcases e with ⟨i, d⟩
    show ((if i = k then (i, (⟨tr, d.payload⟩ : NState (List Nat))) else (i, d)) ::
        setTransD es k tr).map Prod.fst = _
    by_cases hik : i = k
    · rw [if_pos hik]
      simp only [List.map_cons, ih]
    · rw [if_neg hik]
      simp only [List.map_cons, ih]

/-- Subset-construction invariant: every DFA key is a nonempty set of present
NFA states on a single level. -/
def KeysUnif (nfa : List (Nat × NState Nat)) (lvl : Nat → Int)
    (dfa : List (List Nat × NState (List Nat))) : Prop :=
  ∀ K ∈ dfa.map Prod.fst, K ≠ [] ∧ ∃ L, Unif nfa lvl K L

/-- Subset-construction invariant: every recorded DFA edge carries a
non-epsilon label, goes to the exact target set of its source, and its target
is itself a DFA key. -/
def EdgesUnif (nfa : List (Nat × NState Nat))
    (dfa : List (List Nat × NState (List Nat))) : Prop :=
  ∀ K d, alookup dfa K = some d → ∀ l T, (l, T) ∈ d.trans →
    l ≠ .epsilon ∧ T = targetSet nfa K l ∧ T ∈ dfa.map Prod.fst

/-- Processing the labels of one subset preserves the key invariant, sends the
new queue items to keys of the grown arena, keeps old keys and entries, and
produces a transition dictionary of non-epsilon exact-target edges. -/
theorem dfaLabels_inv {nfa : List (Nat × NState Nat)} {lvl : Nat → Int}
    (hE : EdgesOk nfa lvl) {S : List Nat} {LS : Int} (hS : Unif nfa lvl S LS) :
    ∀ (ls : List Label) (dfa : List (List Nat × NState (List Nat)))
      (queue : List (List Nat)) (tr : List (Label × List Nat)),
      (∀ l ∈ ls, l ∈ subsetLabels nfa S) →
      KeysUnif nfa lvl dfa →
      (∀ K ∈ queue, K ∈ dfa.map Prod.fst) →
      (∀ l T, (l, T) ∈ tr → l ≠ .epsilon ∧ T = targetSet nfa S l ∧ T ∈ dfa.map Prod.fst) →
      KeysUnif nfa lvl (dfaLabels nfa S ls dfa queue tr).1 ∧
      (∀ K ∈ (dfaLabels nfa S ls dfa queue tr).2.1,
        K ∈ (dfaLabels nfa S ls dfa queue tr).1.map Prod.fst) ∧
      (∀ l T, (l, T) ∈ (dfaLabels nfa S ls dfa queue tr).2.2 →
        l ≠ .epsilon ∧ T = targetSet nfa S l ∧
          T ∈ (dfaLabels nfa S ls dfa queue tr).1.map Prod.fst) ∧
      (∀ K, K ∈ dfa.map Prod.fst → K ∈ (dfaLabels nfa S ls dfa queue tr).1.map Prod.fst) ∧
      (∀ K dK, alookup (dfaLabels nfa S ls dfa queue tr).1 K = some dK →
        alookup dfa K = some dK ∨ dK.trans = []) := by
  intro ls
  induction ls with
  | nil =>
    intro dfa queue tr _ hkeys hq htr
    exact ⟨hkeys, hq, htr, fun K h => h, fun K dK h => Or.inl h⟩
  | cons l ls ih =>
    intro dfa queue tr hls hkeys hq htr
    rw [dfaLabels]
    by_cases hle : l = .epsilon
    · rw [if_pos hle]
      exact ih dfa queue tr (fun l2 h2 => hls l2 (List.mem_cons_of_mem _ h2)) hkeys hq htr
    · rw [if_neg hle]
      have hlsub : l ∈ subsetLabels nfa S := hls l (List.mem_cons_self _ _)
      have htne : targetSet nfa S l ≠ [] := targetSet_ne_nil hlsub
      have htu : Unif nfa lvl (targetSet nfa S l) (LS + lvlDelta l) :=
        unif_targetSet hE S l hS
      rcases halo : alookup dfa (targetSet nfa S l) with _ | dcur <;> simp only [halo]
      · -- new subset: append it to the arena and enqueue it
        obtain ⟨c1, c2, c3, c4, c5⟩ := ih
          (dfa ++ [(targetSet nfa S l, ⟨[], subsetPayload nfa (targetSet nfa S l)⟩)])
          (targetSet nfa S l :: queue) (setKey tr l (targetSet nfa S l))
          (fun l2 h2 => hls l2 (List.mem_cons_of_mem _ h2))
          (by
            intro K hK
            rw [List.map_append, List.mem_append] at hK
            rcases hK with hK | hK
            · exact hkeys K hK
            · rcases List.mem_singleton.mp hK with hK
              subst hK
              exact ⟨htne, LS + lvlDelta l, htu⟩)
          (by
            intro K hK
            rw [List.map_append, List.mem_append]
            rcases List.mem_cons.mp hK with hK | hK
            · subst hK
              exact Or.inr (List.mem_singleton.mpr rfl)
            · exact Or.inl (hq K hK))
          (by
            intro l2 T h2
            rcases mem_setKey tr l (targetSet nfa S l) (l2, T) h2 with h2 | h2
            · have h3 : l2 = l ∧ T = targetSet nfa S l := by
                rw [Prod.mk.injEq] at h2
                exact h2
              obtain ⟨rfl, rfl⟩ := h3
              refine ⟨hle, rfl, ?_⟩
              rw [List.map_append, List.mem_append]
              exact Or.inr (List.mem_singleton.mpr rfl)
            · obtain ⟨h3, h4, h5⟩ := htr l2 T h2
              refine ⟨h3, h4, ?_⟩
              rw [List.map_append, List.mem_append]
              exact Or.inl h5)
        refine ⟨c1, c2, c3, ?_, ?_⟩
        · intro K hK
          refine c4 K ?_
          rw [List.map_append, List.mem_append]
          exact Or.inl hK
        · intro K dK h
          rcases c5 K dK h with h2 | h2
          · rw [alookup_append] at h2
            rcases ha : alookup dfa K with _ | v <;> simp only [ha] at h2
            · rw [alookup] at h2
              by_cases hKt : targetSet nfa S l = K
              · rw [if_pos hKt] at h2
                rcases Option.some.injEq .. ▸ h2 with h3
                subst h3
                exact Or.inr rfl
              · rw [if_neg hKt] at h2
                cases h2
            · exact Or.inl h2
          · exact Or.inr h2
      · -- known subset: only record the transition
        refine ih dfa queue (setKey tr l (targetSet nfa S l))
          (fun l2 h2 => hls l2 (List.mem_cons_of_mem _ h2)) hkeys hq ?_
        intro l2 T h2
        rcases mem_setKey tr l (targetSet nfa S l) (l2, T) h2 with h2 | h2
        · have h3 : l2 = l ∧ T = targetSet nfa S l := by
            rw [Prod.mk.injEq] at h2
            exact h2
          obtain ⟨rfl, rfl⟩ := h3
          refine ⟨hle, rfl, ?_⟩
          exact mem_keys_of_alookup_isSome dfa _ (by rw [halo]; rfl)
        · exact htr l2 T h2

/-- The subset-construction worklist preserves the key and edge invariants and
never drops a key. -/
theorem dfaLoop_inv {nfa : List (Nat × NState Nat)} {lvl : Nat → Int}
    (hE : EdgesOk nfa lvl) :
    ∀ (fuel : Nat) (queue : List (List Nat)) (dfa out : List (List Nat × NState (List Nat))),
      KeysUnif nfa lvl dfa →
      (∀ K ∈ queue, K ∈ dfa.map Prod.fst) →
      EdgesUnif nfa dfa →
      dfaLoop nfa fuel queue dfa = some out →
      KeysUnif nfa lvl out ∧ EdgesUnif nfa out ∧
        (∀ K, K ∈ dfa.map Prod.fst → K ∈ out.map Prod.fst) := by
  intro fuel
  induction fuel with
  | zero =>
    intro queue dfa out _ _ _ h
    cases h
  | succ fuel ih =>
    intro queue dfa out hkeys hq hedges h
    rcases queue with _ | ⟨S, rest⟩
    · rw [dfaLoop] at h
      have hout : dfa = out := Option.some.inj h
      subst hout
      exact ⟨hkeys, hedges, fun K hK => hK⟩
    · rw [dfaLoop] at h
      rcases hcur : alookup dfa S with _ | cur <;> simp only [hcur] at h
      · cases h
      obtain ⟨hSne, LS, hSu⟩ :=
        hkeys S (mem_keys_of_alookup_isSome dfa S (by rw [hcur]; rfl))
      obtain ⟨c1, c2, c3, c4, c5⟩ := dfaLabels_inv hE hSu (subsetLabels nfa S) dfa []
        cur.trans (fun l hl => hl) hkeys (by intro K hK; simp at hK)
        (fun l T hlT => hedges S cur hcur l T hlT)
      obtain ⟨d1, d2, d3⟩ := ih _ _ out
        (by
          intro K hK
          rw [setTransD_keys] at hK
          exact c1 K hK)
        (by
          intro K hK
          rw [setTransD_keys]
          rcases List.mem_append.mp hK with hK | hK
          · exact c2 K hK
          · exact c4 K (hq K (List.mem_cons_of_mem _ hK)))
        (by
          intro K d hKd l T hlT
          rw [alookup_setTransD] at hKd
          rcases hr1 : alookup (dfaLabels nfa S (subsetLabels nfa S) dfa [] cur.trans).1 K
            with _ | d0 <;> simp only [hr1] at hKd
          · cases hKd
          · have hd : (if K = S
                then (⟨(dfaLabels nfa S (subsetLabels nfa S) dfa [] cur.trans).2.2,
                  d0.payload⟩ : NState (List Nat)) else d0) = d := Option.some.inj hKd
            by_cases hKS : K = S
            · rw [if_pos hKS] at hd
              subst hKS
              rw [← hd] at hlT
              obtain ⟨h3, h4, h5⟩ := c3 l T hlT
              refine ⟨h3, h4, ?_⟩
              rw [setTransD_keys]
              exact h5
            · rw [if_neg hKS] at hd
              subst hd
              rcases c5 K d0 hr1 with h2 | h2
              · obtain ⟨h3, h4, h5⟩ := hedges K d0 h2 l T hlT
                refine ⟨h3, h4, ?_⟩
                rw [setTransD_keys]
                exact c4 T h5
              · rw [h2] at hlT
                simp at hlT)
        h
      refine ⟨d1, d2, ?_⟩
      intro K hK
      refine d3 K ?_
      rw [setTransD_keys]
      exact c4 K hK

theorem posOf_isSome_of_mem [DecidableEq κ] :
    ∀ (l : List κ) (k : κ), k ∈ l → (posOf l k).isSome := by
  intro l
  induction l with
  | nil => intro k h; simp at h
  | cons x xs ih =>
    intro k h
    rw [posOf]
    by_cases hx : x = k
    · rw [if_pos hx]
      rfl
    · rw [if_neg hx]
      rcases List.mem_cons.mp h with h | h
      · exact absurd h.symm hx
      · rcases hp : posOf xs k with _ | i
        · have h2 := ih k h
          rw [hp] at h2
          cases h2
        · rfl

theorem posOf_get [DecidableEq κ] :
    ∀ (l : List κ) (k : κ) (i : Nat), posOf l k = some i → l.get? i = some k := by
  intro l
  induction l with
  | nil => intro k i h; cases h
  | cons x xs ih =>
    intro k i h
    rw [posOf] at h
    by_cases hx : x = k
    · rw [if_pos hx] at h
      have hi : i = 0 := (Option.some.inj h).symm
      subst hi
      rw [List.get?, hx]
    · rw [if_neg hx] at h
      rcases hp : posOf xs k with _ | j <;> rw [hp] at h
      · cases h
      · rw [Option.map_some'] at h
        have hi : j + 1 = i := Option.some.inj h
        subst hi
        rw [List.get?]
        exact ih k j hp

theorem alookup_map_pair_elim {κ κ2 α β : Type} [DecidableEq κ] [DecidableEq κ2]
    (f : κ → κ2) (g : κ → α → β) :
    ∀ (l : List (κ × α)) (i : κ2) (d : β),
      alookup (l.map fun p => (f p.1, g p.1 p.2)) i = some d →
      ∃ k a, alookup l k = some a ∧ i = f k ∧ d = g k a := by
  intro l
  induction l with
  | nil => intro i d h; cases h
  | cons e es ih =>
    intro i d h
    rcases e with ⟨k0, a0⟩
    simp only [List.map_cons] at h
    rw [alookup] at h
    by_cases hk : f k0 = i
    · rw [if_pos hk] at h
      refine ⟨k0, a0, ?_, hk.symm, (Option.some.inj h).symm⟩
      rw [alookup, if_pos rfl]
    · rw [if_neg hk] at h
      obtain ⟨k, a, h1, h2, h3⟩ := ih i d h
      have hne : k0 ≠ k := by
        intro hc
        rw [hc] at hk
        exact hk h2.symm
      refine ⟨k, a, ?_, h2, h3⟩
      rw [alookup, if_neg hne]
      exact h1

theorem alookup_map_pair_isSome {κ κ2 α β : Type} [DecidableEq κ] [DecidableEq κ2]
    (f : κ → κ2) (g : κ → α → β) :
    ∀ (l : List (κ × α)) (k : κ), k ∈ l.map Prod.fst →
      (alookup (l.map fun p => (f p.1, g p.1 p.2)) (f k)).isSome := by
  intro l
  induction l with
  | nil => intro k h; simp at h
  | cons e es ih =>
    intro k h
    rcases e with ⟨k0, a0⟩
    simp only [List.map_cons] at h ⊢
    rw [alookup]
    by_cases hk : f k0 = f k
    · rw [if_pos hk]
      rfl
    · rw [if_neg hk]
      rcases List.mem_cons.mp h with h | h
      · exact absurd (by rw [h]) hk
      · exact ih k h

/-- The level of a subset: the level of its first member (the subsets built by
the construction are uniform, so any member would do). -/
def lvlDof (lvl : Nat → Int) (S : List Nat) : Int :=
  match S.head? with
  | some s => lvl s
  | none => 0

theorem lvlDof_of_unif {nfa : List (Nat × NState Nat)} {lvl : Nat → Int} {S : List Nat}
    {L : Int} (hu : Unif nfa lvl S L) (hne : S ≠ []) : lvlDof lvl S = L := by
  rcases S with _ | ⟨s, S⟩
  · exact absurd rfl hne
  · exact (hu s (List.mem_cons_self _ _)).2

/-- The dense index assigned to a subset key by `reindexAuto`. -/
def posR (dfa : List (List Nat × NState (List Nat))) (k : List Nat) : Nat :=
  match posOf (dfa.map Prod.fst) k with
  | some i => i + 1
  | none => 0

/-- The level of a dense index: the level of the subset it denotes. -/
def lvlR (lvl : Nat → Int) (dfa : List (List Nat × NState (List Nat))) (i : Nat) : Int :=
  match (dfa.map Prod.fst).get? (i - 1) with
  | some K => lvlDof lvl K
  | none => 0

theorem reindexAuto_eq (dfa : List (List Nat × NState (List Nat))) (rt : List Nat) :
    reindexAuto dfa rt =
      ⟨dfa.map fun p => (posR dfa p.1,
        ⟨p.2.trans.map fun e => (e.1, posR dfa e.2), p.2.payload⟩),
       posR dfa rt⟩ := rfl

theorem posR_lvlR {lvl : Nat → Int} (dfa : List (List Nat × NState (List Nat)))
    (K : List Nat) (h : K ∈ dfa.map Prod.fst) :
    lvlR lvl dfa (posR dfa K) = lvlDof lvl K := by
  have hp := posOf_isSome_of_mem (dfa.map Prod.fst) K h
  rcases hj : posOf (dfa.map Prod.fst) K with _ | j
  · rw [hj] at hp
    cases hp
  · rw [posR]
    simp only [hj]
    rw [lvlR]
    have hg : (dfa.map Prod.fst).get? (j + 1 - 1) = some K := by
      simp only [Nat.add_sub_cancel]
      exact posOf_get _ K j hj
    simp only [hg]

theorem reindex_edge_lvl {nfa : List (Nat × NState Nat)} {lvl : Nat → Int}
    {dfa : List (List Nat × NState (List Nat))} (hE : EdgesOk nfa lvl)
    (hkeys : KeysUnif nfa lvl dfa) (hedges : EdgesUnif nfa dfa)
    {K : List Nat} {dK : NState (List Nat)} (hK : alookup dfa K = some dK)
    {l : Label} {T : List Nat} (hlT : (l, T) ∈ dK.trans) :
    lvlR lvl dfa (posR dfa T) = lvlR lvl dfa (posR dfa K) + lvlDelta l := by
  have hKmem : K ∈ dfa.map Prod.fst :=
    mem_keys_of_alookup_isSome _ _ (by rw [hK]; rfl)
  obtain ⟨hKne, L, hUK⟩ := hkeys K hKmem
  obtain ⟨hle, hTeq, hTmem⟩ := hedges K dK hK l T hlT
  obtain ⟨hTne, _⟩ := hkeys T hTmem
  have hUT : Unif nfa lvl T (L + lvlDelta l) := by
    rw [hTeq]
    exact unif_targetSet hE K l hUK
  rw [posR_lvlR dfa K hKmem, posR_lvlR dfa T hTmem,
    lvlDof_of_unif hUK hKne, lvlDof_of_unif hUT hTne]

/-- Re-indexing a subset arena that satisfies the key and edge invariants
yields a graded automaton. -/
theorem reindexAuto_graded {nfa : List (Nat × NState Nat)} {lvl : Nat → Int}
    {dfa : List (List Nat × NState (List Nat))} (hE : EdgesOk nfa lvl) (rt : List Nat)
    (hkeys : KeysUnif nfa lvl dfa) (hedges : EdgesUnif nfa dfa)
    (hrt : rt ∈ dfa.map Prod.fst) :
    IsGraded (reindexAuto dfa rt) (lvlR lvl dfa) := by
  rw [reindexAuto_eq]
  have hfind : ∀ i d, alookup (dfa.map fun p => (posR dfa p.1,
        (⟨p.2.trans.map fun e => (e.1, posR dfa e.2), p.2.payload⟩ : NState Nat))) i =
        some d →
      ∃ K dK, alookup dfa K = some dK ∧ i = posR dfa K ∧
        d = ⟨dK.trans.map fun e => (e.1, posR dfa e.2), dK.payload⟩ := by
    intro i d h
    exact alookup_map_pair_elim (fun k => posR dfa k)
      (fun _ dK => ⟨dK.trans.map fun e => (e.1, posR dfa e.2), dK.payload⟩) dfa i d h
  have hpresent : ∀ K, K ∈ dfa.map Prod.fst →
      (alookup (dfa.map fun p => (posR dfa p.1,
        (⟨p.2.trans.map fun e => (e.1, posR dfa e.2), p.2.payload⟩ : NState Nat)))
        (posR dfa K)).isSome := by
    intro K hK
    exact alookup_map_pair_isSome (fun k => posR dfa k)
      (fun _ dK => (⟨dK.trans.map fun e => (e.1, posR dfa e.2), dK.payload⟩ : NState Nat))
      dfa K hK
  constructor
  · -- the root is present
    exact hpresent rt hrt
  · -- closed
    intro i d hid l t hlt
    obtain ⟨K, dK, hK, hi, hd⟩ := hfind i d hid
    rw [hd] at hlt
    rw [List.mem_map] at hlt
    obtain ⟨e, he, hee⟩ := hlt
    have ht : t = posR dfa e.2 := by
      have := congrArg Prod.snd hee
      exact this.symm
    obtain ⟨_, _, hTmem⟩ := hedges K dK hK e.1 e.2 (by
      rcases e with ⟨l0, T0⟩
      exact he)
    rw [ht]
    exact hpresent e.2 hTmem
  · -- no epsilon edges
    intro i d hid t hlt
    obtain ⟨K, dK, hK, hi, hd⟩ := hfind i d hid
    rw [hd] at hlt
    rw [List.mem_map] at hlt
    obtain ⟨e, he, hee⟩ := hlt
    have hl : e.1 = Label.epsilon := congrArg Prod.fst hee
    obtain ⟨hne, _, _⟩ := hedges K dK hK e.1 e.2 (by
      rcases e with ⟨l0, T0⟩
      exact he)
    exact hne hl
  · -- operation heads go one level up
    intro i d hid op t hlt
    obtain ⟨K, dK, hK, hi, hd⟩ := hfind i d hid
    rw [hd] at hlt
    rw [List.mem_map] at hlt
    obtain ⟨e, he, hee⟩ := hlt
    have hl : e.1 = Label.term (.opHead op) := congrArg Prod.fst hee
    have ht : t = posR dfa e.2 := (congrArg Prod.snd hee).symm
    have hstep := reindex_edge_lvl hE hkeys hedges hK (show (e.1, e.2) ∈ dK.trans by
      rcases e with ⟨l0, T0⟩
      exact he)
    rw [hl] at hstep
    rw [ht, hi, hstep]
    rfl
  · -- `OPERATION_END` goes one level down
    intro i d hid t hlt
    obtain ⟨K, dK, hK, hi, hd⟩ := hfind i d hid
    rw [hd] at hlt
    rw [List.mem_map] at hlt
    obtain ⟨e, he, hee⟩ := hlt
    have hl : e.1 = Label.term .opEnd := congrArg Prod.fst hee
    have ht : t = posR dfa e.2 := (congrArg Prod.snd hee).symm
    have hstep := reindex_edge_lvl hE hkeys hedges hK (show (e.1, e.2) ∈ dK.trans by
      rcases e with ⟨l0, T0⟩
      exact he)
    rw [hl] at hstep
    rw [ht, hi, hstep]
    show lvlR lvl dfa (posR dfa K) + (-1) = lvlR lvl dfa (posR dfa K) - 1
    ring
  · -- all other labels stay on the level
    intro i d hid l t hlt hop hend
    obtain ⟨K, dK, hK, hi, hd⟩ := hfind i d hid
    rw [hd] at hlt
    rw [List.mem_map] at hlt
    obtain ⟨e, he, hee⟩ := hlt
    have hl : e.1 = l := congrArg Prod.fst hee
    have ht : t = posR dfa e.2 := (congrArg Prod.snd hee).symm
    have hstep := reindex_edge_lvl hE hkeys hedges hK (show (e.1, e.2) ∈ dK.trans by
      rcases e with ⟨l0, T0⟩
      exact he)
    rw [hl] at hstep
    rw [ht, hi, hstep, lvlDelta_flat l hop hend]
    ring

/-- Determinization and re-indexing of a graded epsilon-NFA with a present
root yields a graded automaton. -/
theorem convertNfaToDfa_graded {nfa : List (Nat × NState Nat)} {lvl : Nat → Int}
    {root fuel : Nat} {A : Auto Nat}
    (hE : EdgesOk nfa lvl) (hroot : (alookup nfa root).isSome)
    (h : convertNfaToDfa nfa root fuel = some A) :
    ∃ lvlN, IsGraded A lvlN := by
  rw [convertNfaToDfa] at h
  rcases hd : dfaLoop nfa fuel [epsClosure nfa [root]]
      [(epsClosure nfa [root], ⟨[], subsetPayload nfa (epsClosure nfa [root])⟩)]
    with _ | dfa <;> simp only [hd] at h
  · cases h
  have hrootmem : root ∈ epsClosure nfa [root] :=
    mem_epsClosure_of_mem [root] root (List.mem_singleton.mpr rfl)
  have hrne : epsClosure nfa [root] ≠ [] := List.ne_nil_of_mem hrootmem
  have hru : Unif nfa lvl (epsClosure nfa [root]) (lvl root) := by
    refine unif_epsClosure hE [root] ?_
    intro x hx
    rcases List.mem_singleton.mp hx with hx
    subst hx
    exact ⟨hroot, rfl⟩
  obtain ⟨d1, d2, d3⟩ := dfaLoop_inv hE fuel [epsClosure nfa [root]]
    [(epsClosure nfa [root], ⟨[], subsetPayload nfa (epsClosure nfa [root])⟩)] dfa
    (by
      intro K hK
      rw [List.map_cons] at hK
      rcases List.mem_cons.mp hK with hK | hK
      · subst hK
        exact ⟨hrne, lvl root, hru⟩
      · simp at hK)
    (by
      intro K hK
      rcases List.mem_cons.mp hK with hK | hK
      · subst hK
        exact List.mem_cons_self _ _
      · simp at hK)
    (by
      intro K d hKd l T hlT
      rw [alookup] at hKd
      by_cases hKr : epsClosure nfa [root] = K
      · rw [if_pos hKr] at hKd
        have hde : (⟨[], subsetPayload nfa (epsClosure nfa [root])⟩ : NState (List Nat))
            = d := Option.some.inj hKd
        rw [← hde] at hlT
        simp at hlT
      · rw [if_neg hKr] at hKd
        cases hKd)
    hd
  have hout : A = reindexAuto dfa (epsClosure nfa [root]) := (Option.some.inj h).symm
  subst hout
  exact ⟨lvlR lvl dfa,
    reindexAuto_graded hE (epsClosure nfa [root]) d1 d2
      (d3 (epsClosure nfa [root]) (List.mem_cons_self _ _))⟩

/-- `_generate_net` (when it terminates within its fuel) produces a graded
automaton. -/
theorem generateNet_graded (ft : List Atom) (lbl : Nat) (fuel : Nat) (A : Auto Nat)
    (h : generateNet ft lbl fuel = some A) : ∃ lvl, IsGraded A lvl := by
  rw [generateNet] at h
  rcases hw : genWalk ⟨[none], [none], [0], 1, 2, [(1, ⟨[], []⟩)]⟩ ft with _ | st <;>
    simp only [hw] at h
  · cases h
  · obtain ⟨lvl, hEok, hroot⟩ := generateNet_nfa_graded ft lbl st hw
    exact convertNfaToDfa_graded hEok hroot h

/-- Any successfully built per-pattern automaton is graded. -/
theorem perPatternNet_graded {p : PatInput} {index fuel : Nat} {A : Auto Nat}
    (h : perPatternNet p index fuel = some A) : ∃ lvl, IsGraded A lvl := by
  rw [perPatternNet] at h
  by_cases hc : (p.isSyn || p.flatterm.length == 1) = true
  · rw [if_pos hc] at h
    have hA : generateSyntacticNet p.flatterm index = A := Option.some.inj h
    subst hA
    exact generateSyntacticNet_graded _ _
  · rw [if_neg hc] at h
    exact generateNet_graded _ _ _ _ h

/-- C9: for every pair of pattern automata produced by the per-pattern
constructions of `DiscriminationNet.add`, `_product_net` terminates: there is
a finite list of `(id1, id2, depth)` keys such that, run with fuel twice that
list's length plus two, the work-list empties and yields a product automaton;
its state keys are pairwise distinct (each queue entry corresponds to the one
key newly created for it) and all drawn from the finite list. -/
theorem claim9_product_net_terminates
    (pA pB : PatInput) (iA iB fuelA fuelB : Nat) (A B : Auto Nat)
    (hA : perPatternNet pA iA fuelA = some A)
    (hB : perPatternNet pB iB fuelB = some B) :
    ∃ (keyspace : List PKey) (net : Auto PKey),
      productNet A B (2 * keyspace.length + 2) = some net ∧
      (net.states.map Prod.fst).Nodup ∧
      (∀ k ∈ net.states.map Prod.fst, k ∈ keyspace) ∧
      net.states.length ≤ keyspace.length := by
  obtain ⟨lvlA, hgA⟩ := perPatternNet_graded hA
  obtain ⟨lvlB, hgB⟩ := perPatternNet_graded hB
  obtain ⟨net, h1, h2, h3, h4⟩ := productNet_terminates hgA hgB
  exact ⟨allKeys A B (maxDepthBound A B lvlA lvlB), net, h1, h2, h3, h4⟩

/-- Witness for C9 at a concrete pair of per-pattern automata. -/
theorem claim9_witness :
    ∃ (keyspace : List PKey) (net : Auto PKey),
      productNet (generateSyntacticNet [Atom.symbol 0 []] 0)
        (generateSyntacticNet [Atom.symbol 1 []] 1)
        (2 * keyspace.length + 2) = some net ∧
      (net.states.map Prod.fst).Nodup ∧
      (∀ k ∈ net.states.map Prod.fst, k ∈ keyspace) ∧
      net.states.length ≤ keyspace.length :=
  claim9_product_net_terminates (.flat [Atom.symbol 0 []]) (.flat [Atom.symbol 1 []])
    0 1 0 0 (generateSyntacticNet [Atom.symbol 0 []] 0)
    (generateSyntacticNet [Atom.symbol 1 []] 1) rfl rfl

end MatchpySyn
